import Mathlib

/-! A shallow embedding of `find.c`.

The program is a minimal recursive `find`.  C strings are modelled as `List Char`
without their terminating NUL; `char` arrays (the static scratch buffers of the
formatter functions) are modelled as `List Char` holding every byte of the array,
NUL bytes included.  The process state that the functions read and write (standard
output, diagnostics, the static buffers) is passed explicitly as a `World`.
Calls that end the process (`exit (-1)`) are the `exit` outcome of a `Res`.
-/

set_option maxRecDepth 100000

namespace Find

/-! ## C strings and character arrays -/

/-- A C string, without its terminating NUL byte. -/
abbrev CStr := List Char

/-- The byte that terminates a C string. -/
def NUL : Char := Char.ofNat 0

/-- The C string that starts at offset `off` of the array `buf` (what `%s` prints for
the pointer `buf + off`): the bytes up to the first NUL.  The bytes after the end of
the array are not modelled: a string without NUL ends with the array. -/
def cstr_at (buf : List Char) (off : Nat) : CStr :=
  (buf.drop off).takeWhile (fun c => c != NUL)

/-- Library `strlen` on an array. -/
def strlen (buf : List Char) : Nat := (cstr_at buf 0).length

/-- Library `strcpy (dst, src)`: the bytes of `src` and a NUL overwrite the start of `dst`. -/
def strcpy (dst : List Char) (src : CStr) : List Char :=
  src ++ NUL :: dst.drop (src.length + 1)

/-- Read of `buf[i]`; an index after the end of the array reads as NUL. -/
def char_at (buf : List Char) (i : Nat) : Char := buf.getD i NUL

/-! ## `sys/stat.h` -/

def S_IFMT : Nat := 0o170000
def S_IFSOCK : Nat := 0o140000
def S_IFLNK : Nat := 0o120000
def S_IFREG : Nat := 0o100000
def S_IFBLK : Nat := 0o060000
def S_IFDIR : Nat := 0o040000
def S_IFCHR : Nat := 0o020000
def S_IFIFO : Nat := 0o010000

def S_ISUID : Nat := 0o4000
def S_ISGID : Nat := 0o2000
def S_ISVTX : Nat := 0o1000

def S_IRUSR : Nat := 0o400
def S_IWUSR : Nat := 0o200
def S_IXUSR : Nat := 0o100
def S_IRGRP : Nat := 0o040
def S_IWGRP : Nat := 0o020
def S_IXGRP : Nat := 0o010
def S_IROTH : Nat := 0o004
def S_IWOTH : Nat := 0o002
def S_IXOTH : Nat := 0o001

def S_ISDIR (m : Nat) : Bool := m &&& S_IFMT == S_IFDIR
def S_ISCHR (m : Nat) : Bool := m &&& S_IFMT == S_IFCHR
def S_ISBLK (m : Nat) : Bool := m &&& S_IFMT == S_IFBLK
def S_ISREG (m : Nat) : Bool := m &&& S_IFMT == S_IFREG
def S_ISFIFO (m : Nat) : Bool := m &&& S_IFMT == S_IFIFO
def S_ISLNK (m : Nat) : Bool := m &&& S_IFMT == S_IFLNK
def S_ISSOCK (m : Nat) : Bool := m &&& S_IFMT == S_IFSOCK

/-- The fields of `struct stat` that the program reads. -/
structure stat where
  st_mode : Nat
  st_ino : Nat
  st_size : Nat
  st_nlink : Nat
  st_uid : Nat
  st_gid : Nat
  st_mtime : Int
  deriving DecidableEq

/-! ## The condition list -/

def COND_NAME : Nat := 1
def COND_TYPE : Nat := 2

def CMD_PRINT : Nat := 1
def CMD_LS : Nat := 2

/-- Structure for holding conditions (`-name`, `-type`). -/
structure condition where
  data : CStr
  reverse : Nat
  type : Nat
  deriving DecidableEq

/-- Adds new condition to the conditions list. -/
def new_condition (data : CStr) (reverse : Nat) (type : Nat) : condition :=
  { data := data, reverse := reverse, type := type }

/-! ## calc_perm_str -/

/-- The permissions string: `sprintf (perm_str, "----------")` followed by the
assignments to `perm_str[0]` .. `perm_str[9]`.  The array has 10 bytes; the value is
the 10 characters that `%s` prints. -/
def calc_perm_str (st_mode : Nat) : List Char :=
  let perm_str := "----------".toList
  let perm_str :=
    if S_ISDIR st_mode then perm_str.set 0 'd'
    else if S_ISCHR st_mode then perm_str.set 0 'c'
    else if S_ISBLK st_mode then perm_str.set 0 'b'
    else if S_ISLNK st_mode then perm_str.set 0 'l'
    else if S_ISFIFO st_mode then perm_str.set 0 'p'
    else if S_ISSOCK st_mode then perm_str.set 0 's'
    else perm_str
  let perm_str := if st_mode &&& S_IRUSR != 0 then perm_str.set 1 'r' else perm_str
  let perm_str := if st_mode &&& S_IWUSR != 0 then perm_str.set 2 'w' else perm_str
  let perm_str := if st_mode &&& S_IXUSR != 0 then perm_str.set 3 'x' else perm_str
  let perm_str := if st_mode &&& S_IRGRP != 0 then perm_str.set 4 'r' else perm_str
  let perm_str := if st_mode &&& S_IWGRP != 0 then perm_str.set 5 'w' else perm_str
  let perm_str := if st_mode &&& S_IXGRP != 0 then perm_str.set 6 'x' else perm_str
  let perm_str := if st_mode &&& S_IROTH != 0 then perm_str.set 7 'r' else perm_str
  let perm_str := if st_mode &&& S_IWOTH != 0 then perm_str.set 8 'w' else perm_str
  let perm_str := if st_mode &&& S_IXOTH != 0 then perm_str.set 9 'x' else perm_str
  perm_str

/-! ## calc_basename -/

/-- First loop of `calc_basename` ("strip last backslashes"):
`for (i = strlen(tmp); i > 0 && tmp[i] == '/'; --i) tmp[i] = '\0';`
started at index `i`; returns the array and the final `i`. -/
def strip_loop (tmp : List Char) : Nat → List Char × Nat
  | 0 => (tmp, 0)
  | i + 1 =>
    if char_at tmp (i + 1) = '/' then strip_loop (tmp.set (i + 1) NUL) i
    else (tmp, i + 1)

/-- Second loop of `calc_basename` ("find last backslash"):
`for (; i > 0 && tmp[i] != '/'; --i);` started at index `i`; returns the final `i`. -/
def find_loop (tmp : List Char) : Nat → Nat
  | 0 => 0
  | i + 1 => if char_at tmp (i + 1) ≠ '/' then find_loop tmp i else i + 1

/-- The basename of the path.  `tmp` is the content of the static array on entry; the
result is the content of the array on return and the C string at `tmp + i + 1`. -/
def calc_basename (tmp : List Char) (path : CStr) : List Char × CStr :=
  let tmp := tmp.set 0 NUL
  let tmp := strcpy tmp path
  let r := strip_loop tmp (strlen tmp)
  let i := find_loop r.1 r.2
  (r.1, cstr_at r.1 (i + 1))

/-- The static array `tmp[MAX_PATH]` at program start (zero-initialised). -/
def zero_buf (n : Nat) : List Char := List.replicate n NUL

/-! ## Process state -/

/-- The state the functions of the program read and write: what has been written to
standard output, the diagnostics written to standard error (one entry per `perror` or
`fprintf (stderr, ...)` call, holding the text given to the call), and the two static
arrays whose content survives from one call to the next. -/
structure World where
  stdout : List Char
  stderr : List CStr
  tmp : List Char
  link_dest : List Char
  deriving DecidableEq

/-- Outcome of a call: it returns (`ok`), or the process ends inside it (`exit`). -/
inductive Res (α : Type) where
  | ok (a : α) (w : World)
  | exit (w : World)
  deriving DecidableEq

/-- The state in which an outcome leaves the process. -/
def Res.world {α : Type} : Res α → World
  | .ok _ w => w
  | .exit w => w

/-- Write to standard output. -/
def printf (s : List Char) (w : World) : World := { w with stdout := w.stdout ++ s }

/-- Library `perror (s)` and `fprintf (stderr, s)`: one diagnostic. -/
def perror (s : CStr) (w : World) : World := { w with stderr := w.stderr ++ [s] }

/-- The fields of `struct tm` that the format of `calc_date_str` reads. -/
structure tm where
  tm_year : Int
  tm_mon : Nat
  tm_mday : Nat
  tm_hour : Nat
  tm_min : Nat
  deriving DecidableEq

/-- The C library and the system databases the program calls into: `fnmatch` with
flags 0 (true when it returns 0), `getpwuid` and `getgrgid` (the `pw_name`, `gr_name`
of the entry found), `localtime`, and the constant `MAX_PATH`. -/
structure Env where
  fnmatch : CStr → CStr → Bool
  getpwuid : Nat → Option CStr
  getgrgid : Nat → Option CStr
  localtime : Int → Option tm
  MAX_PATH : Nat

/-- The process state at program start: nothing written, static arrays zeroed. -/
def World.init (e : Env) : World :=
  { stdout := [], stderr := [], tmp := zero_buf e.MAX_PATH, link_dest := zero_buf e.MAX_PATH }

/-! ## Formatting -/

/-- Conversion `%d` of `printf` as `find_r` uses it, on `st_ino`, `st_size/1024` and
`st_nlink`: the conversion prints an `int`, so of a wider argument the low 32 bits are
printed, as a signed number. -/
def fmt_d (v : Nat) : List Char :=
  (toString (((v : Int) + 2 ^ 31) % 2 ^ 32 - 2 ^ 31)).toList

/-- Conversion `%ld` of `printf` applied to `st_size`, which is a `long`: the number in
decimal. -/
def fmt_ld (v : Nat) : List Char := (toString v).toList

/-- A field of `strftime` printed on two digits, with a leading zero below 10 (`%d`,
`%m`, `%H`, `%M`). -/
def pad2 (n : Nat) : List Char :=
  if n < 10 then '0' :: (toString n).toList else (toString n).toList

/-- Library `strftime` with the format `"%Y-%d-%m %H:%M"`: year, day of month, month,
hour, minute. -/
def strftime (t : tm) : List Char :=
  (toString (t.tm_year + 1900)).toList ++ '-' :: pad2 t.tm_mday ++ '-' :: pad2 (t.tm_mon + 1)
    ++ ' ' :: pad2 t.tm_hour ++ ':' :: pad2 t.tm_min

/-- The date string, in the yyyy-dd-mm HH:MM format. -/
def calc_date_str (e : Env) (time : Int) (w : World) : Res CStr :=
  match e.localtime time with
  | none => .exit (perror "localtime".toList w)
  | some t => .ok (strftime t) w

/-- Library `readlink (path, buf, bufsiz)` for a link whose content is `target`: at most
`bufsiz` bytes of the content overwrite the start of `buf`; no NUL is written. -/
def readlink (target : CStr) (buf : List Char) (bufsiz : Nat) : List Char :=
  target.take bufsiz ++ buf.drop (min target.length bufsiz)

/-- The link contents.  `link` is what `readlink` finds at the path (`none`: it
returns -1). -/
def calc_link_dest (e : Env) (link : Option CStr) (w : World) : Res CStr :=
  match link with
  | none => .exit (perror "readlink".toList w)
  | some target =>
    let link_dest := readlink target w.link_dest e.MAX_PATH
    .ok (cstr_at link_dest 0) { w with link_dest := link_dest }

/-! ## The condition loop of `find_r` -/

/-- The diagnostic of an unknown `-type` letter. -/
def type_usage : CStr := "-type only accepts 'f','p','b','c','d','s' or 'l'.\n".toList

/-- The `switch (cond->type)` statement of the loop body: the new value of `cond_true`. -/
def cond_switch (e : Env) (path : CStr) (f_stat : stat) (cond : condition)
    (cond_true : Bool) (w : World) : Res Bool :=
  if cond.type = COND_NAME then
    let r := calc_basename w.tmp path
    .ok (e.fnmatch cond.data r.2) { w with tmp := r.1 }
  else if cond.type = COND_TYPE then
    let c := cond.data.headD NUL
    if c = 'f' then .ok (S_ISREG f_stat.st_mode) w
    else if c = 'p' then .ok (S_ISFIFO f_stat.st_mode) w
    else if c = 'b' then .ok (S_ISBLK f_stat.st_mode) w
    else if c = 'c' then .ok (S_ISCHR f_stat.st_mode) w
    else if c = 'd' then .ok (S_ISDIR f_stat.st_mode) w
    else if c = 'l' then .ok (S_ISLNK f_stat.st_mode) w
    else if c = 's' then .ok (S_ISSOCK f_stat.st_mode) w
    else .exit (perror type_usage w)
  else .ok cond_true w

/-- The statement `if (cond->reverse) cond_true = !cond_true;`. -/
def apply_reverse (cond : condition) (cond_true : Bool) : Bool :=
  if cond.reverse ≠ 0 then !cond_true else cond_true

/-- The loop `for (i=0; i<cond_l->length; i++)` of `find_r` over the conditions still
to be checked, with the current value of `cond_true`. -/
def cond_loop (e : Env) (path : CStr) (f_stat : stat) :
    List condition → Bool → World → Res Bool
  | [], cond_true, w => .ok cond_true w
  | cond :: rest, cond_true, w =>
    match cond_switch e path f_stat cond cond_true w with
    | .exit w => .exit w
    | .ok cond_true w =>
      let cond_true := apply_reverse cond cond_true
      if !cond_true then .ok cond_true w
      else cond_loop e path f_stat rest cond_true w

/-- The condition part of `find_r`: `cond_true = (cond_l->length == 0)` and the loop. -/
def eval_conds (e : Env) (path : CStr) (f_stat : stat) (cond_l : List condition)
    (w : World) : Res Bool :=
  cond_loop e path f_stat cond_l (cond_l.length == 0) w

/-! ## The command of `find_r` -/

/-- The `case CMD_LS` branch. -/
def cmd_ls (e : Env) (path : CStr) (f_stat : stat) (link : Option CStr) (w : World) :
    Res Unit :=
  match e.getpwuid f_stat.st_uid with
  | none => .exit (perror "getpwuid".toList w)
  | some pw_name =>
    match e.getgrgid f_stat.st_gid with
    | none => .exit (perror "getgrgid".toList w)
    | some gr_name =>
      let w := printf (fmt_d f_stat.st_ino ++ ' ' :: fmt_d (f_stat.st_size / 1024)
        ++ ' ' :: calc_perm_str f_stat.st_mode ++ ' ' :: fmt_d f_stat.st_nlink
        ++ ' ' :: pw_name ++ ' ' :: gr_name) w
      let w :=
        if !S_ISBLK f_stat.st_mode && !S_ISCHR f_stat.st_mode then
          printf (' ' :: fmt_ld f_stat.st_size) w
        else w
      match calc_date_str e f_stat.st_mtime w with
      | .exit w => .exit w
      | .ok date_str w =>
        let w := printf (' ' :: date_str ++ ' ' :: path) w
        if S_ISLNK f_stat.st_mode then
          match calc_link_dest e link w with
          | .exit w => .exit w
          | .ok link_dest w => .ok () (printf (" -> ".toList ++ link_dest ++ ['\n']) w)
        else .ok () (printf ['\n'] w)

/-- The statement `switch (cmd)` ("perform the command"). -/
def perform_cmd (e : Env) (cmd : Nat) (path : CStr) (f_stat : stat) (link : Option CStr)
    (w : World) : Res Unit :=
  if cmd = CMD_PRINT then .ok () (printf (path ++ ['\n']) w)
  else if cmd = CMD_LS then cmd_ls e path f_stat link w
  else .ok () w

/-! ## The filesystem and `find_r` -/

mutual
/-- What the filesystem answers at one path: the result of `lstat` (`none`: it fails),
the result of `readlink`, whether `opendir` succeeds, and the entries that `readdir`
then returns, in order, each with what the filesystem answers at the entry. -/
inductive Node where
  | mk (lstat : Option stat) (readlink : Option CStr) (opendir : Bool) (readdir : DirList)
/-- The stream of a directory: names (`d_name`) in the order of `readdir`. -/
inductive DirList where
  | nil
  | cons (d_name : CStr) (child : Node) (rest : DirList)
end

/-- The test `!strcmp(dir->d_name, ".") || !strcmp(dir->d_name, "..")`. -/
def is_dot (d_name : CStr) : Bool := d_name == ".".toList || d_name == "..".toList

/-- The next path: `sprintf (nextpath, "%s/%s", path, dir->d_name)`. -/
def next_path (path d_name : CStr) : CStr := path ++ '/' :: d_name

mutual
/-- Recursive find function. -/
def find_r (e : Env) (cond_l : List condition) (cmd : Nat) :
    CStr → Node → World → Res Unit
  | path, .mk lstat link opendir ents, w =>
    match lstat with
    | none => .ok () (perror path w)
    | some f_stat =>
      match eval_conds e path f_stat cond_l w with
      | .exit w => .exit w
      | .ok cond_true w =>
        match (if cond_true then perform_cmd e cmd path f_stat link w else .ok () w) with
        | .exit w => .exit w
        | .ok _ w =>
          if S_ISDIR f_stat.st_mode then
            if opendir then readdir_loop e cond_l cmd path ents w
            else .ok () (perror path w)
          else .ok () w
/-- The loop `while ((dir = readdir (dirp)) != NULL)` of `find_r`. -/
def readdir_loop (e : Env) (cond_l : List condition) (cmd : Nat) :
    CStr → DirList → World → Res Unit
  | _, .nil, w => .ok () w
  | path, .cons d_name child rest, w =>
    if is_dot d_name then readdir_loop e cond_l cmd path rest w
    else
      match find_r e cond_l cmd (next_path path d_name) child w with
      | .exit w => .exit w
      | .ok _ w => readdir_loop e cond_l cmd path rest w
end

/-- The loop of `main` over the starting paths ("for each provided path, run the find
procedure"); `fs` is what the filesystem answers at each starting path. -/
def main_loop (e : Env) (cond_l : List condition) (cmd : Nat) (fs : CStr → Node) :
    List CStr → World → Res Unit
  | [], w => .ok () w
  | path :: rest, w =>
    match find_r e cond_l cmd path (fs path) w with
    | .exit w => .exit w
    | .ok _ w => main_loop e cond_l cmd fs rest w

/-! ## Definitions used to state the properties -/

/-- The letters that the `-type` switch of `find_r` accepts. -/
def type_letters : List Char := ['f', 'p', 'b', 'c', 'd', 'l', 's']

/-- A condition of one of the two kinds that `main` builds, whose letter, for a `-type`
condition, is one that the switch accepts. -/
def condition.recognized (c : condition) : Bool :=
  c.type == COND_NAME || (c.type == COND_TYPE && type_letters.contains (c.data.headD NUL))

/-- The result of the single condition `cond` on the entry (`path`, `f_stat`), its
`reverse` flag applied, when checked in the state `w`; `none` when the check ends the
process. -/
def cond_result (e : Env) (path : CStr) (f_stat : stat) (w : World) (cond : condition) :
    Option Bool :=
  match cond_switch e path f_stat cond false w with
  | .ok b _ => some (apply_reverse cond b)
  | .exit _ => none

/-- The test that the `-type` switch of `find_r` makes for a letter; `none` for a letter
of the `default` case. -/
def type_test (letter : Char) (st_mode : Nat) : Option Bool :=
  if letter = 'f' then some (S_ISREG st_mode)
  else if letter = 'd' then some (S_ISDIR st_mode)
  else if letter = 'l' then some (S_ISLNK st_mode)
  else if letter = 'p' then some (S_ISFIFO st_mode)
  else if letter = 'b' then some (S_ISBLK st_mode)
  else if letter = 'c' then some (S_ISCHR st_mode)
  else if letter = 's' then some (S_ISSOCK st_mode)
  else none

/-- The result of one condition on the entry (`path`, `f_stat`) before any negation:
for a `-name` condition, whether its pattern matches the basename that `calc_basename`
gives for the path (with the static array as it is in `w`); for a `-type` condition,
whether the entry is of the type that the letter names. -/
def individual_result (e : Env) (path : CStr) (f_stat : stat) (w : World) (c : condition) :
    Bool :=
  if c.type = COND_NAME then e.fnmatch c.data (calc_basename w.tmp path).2
  else type_test (c.data.headD NUL) f_stat.st_mode == some true

/-- Letter of the file type that `calc_perm_str` stores in `perm_str[0]`. -/
def type_char (m : Nat) : Char :=
  if S_ISDIR m then 'd' else if S_ISCHR m then 'c' else if S_ISBLK m then 'b'
  else if S_ISLNK m then 'l' else if S_ISFIFO m then 'p' else if S_ISSOCK m then 's' else '-'

/-- The decision of an outcome negated. -/
def Res.not : Res Bool → Res Bool
  | .ok b w => .ok (!b) w
  | .exit w => .exit w

/-- The value that an outcome returns; `none` when the process ended. -/
def Res.value {α : Type} : Res α → Option α
  | .ok a _ => some a
  | .exit _ => none

/-- The text of a sequence of lines: every line followed by a newline. -/
def lines : List CStr → List Char
  | [] => []
  | p :: ps => p ++ '\n' :: lines ps

mutual
/-- The nodes of the tree that the filesystem holds at `path`, each with its path and
its `lstat` record, parents before their entries, entries in `readdir` order.  The
entries of a directory are the names of its stream other than `.` and `..`; a path
that cannot be stat'ed holds no node, a directory that cannot be opened has no
entries. -/
def Node.entries (path : CStr) : Node → List (CStr × stat)
  | .mk lstat _ opendir ents =>
    match lstat with
    | none => []
    | some f_stat =>
      (path, f_stat) ::
        (if S_ISDIR f_stat.st_mode && opendir then DirList.entries path ents else [])
/-- The nodes below a directory whose path is `path` and whose stream is the argument. -/
def DirList.entries (path : CStr) : DirList → List (CStr × stat)
  | .nil => []
  | .cons d_name child rest =>
    (if is_dot d_name then [] else Node.entries (next_path path d_name) child)
      ++ DirList.entries path rest
end

/-- The paths of the nodes of the tree at `path`. -/
def Node.paths (path : CStr) (n : Node) : List CStr := (Node.entries path n).map Prod.fst

mutual
/-- Number of entries below the root of a tree: the entries of every directory of it. -/
def Node.count : Node → Nat
  | .mk lstat _ _ ents =>
    match lstat with
    | none => 0
    | some f_stat => if S_ISDIR f_stat.st_mode then DirList.count ents else 0
/-- Number of entries in and below the entries of a directory stream. -/
def DirList.count : DirList → Nat
  | .nil => 0
  | .cons d_name child rest =>
    (if is_dot d_name then 0 else 1 + Node.count child) + DirList.count rest
end

mutual
/-- Every node of the tree can be stat'ed and every directory of it can be opened. -/
def Node.healthy : Node → Bool
  | .mk lstat _ opendir ents =>
    match lstat with
    | none => false
    | some f_stat => if S_ISDIR f_stat.st_mode then opendir && DirList.healthy ents else true
/-- Every entry of the stream is the root of a healthy tree. -/
def DirList.healthy : DirList → Bool
  | .nil => true
  | .cons d_name child rest => (is_dot d_name || Node.healthy child) && DirList.healthy rest
end

/-- The names of a directory stream. -/
def DirList.names : DirList → List CStr
  | .nil => []
  | .cons d_name _ rest => d_name :: DirList.names rest

mutual
/-- In every directory of the tree the names are distinct and hold no `/`. -/
def Node.names_ok : Node → Bool
  | .mk _ _ _ ents => DirList.names_ok ents
/-- The names of the stream are distinct and hold no `/`, and so below each entry. -/
def DirList.names_ok : DirList → Bool
  | .nil => true
  | .cons d_name child rest =>
    !d_name.contains '/' && !(DirList.names rest).contains d_name
      && Node.names_ok child && DirList.names_ok rest
end

/-- The paths among `l` on which the decision `d` is true. -/
def selected (d : CStr → stat → Bool) (l : List (CStr × stat)) : List CStr :=
  (l.filter fun x => d x.1 x.2).map Prod.fst

/-- The nodes of the trees at the starting paths, in order. -/
def all_entries (fs : CStr → Node) : List CStr → List (CStr × stat)
  | [] => []
  | p :: ps => Node.entries p (fs p) ++ all_entries fs ps

/-- A model of the library `fnmatch` with flags 0 on patterns made of ordinary
characters, `*` and `?` (bracket expressions and escapes are not modelled); used for
concrete environments. -/
def glob_match : List Char → List Char → Bool
  | [], s => s.isEmpty
  | c :: p, s =>
    if c = '*' then s.tails.any (glob_match p)
    else
      match s with
      | [] => false
      | d :: t => (c == '?' || c == d) && glob_match p t

/-- The civil date (year, month 1 to 12, day of month) of a day counted from
1970-01-01, in the Gregorian calendar. -/
def civil_from_days (days : Int) : Int × Nat × Nat :=
  let z := days + 719468
  let era := z / 146097
  let doe := (z - era * 146097).toNat
  let yoe := (doe - doe / 1460 + doe / 36524 - doe / 146096) / 365
  let y : Int := (yoe : Int) + era * 400
  let doy := doe - (365 * yoe + yoe / 4 - yoe / 100)
  let mp := (5 * doy + 2) / 153
  let d := doy - (153 * mp + 2) / 5 + 1
  let m := if mp < 10 then mp + 3 else mp - 9
  (if m ≤ 2 then y + 1 else y, m, d)

/-- A model of the library `localtime` for a time zone without offset: the fields of
the civil time; it fails (NULL) when the year does not fit the `int` field `tm_year`. -/
def localtime_utc (t : Int) : Option tm :=
  let c := civil_from_days (t / 86400)
  let secs := (t % 86400).toNat
  let tm_year := c.1 - 1900
  if tm_year < -(2 ^ 31) ∨ 2 ^ 31 ≤ tm_year then none
  else some { tm_year := tm_year, tm_mon := c.2.1 - 1, tm_mday := c.2.2,
              tm_hour := secs / 3600, tm_min := secs % 3600 / 60 }

/-- A concrete environment: `fnmatch` is `glob_match`, user 1000 is alice, group 50 is
staff and no other id is known, the time zone has no offset (the time 1710498600 is
2024-03-15 10:30), `MAX_PATH` is 256. -/
def env0 : Env :=
  { fnmatch := glob_match
    getpwuid := fun uid => if uid = 1000 then some "alice".toList else none
    getgrgid := fun gid => if gid = 50 then some "staff".toList else none
    localtime := localtime_utc
    MAX_PATH := 256 }

/-- A regular file, mode rw-r--r--, inode `ino`, owned by alice and staff. -/
def reg_file (ino size : Nat) : Node :=
  .mk (some { st_mode := 0o100644, st_ino := ino, st_size := size, st_nlink := 1,
              st_uid := 1000, st_gid := 50, st_mtime := 1710498600 }) none false .nil

/-- A directory, mode rwxr-xr-x, that can be opened, with the given stream. -/
def directory (ino : Nat) (ents : DirList) : Node :=
  .mk (some { st_mode := 0o040755, st_ino := ino, st_size := 4096, st_nlink := 2,
              st_uid := 1000, st_gid := 50, st_mtime := 1710498600 }) none true ents

/-- A symbolic link with the given content. -/
def symlink (ino : Nat) (target : CStr) : Node :=
  .mk (some { st_mode := 0o120777, st_ino := ino, st_size := target.length, st_nlink := 1,
              st_uid := 1000, st_gid := 50, st_mtime := 1710498600 }) (some target) false .nil

/-- Whether `lstat` succeeds at the root of the tree. -/
def Node.statable : Node → Bool
  | .mk lstat _ _ _ => lstat.isSome

mutual
/-- The tree without what fails in it: every entry that cannot be stat'ed is removed
from the stream of its directory, and a directory that cannot be opened is replaced by
a directory that can be opened and has no entry. -/
def Node.prune : Node → Node
  | .mk lstat link opendir ents =>
    match lstat with
    | none => .mk none link opendir ents
    | some f_stat =>
      if S_ISDIR f_stat.st_mode then
        if opendir then .mk (some f_stat) link true (DirList.prune ents)
        else .mk (some f_stat) link true .nil
      else .mk (some f_stat) link opendir ents
/-- The stream without the entries that cannot be stat'ed, the others pruned. -/
def DirList.prune : DirList → DirList
  | .nil => .nil
  | .cons d_name child rest =>
    if Node.statable child then .cons d_name (Node.prune child) (DirList.prune rest)
    else DirList.prune rest
end

mutual
/-- The paths of the failing nodes of a tree, in the order of the walk: the nodes that
cannot be stat'ed and the directories that cannot be opened. -/
def Node.failing (path : CStr) : Node → List CStr
  | .mk lstat _ opendir ents =>
    match lstat with
    | none => [path]
    | some f_stat =>
      if S_ISDIR f_stat.st_mode then
        if opendir then DirList.failing path ents else [path]
      else []
/-- The failing nodes below a directory. -/
def DirList.failing (path : CStr) : DirList → List CStr
  | .nil => []
  | .cons d_name child rest =>
    (if is_dot d_name then [] else Node.failing (next_path path d_name) child)
      ++ DirList.failing path rest
end

/-- The state with the diagnostics left out. -/
def World.quiet (w : World) : World := { w with stderr := [] }

/-- The outcome with the diagnostics left out. -/
def Res.quiet {α : Type} : Res α → Res α
  | .ok a w => .ok a w.quiet
  | .exit w => .exit w.quiet

/-- The state with the diagnostics `s` written before its own. -/
def World.push (s : List CStr) (w : World) : World := { w with stderr := s ++ w.stderr }

/-- The outcome with the diagnostics `s` written before its own. -/
def Res.push {α : Type} (s : List CStr) : Res α → Res α
  | .ok a w => .ok a (w.push s)
  | .exit w => .exit (w.push s)

/-- A tree with 3 directories (`x`, `y`, `y/z`) and 5 files below its root directory;
the streams of the root and of `y` also give `.` and `..`. -/
def tree0 : Node :=
  directory 1
    (.cons ".".toList (directory 1 .nil) (.cons "..".toList (directory 0 .nil)
    (.cons "x".toList (directory 2
        (.cons "f1".toList (reg_file 3 10) (.cons "f2".toList (reg_file 4 2048) .nil)))
    (.cons "y".toList (directory 5
        (.cons "z".toList (directory 6 (.cons "f3".toList (reg_file 7 0) .nil))
        (.cons ".".toList (directory 5 .nil) (.cons "..".toList (directory 1 .nil)
        (.cons "f4".toList (reg_file 8 1) .nil)))))
    (.cons "f5".toList (reg_file 9 5000) .nil)))))

/-- A filesystem that holds `tree0` at `/r` and nothing that can be stat'ed elsewhere. -/
def fs0 (path : CStr) : Node :=
  if path = "/r".toList then tree0 else .mk none none false .nil

/-- A directory `/r` with a file `a`, an entry `bad` that cannot be stat'ed, a directory
`locked` that cannot be opened, and a file `z`. -/
def tree1 : Node :=
  directory 1
    (.cons "a".toList (reg_file 2 10)
    (.cons "bad".toList (.mk none none false .nil)
    (.cons "locked".toList
      (.mk (some { st_mode := 0o040700, st_ino := 3, st_size := 4096, st_nlink := 2,
                   st_uid := 1000, st_gid := 50, st_mtime := 1710498600 }) none false .nil)
    (.cons "z".toList (reg_file 4 10) .nil))))

/-- The part of a string after its last `/`; the whole string when it holds no `/`. -/
def after_last_slash (s : List Char) : List Char :=
  (s.reverse.takeWhile fun c => c != '/').reverse

/-! ## The argument loop of `main` -/

/-- Adds new node to the list. -/
def push_l {α : Type} (l : List α) (node : α) : List α := l ++ [node]

/-- The variables of `main` that its argument loop sets.  `null_data` tells that a
`-name` or `-type` was the last argument: the condition built for it took as data the
NULL pointer that ends `argv`; it stands in `cond_l` with empty data, and what the
program does with it is not modelled. -/
structure Parsed where
  cond_l : List condition
  path_l : List CStr
  cmd : Nat
  reverse : Nat
  arg_path : Nat
  null_data : Bool
  deriving DecidableEq

/-- The variables of `main` before the loop: `cmd = CMD_PRINT`, `reverse = 0`,
`arg_path = 1`, both lists empty. -/
def Parsed.start : Parsed :=
  { cond_l := [], path_l := [], cmd := CMD_PRINT, reverse := 0, arg_path := 1,
    null_data := false }

/-- The loop `for (i=1; i<argc; i++)` of `main` over the arguments still to be read. -/
def parse_loop : List CStr → Parsed → Parsed
  | [], s => s
  | a :: rest, s =>
    if a = "!".toList then parse_loop rest { s with arg_path := 0, reverse := 1 }
    else if a = "-name".toList then
      match rest with
      | [] =>
        { s with arg_path := 0, reverse := 0, null_data := true
                 cond_l := push_l s.cond_l (new_condition [] s.reverse COND_NAME) }
      | data :: rest2 =>
        parse_loop rest2
          { s with arg_path := 0, reverse := 0
                   cond_l := push_l s.cond_l (new_condition data s.reverse COND_NAME) }
    else if a = "-type".toList then
      match rest with
      | [] =>
        { s with arg_path := 0, reverse := 0, null_data := true
                 cond_l := push_l s.cond_l (new_condition [] s.reverse COND_TYPE) }
      | data :: rest2 =>
        parse_loop rest2
          { s with arg_path := 0, reverse := 0
                   cond_l := push_l s.cond_l (new_condition data s.reverse COND_TYPE) }
    else if a = "-print".toList then { s with cmd := CMD_PRINT }
    else if a = "-ls".toList then { s with cmd := CMD_LS }
    else if s.arg_path ≠ 0 then parse_loop rest { s with path_l := push_l s.path_l a }
    else parse_loop rest s

/-- The usage message of `main`. -/
def usage (argv0 : CStr) : CStr :=
  "USAGE: ".toList ++ argv0 ++ " path1 [ path2 ... path<N> ] expression\n".toList

/-- The program: the argument loop, the test that a path was given, and the loop over
the paths.  `argv` holds the program name and the arguments; `fs` is what the
filesystem holds at each starting path.  The result is `none` when a condition was
built from the NULL that ends `argv`. -/
def main (e : Env) (fs : CStr → Node) (argv : List CStr) (w : World) : Option (Res Unit) :=
  let s := parse_loop argv.tail Parsed.start
  if s.null_data then none
  else if s.path_l.length == 0 then some (.exit (perror (usage (argv.headD [])) w))
  else some (main_loop e s.cond_l s.cmd fs s.path_l w)

/-- The five arguments that `main` reads as part of the expression. -/
def is_expression_token (a : CStr) : Bool :=
  a == "!".toList || a == "-name".toList || a == "-type".toList || a == "-print".toList
    || a == "-ls".toList

/-- Every `-name` and `-type` that the argument loop reads as an option (before any
`-print` or `-ls`, and not as the argument of another option) is followed by an
argument. -/
def args_complete : List CStr → Bool
  | [] => true
  | a :: rest =>
    if a = "-print".toList ∨ a = "-ls".toList then true
    else if a = "-name".toList ∨ a = "-type".toList then
      match rest with
      | [] => false
      | _ :: rest2 => args_complete rest2
    else args_complete rest

/-- The condition list that the arguments ask for, in the words of the specification:
one condition for each `-name` or `-type` read as an option, in order, with the
argument that follows as its pattern, negated exactly when a `!` was read since the
previous condition (`neg`); `-print` and `-ls` end the reading. -/
def spec_conditions : List CStr → Bool → List condition
  | [], _ => []
  | a :: rest, neg =>
    if a = "-print".toList ∨ a = "-ls".toList then []
    else if a = "!".toList then spec_conditions rest true
    else if a = "-name".toList then
      match rest with
      | [] => []
      | pattern :: rest2 =>
        { data := pattern, reverse := if neg then 1 else 0, type := COND_NAME }
          :: spec_conditions rest2 false
    else if a = "-type".toList then
      match rest with
      | [] => []
      | pattern :: rest2 =>
        { data := pattern, reverse := if neg then 1 else 0, type := COND_TYPE }
          :: spec_conditions rest2 false
    else spec_conditions rest neg

/-! ## The entries that the walk reports -/

mutual
/-- The entries that the walk of the tree at `path` visits, in the order of the walk,
each with its path, its `lstat` record and what `readlink` finds at it. -/
def Node.visits (path : CStr) : Node → List (CStr × stat × Option CStr)
  | .mk lstat link opendir ents =>
    match lstat with
    | none => []
    | some f_stat =>
      (path, f_stat, link) ::
        (if S_ISDIR f_stat.st_mode && opendir then DirList.visits path ents else [])
/-- The entries visited below a directory whose path is `path`. -/
def DirList.visits (path : CStr) : DirList → List (CStr × stat × Option CStr)
  | .nil => []
  | .cons d_name child rest =>
    (if is_dot d_name then [] else Node.visits (next_path path d_name) child)
      ++ DirList.visits path rest
end

/-- The command performed on the entries of a list, one after the other. -/
def report (e : Env) (cmd : Nat) : List (CStr × stat × Option CStr) → World → Res Unit
  | [], w => .ok () w
  | v :: rest, w =>
    match perform_cmd e cmd v.1 v.2.1 v.2.2 w with
    | .exit w => .exit w
    | .ok _ w => report e cmd rest w

/-- Whether the condition list holds on an entry: the decision of the condition part
of `find_r`, taken in the state of the program start. -/
def holds (e : Env) (P : List condition) (path : CStr) (f_stat : stat) : Bool :=
  (eval_conds e path f_stat P (World.init e)).value == some true

/-- The entries of the tree at `path` on which the condition list holds. -/
def Node.reported (e : Env) (P : List condition) (path : CStr) (n : Node) :
    List (CStr × stat × Option CStr) :=
  (Node.visits path n).filter fun v => holds e P v.1 v.2.1

/-- The state with the static array `tmp` replaced. -/
def World.set_tmp (t : List Char) (w : World) : World := { w with tmp := t }

/-- The outcome with the static array `tmp` replaced. -/
def Res.set_tmp {α : Type} (t : List Char) : Res α → Res α
  | .ok a w => .ok a (w.set_tmp t)
  | .exit w => .exit (w.set_tmp t)

/-- The state as seen from outside on standard output: the diagnostics and the array
of `calc_basename` left out. -/
def World.shown (w : World) : World := { w with stderr := [], tmp := [] }

/-- The outcome as seen from outside on standard output. -/
def Res.shown {α : Type} : Res α → Res α
  | .ok a w => .ok a w.shown
  | .exit w => .exit w.shown

/-- One call, then, unless the process ended, what follows. -/
def Res.andThen (r : Res Unit) (k : World → Res Unit) : Res Unit :=
  match r with
  | .exit w => .exit w
  | .ok _ w => k w

mutual
/-- No name in the tree holds a NUL byte. -/
def Node.names_cstr : Node → Bool
  | .mk _ _ _ ents => DirList.names_cstr ents
/-- No name of the stream, nor below, holds a NUL byte. -/
def DirList.names_cstr : DirList → Bool
  | .nil => true
  | .cons d_name child rest =>
    !d_name.contains NUL && Node.names_cstr child && DirList.names_cstr rest
end

/-- A directory (with the given `lstat` record) whose stream gives `.`, `..`, `a.txt`
and `b.log`. -/
def dir_ab (d_stat : stat) (a b : Node) : Node :=
  .mk (some d_stat) none true
    (.cons ".".toList (.mk (some d_stat) none true .nil)
    (.cons "..".toList (.mk (some d_stat) none true .nil)
    (.cons "a.txt".toList a (.cons "b.log".toList b .nil))))


/-! ## The order of the reported entries -/

/-- Whether the path `q` is the path `p` or a path below it: `p` itself, or `p`
followed by a `/` and more. -/
def under (p q : CStr) : Bool :=
  p.isPrefixOf q &&
    match q.drop p.length with
    | [] => true
    | c :: _ => c == '/'

mutual
/-- The nodes that the walk of the tree at `path` visits, each with its path, in the
order of the walk. -/
def Node.subtrees (path : CStr) : Node → List (CStr × Node)
  | .mk lstat link opendir ents =>
    match lstat with
    | none => []
    | some f_stat =>
      (path, .mk (some f_stat) link opendir ents) ::
        (if S_ISDIR f_stat.st_mode && opendir then DirList.subtrees path ents else [])
/-- The nodes visited below a directory whose path is `path`. -/
def DirList.subtrees (path : CStr) : DirList → List (CStr × Node)
  | .nil => []
  | .cons d_name child rest =>
    (if is_dot d_name then [] else Node.subtrees (next_path path d_name) child)
      ++ DirList.subtrees path rest
end
theorem ite_cons_list {α : Type} (c : Prop) [Decidable c] (a b : α) (l r : List α) :
    (if c then a :: l else b :: r) = (if c then a else b) :: (if c then l else r) := by
  split <;> rfl

theorem calc_perm_str_eq (m : Nat) :
    calc_perm_str m =
      [type_char m,
       if m &&& S_IRUSR != 0 then 'r' else '-',
       if m &&& S_IWUSR != 0 then 'w' else '-',
       if m &&& S_IXUSR != 0 then 'x' else '-',
       if m &&& S_IRGRP != 0 then 'r' else '-',
       if m &&& S_IWGRP != 0 then 'w' else '-',
       if m &&& S_IXGRP != 0 then 'x' else '-',
       if m &&& S_IROTH != 0 then 'r' else '-',
       if m &&& S_IWOTH != 0 then 'w' else '-',
       if m &&& S_IXOTH != 0 then 'x' else '-'] := by
  have h0 : (if S_ISDIR m then "----------".toList.set 0 'd'
    else if S_ISCHR m then "----------".toList.set 0 'c'
    else if S_ISBLK m then "----------".toList.set 0 'b'
    else if S_ISLNK m then "----------".toList.set 0 'l'
    else if S_ISFIFO m then "----------".toList.set 0 'p'
    else if S_ISSOCK m then "----------".toList.set 0 's'
    else "----------".toList) = [type_char m, '-', '-', '-', '-', '-', '-', '-', '-', '-'] := by
    unfold type_char
    split_ifs <;> rfl
  unfold calc_perm_str
  simp only [h0, List.set_cons_succ, List.set_cons_zero, ite_cons_list, ite_self]


theorem takeWhile_no_nul (p r : List Char) (h : NUL ∉ p) :
    (p ++ NUL :: r).takeWhile (fun c => c != NUL) = p := by
  induction p with
  | nil => simp
  | cons a q ih =>
    have ha : a ≠ NUL := fun hc => h (by simp [hc])
    have hq : NUL ∉ q := fun hc => h (by simp [hc])
    simp [List.takeWhile_cons, ha, ih hq]

theorem strlen_strcpy (d p : List Char) (h : NUL ∉ p) : strlen (strcpy d p) = p.length := by
  simp [strlen, cstr_at, strcpy, takeWhile_no_nul p _ h]

theorem char_at_append_right (p r : List Char) (k : Nat) :
    char_at (p ++ r) (p.length + k) = char_at r k := by
  induction p with
  | nil => simp
  | cons a q ih =>
    simpa [char_at, Nat.succ_add] using ih

theorem strip_loop_stop (t : List Char) (n : Nat) (h : char_at t n ≠ '/') :
    strip_loop t n = (t, n) := by
  cases n with
  | zero => rfl
  | succ k => simp [strip_loop, h]

theorem nul_ne_slash : NUL ≠ '/' := by decide

/-- The first loop of `calc_basename` never runs: it starts on the terminating NUL. -/
theorem strip_loop_strcpy (d p : List Char) (h : NUL ∉ p) :
    strip_loop (strcpy d p) (strlen (strcpy d p)) = (strcpy d p, p.length) := by
  rw [strlen_strcpy d p h]
  apply strip_loop_stop
  have := char_at_append_right p (NUL :: d.drop (p.length + 1)) 0
  simp only [Nat.add_zero] at this
  rw [strcpy, this]
  exact nul_ne_slash

theorem calc_basename_eq (tmp p : List Char) (h : NUL ∉ p) :
    calc_basename tmp p =
      (strcpy (tmp.set 0 NUL) p,
        cstr_at (strcpy (tmp.set 0 NUL) p) (find_loop (strcpy (tmp.set 0 NUL) p) p.length + 1)) := by
  simp only [calc_basename, strip_loop_strcpy _ p h]

theorem calc_basename_trailing_slash (tmp p : List Char) (h : NUL ∉ p) :
    (calc_basename tmp (p ++ ['/'])).2 = [] := by
  have h2 : NUL ∉ p ++ ['/'] := by
    simp only [List.mem_append, List.mem_singleton, not_or]
    exact ⟨h, nul_ne_slash⟩
  rw [calc_basename_eq tmp _ h2]
  simp only [List.length_append, List.length_singleton]
  generalize tmp.set 0 NUL = d
  have hs : strcpy d (p ++ ['/']) = p ++ ('/' :: NUL :: d.drop (p.length + 2)) := by
    simp [strcpy]
  rw [hs]
  have h1 : char_at (p ++ ('/' :: NUL :: d.drop (p.length + 2))) (p.length + 1) = NUL :=
    char_at_append_right p _ 1
  have h0 : char_at (p ++ ('/' :: NUL :: d.drop (p.length + 2))) (p.length + 0) = '/' :=
    char_at_append_right p _ 0
  have hf : find_loop (p ++ ('/' :: NUL :: d.drop (p.length + 2))) (p.length + 1) = p.length := by
    rw [find_loop, if_pos (by rw [h1]; exact nul_ne_slash)]
    cases hp : p.length with
    | zero => rfl
    | succ k =>
      rw [hp] at h0
      rw [find_loop, if_neg (by simpa using h0)]
  rw [hf]
  simp [cstr_at, List.drop_append, NUL]
theorem drop_set_zero (l : List Char) (x : Char) (k : Nat) :
    (l.set 0 x).drop (k + 1) = l.drop (k + 1) := by
  cases l <;> simp

theorem strcpy_idem (t p : List Char) :
    strcpy ((strcpy (t.set 0 NUL) p).set 0 NUL) p = strcpy (t.set 0 NUL) p := by
  simp only [strcpy, drop_set_zero]
  congr 2
  simp

/-- A second call of `calc_basename` on the same path finds the array as it left it. -/
theorem calc_basename_idem (t p : List Char) (h : NUL ∉ p) :
    calc_basename (calc_basename t p).1 p = calc_basename t p := by
  rw [calc_basename_eq t p h]
  simp only []
  rw [calc_basename_eq _ p h, strcpy_idem]

theorem cond_switch_recognized (e : Env) (path : CStr) (f_stat : stat) (c : condition)
    (ct : Bool) (w : World) (hc : c.recognized = true) :
    cond_switch e path f_stat c ct w = cond_switch e path f_stat c false w ∧
    ∃ b w1, cond_switch e path f_stat c false w = .ok b w1 ∧
      (w1 = w ∨ w1 = { w with tmp := (calc_basename w.tmp path).1 }) := by
  unfold condition.recognized at hc
  simp only [Bool.or_eq_true, Bool.and_eq_true, beq_iff_eq, List.contains_eq_any_beq,
    List.any_eq_true] at hc
  rcases hc with h | ⟨h, x, hx, hb⟩
  · simp only [cond_switch, h, if_true]
    exact ⟨trivial, _, _, rfl, Or.inr rfl⟩
  · have hne : ¬ COND_TYPE = COND_NAME := by decide
    have hx2 : c.data.headD NUL = x := by simpa using hb
    simp only [type_letters, List.mem_cons, List.mem_singleton, List.not_mem_nil, or_false] at hx
    rcases hx with r | r | r | r | r | r | r <;> subst r <;>
      simp only [cond_switch, hne, h, if_true, if_false, hx2] <;>
      exact ⟨trivial, _, _, rfl, Or.inl rfl⟩
theorem cond_switch_name (e : Env) (path : CStr) (f_stat : stat) (c : condition)
    (ct : Bool) (w : World) (h : c.type = COND_NAME) :
    cond_switch e path f_stat c ct w
      = .ok (e.fnmatch c.data (calc_basename w.tmp path).2)
          { w with tmp := (calc_basename w.tmp path).1 } := by
  simp only [cond_switch, h, if_true]

theorem cond_switch_type (e : Env) (path : CStr) (f_stat : stat) (c : condition)
    (ct : Bool) (w : World) (h : c.type = COND_TYPE) :
    cond_switch e path f_stat c ct w
      = match type_test (c.data.headD NUL) f_stat.st_mode with
        | some b => .ok b w
        | none => .exit (perror type_usage w) := by
  have hne : ¬ COND_TYPE = COND_NAME := by decide
  simp only [cond_switch, h, hne, if_true, if_false, type_test]
  split_ifs <;> first | rfl | (exfalso; simp_all)

theorem cond_switch_other (e : Env) (path : CStr) (f_stat : stat) (c : condition)
    (ct : Bool) (w : World) (h1 : c.type ≠ COND_NAME) (h2 : c.type ≠ COND_TYPE) :
    cond_switch e path f_stat c ct w = .ok ct w := by
  simp only [cond_switch, h1, h2, if_false]

theorem cond_result_congr (e : Env) (path : CStr) (f_stat : stat) (w w1 : World)
    (c : condition) (h : (calc_basename w1.tmp path).2 = (calc_basename w.tmp path).2) :
    cond_result e path f_stat w1 c = cond_result e path f_stat w c := by
  unfold cond_result
  by_cases h1 : c.type = COND_NAME
  · rw [cond_switch_name _ _ _ _ _ _ h1, cond_switch_name _ _ _ _ _ _ h1, h]
  · by_cases h2 : c.type = COND_TYPE
    · rw [cond_switch_type _ _ _ _ _ _ h2, cond_switch_type _ _ _ _ _ _ h2]
      cases type_test (c.data.headD NUL) f_stat.st_mode <;> rfl
    · rw [cond_switch_other _ _ _ _ _ _ h1 h2, cond_switch_other _ _ _ _ _ _ h1 h2]

theorem cond_loop_all (e : Env) (path : CStr) (f_stat : stat) (w : World)
    (hpath : NUL ∉ path) (P : List condition) :
    ∀ w1 : World, (∀ c ∈ P, c.recognized = true) →
      (calc_basename w1.tmp path).2 = (calc_basename w.tmp path).2 →
      ∃ w2, cond_loop e path f_stat P true w1
          = .ok (P.all fun c => cond_result e path f_stat w c == some true) w2
        ∧ w2.stdout = w1.stdout ∧ w2.stderr = w1.stderr ∧ w2.link_dest = w1.link_dest := by
  induction P with
  | nil => intro w1 _ _; exact ⟨w1, rfl, rfl, rfl, rfl⟩
  | cons c rest ih =>
    intro w1 hP hw
    obtain ⟨hct, b, w3, hsw, hw3⟩ :=
      cond_switch_recognized e path f_stat c true w1 (hP c (List.mem_cons_self _ _))
    have hres : cond_result e path f_stat w c = some (apply_reverse c b) := by
      rw [← cond_result_congr e path f_stat w w1 c hw]
      simp only [cond_result, hsw]
    have hw3b : (calc_basename w3.tmp path).2 = (calc_basename w.tmp path).2 := by
      rcases hw3 with r | r
      · rw [r]; exact hw
      · rw [r]
        simp only []
        rw [calc_basename_idem _ _ hpath]
        exact hw
    have hw3s : w3.stdout = w1.stdout ∧ w3.stderr = w1.stderr ∧ w3.link_dest = w1.link_dest := by
      rcases hw3 with r | r <;> rw [r] <;> exact ⟨rfl, rfl, rfl⟩
    rw [cond_loop, hct, hsw]
    simp only [List.all_cons, hres]
    cases hb : apply_reverse c b with
    | false => exact ⟨w3, by simp, hw3s⟩
    | true =>
      obtain ⟨w2, h2, h2s⟩ := ih w3 (fun c hc => hP c (List.mem_cons_of_mem _ hc)) hw3b
      refine ⟨w2, ?_, ?_⟩
      · simpa using h2
      · exact ⟨h2s.1.trans hw3s.1, h2s.2.1.trans hw3s.2.1, h2s.2.2.trans hw3s.2.2⟩

theorem eval_conds_all (e : Env) (path : CStr) (f_stat : stat) (w : World)
    (hpath : NUL ∉ path) (P : List condition) (hP : ∀ c ∈ P, c.recognized = true) :
    ∃ w2, eval_conds e path f_stat P w
        = .ok (P.all fun c => cond_result e path f_stat w c == some true) w2
      ∧ w2.stdout = w.stdout ∧ w2.stderr = w.stderr ∧ w2.link_dest = w.link_dest := by
  cases P with
  | nil => exact ⟨w, rfl, rfl, rfl, rfl⟩
  | cons c rest =>
    have hc := (cond_switch_recognized e path f_stat c false w
      (hP c (List.mem_cons_self _ _))).1
    have hc2 := (cond_switch_recognized e path f_stat c true w
      (hP c (List.mem_cons_self _ _))).1
    have hl : eval_conds e path f_stat (c :: rest) w
        = cond_loop e path f_stat (c :: rest) true w := by
      simp only [eval_conds, cond_loop, hc2, List.length_cons, Nat.succ_ne_zero,
        Nat.add_one_ne_zero, beq_iff_eq]
      rfl
    rw [hl]
    exact cond_loop_all e path f_stat w hpath (c :: rest) w hP rfl

theorem and_special_bits (m c : Nat) (hc : (S_ISUID ||| S_ISGID ||| S_ISVTX) &&& c = 0) :
    (m ||| (S_ISUID ||| S_ISGID ||| S_ISVTX)) &&& c = m &&& c := by
  rw [Nat.and_comm, Nat.and_or_distrib_left, Nat.and_comm c, Nat.and_comm c, hc, Nat.or_zero]

theorem and_eq_of_special (m m2 c : Nat)
    (h : m ||| (S_ISUID ||| S_ISGID ||| S_ISVTX) = m2 ||| (S_ISUID ||| S_ISGID ||| S_ISVTX))
    (hc : (S_ISUID ||| S_ISGID ||| S_ISVTX) &&& c = 0) : m2 &&& c = m &&& c := by
  rw [← and_special_bits m c hc, ← and_special_bits m2 c hc, h]

theorem calc_perm_str_special (m m2 : Nat)
    (h : m ||| (S_ISUID ||| S_ISGID ||| S_ISVTX) = m2 ||| (S_ISUID ||| S_ISGID ||| S_ISVTX)) :
    calc_perm_str m2 = calc_perm_str m := by
  have e0 := and_eq_of_special m m2 S_IFMT h (by decide)
  have e1 := and_eq_of_special m m2 S_IRUSR h (by decide)
  have e2 := and_eq_of_special m m2 S_IWUSR h (by decide)
  have e3 := and_eq_of_special m m2 S_IXUSR h (by decide)
  have e4 := and_eq_of_special m m2 S_IRGRP h (by decide)
  have e5 := and_eq_of_special m m2 S_IWGRP h (by decide)
  have e6 := and_eq_of_special m m2 S_IXGRP h (by decide)
  have e7 := and_eq_of_special m m2 S_IROTH h (by decide)
  have e8 := and_eq_of_special m m2 S_IWOTH h (by decide)
  have e9 := and_eq_of_special m m2 S_IXOTH h (by decide)
  rw [calc_perm_str_eq, calc_perm_str_eq]
  simp only [type_char, S_ISDIR, S_ISCHR, S_ISBLK, S_ISLNK, S_ISFIFO, S_ISSOCK,
    e0, e1, e2, e3, e4, e5, e6, e7, e8, e9]

theorem type_char_cases (m : Nat) :
    (S_ISDIR m = true → type_char m = 'd') ∧ (S_ISCHR m = true → type_char m = 'c') ∧
    (S_ISBLK m = true → type_char m = 'b') ∧ (S_ISLNK m = true → type_char m = 'l') ∧
    (S_ISFIFO m = true → type_char m = 'p') ∧ (S_ISSOCK m = true → type_char m = 's') ∧
    (S_ISDIR m = false → S_ISCHR m = false → S_ISBLK m = false → S_ISLNK m = false →
      S_ISFIFO m = false → S_ISSOCK m = false → type_char m = '-') := by
  simp only [type_char, S_ISDIR, S_ISCHR, S_ISBLK, S_ISLNK, S_ISFIFO, S_ISSOCK, beq_iff_eq,
    beq_eq_false_iff_ne]
  generalize m &&& S_IFMT = t
  refine ⟨?_, ?_, ?_, ?_, ?_, ?_, ?_⟩
  · intro h; simp [h]
  · intro h; subst h; simp [S_IFCHR, S_IFDIR]
  · intro h; subst h; simp [S_IFCHR, S_IFDIR, S_IFBLK]
  · intro h; subst h; simp [S_IFCHR, S_IFDIR, S_IFBLK, S_IFLNK]
  · intro h; subst h; simp [S_IFCHR, S_IFDIR, S_IFBLK, S_IFLNK, S_IFIFO]
  · intro h; subst h; simp [S_IFCHR, S_IFDIR, S_IFBLK, S_IFLNK, S_IFIFO, S_IFSOCK]
  · intro h1 h2 h3 h4 h5 h6; simp [h1, h2, h3, h4, h5, h6]

/-- C9: for every mode, `calc_perm_str` gives exactly 10 characters; character 0 is
`d`, `c`, `b`, `l`, `p`, `s` for a directory, character device, block device, symbolic
link, fifo, socket and `-` for any other type; characters 1 to 9 are, for the nine
permission bits from owner-read (`S_IRUSR`) down to other-execute, the letter of
`rwxrwxrwx` at that place when the bit is set and `-` otherwise; two modes that differ
only in the setuid, setgid and sticky bits give the same string; a regular file with
rw-r--r-- gives `-rw-r--r--` and a directory with rwxr-xr-x gives `drwxr-xr-x`. -/
theorem C9_calc_perm_str (m : Nat) :
    (calc_perm_str m).length = 10 ∧
    ((S_ISDIR m = true → (calc_perm_str m).getD 0 ' ' = 'd') ∧
     (S_ISCHR m = true → (calc_perm_str m).getD 0 ' ' = 'c') ∧
     (S_ISBLK m = true → (calc_perm_str m).getD 0 ' ' = 'b') ∧
     (S_ISLNK m = true → (calc_perm_str m).getD 0 ' ' = 'l') ∧
     (S_ISFIFO m = true → (calc_perm_str m).getD 0 ' ' = 'p') ∧
     (S_ISSOCK m = true → (calc_perm_str m).getD 0 ' ' = 's') ∧
     (S_ISDIR m = false → S_ISCHR m = false → S_ISBLK m = false → S_ISLNK m = false →
       S_ISFIFO m = false → S_ISSOCK m = false → (calc_perm_str m).getD 0 ' ' = '-')) ∧
    (∀ k, k < 9 → (calc_perm_str m).getD (k + 1) ' ' =
      if m &&& (S_IRUSR >>> k) ≠ 0 then "rwxrwxrwx".toList.getD k ' ' else '-') ∧
    (∀ m2, m ||| (S_ISUID ||| S_ISGID ||| S_ISVTX) = m2 ||| (S_ISUID ||| S_ISGID ||| S_ISVTX) →
      calc_perm_str m2 = calc_perm_str m) ∧
    calc_perm_str (S_IFREG ||| 0o644) = "-rw-r--r--".toList ∧
    calc_perm_str (S_IFDIR ||| 0o755) = "drwxr-xr-x".toList := by
  refine ⟨?_, ?_, ?_, calc_perm_str_special m, by decide, by decide⟩
  · rw [calc_perm_str_eq]; rfl
  · have h : (calc_perm_str m).getD 0 ' ' = type_char m := by rw [calc_perm_str_eq]; rfl
    rw [h]
    exact type_char_cases m
  · intro k hk
    rw [calc_perm_str_eq]
    interval_cases k <;>
      simp [S_IRUSR, S_IWUSR, S_IXUSR, S_IRGRP, S_IWGRP, S_IXGRP, S_IROTH, S_IWOTH, S_IXOTH]

/-- C9, at the mode of a setuid regular file rw-r--r--: same string as without setuid. -/
theorem C9_calc_perm_str_witness :
    0o100644 ||| (S_ISUID ||| S_ISGID ||| S_ISVTX) = 0o104644 ||| (S_ISUID ||| S_ISGID ||| S_ISVTX) ∧
    calc_perm_str 0o104644 = calc_perm_str 0o100644 ∧
    (calc_perm_str 0o100644).getD 1 ' ' = 'r' :=
  ⟨by decide, (C9_calc_perm_str 0o100644).2.2.2.1 0o104644 (by decide), by decide⟩

theorem all_eq_of_forall_mem {α : Type} (l : List α) (f g : α → Bool)
    (h : ∀ a ∈ l, f a = g a) : l.all f = l.all g := by
  induction l with
  | nil => rfl
  | cons a t ih =>
    simp only [List.all_cons, h a (List.mem_cons_self _ _),
      ih fun b hb => h b (List.mem_cons_of_mem _ hb)]

/-- The result of a recognized condition, as the loop takes it, is its individual
result, inverted exactly when the `reverse` flag is not 0. -/
theorem cond_result_individual (e : Env) (path : CStr) (f_stat : stat) (w : World)
    (c : condition) (hc : c.recognized = true) :
    (cond_result e path f_stat w c == some true)
      = Bool.xor (individual_result e path f_stat w c) (c.reverse != 0) := by
  have hrev : ∀ b : Bool, apply_reverse c b = Bool.xor b (c.reverse != 0) := by
    intro b
    unfold apply_reverse
    by_cases h : c.reverse = 0
    · simp [h]
    · cases b <;> simp [h]
  unfold cond_result individual_result
  by_cases h1 : c.type = COND_NAME
  · rw [cond_switch_name _ _ _ _ _ _ h1]
    simp only [h1, if_true, hrev]
    cases Bool.xor (e.fnmatch c.data (calc_basename w.tmp path).2) (c.reverse != 0) <;> rfl
  · have h2 : c.type = COND_TYPE := by
      unfold condition.recognized at hc
      simp only [Bool.or_eq_true, Bool.and_eq_true, beq_iff_eq] at hc
      rcases hc with h | h
      · exact absurd h h1
      · exact h.1
    have hl : type_letters.contains (c.data.headD NUL) = true := by
      unfold condition.recognized at hc
      simp only [Bool.or_eq_true, Bool.and_eq_true, beq_iff_eq] at hc
      rcases hc with h | h
      · exact absurd h h1
      · exact h.2
    rw [cond_switch_type _ _ _ _ _ _ h2]
    simp only [h1, if_false]
    cases ht : type_test (c.data.headD NUL) f_stat.st_mode with
    | none =>
      exfalso
      revert ht hl
      generalize c.data.headD NUL = x
      intro hl ht
      simp only [type_letters, List.contains_eq_any_beq, List.any_eq_true, List.mem_cons,
        List.mem_singleton, List.not_mem_nil, or_false, beq_iff_eq] at hl
      obtain ⟨y, hy, hxy⟩ := hl
      subst hxy
      rcases hy with r | r | r | r | r | r | r <;> subst r <;> simp [type_test] at ht
    | some b =>
      simp only [hrev]
      cases b <;> cases (c.reverse != 0) <;> rfl

/-- C1: for every entry and every list of conditions whose `-type` letters are among
f, d, l, p, b, c, s, the decision of the condition loop of `find_r` is the logical AND,
over all conditions of the list, of the individual result of the condition on the entry
(the pattern matches the basename; the entry has the type of the letter), inverted
exactly when the condition is negated (`reverse` is not 0); the loop, which stops at the
first false condition, writes nothing; and the decision for the empty list is true. -/
theorem C1_decision_is_conjunction (e : Env) (path : CStr) (f_stat : stat)
    (P : List condition) (w : World) (hpath : NUL ∉ path)
    (hP : ∀ c ∈ P, c.recognized = true) :
    (∃ w2, eval_conds e path f_stat P w
        = .ok (P.all fun c =>
            Bool.xor (individual_result e path f_stat w c) (c.reverse != 0)) w2
      ∧ w2.stdout = w.stdout ∧ w2.stderr = w.stderr) ∧
    eval_conds e path f_stat [] w = .ok true w := by
  obtain ⟨w2, h, h1, h2, _⟩ := eval_conds_all e path f_stat w hpath P hP
  refine ⟨⟨w2, ?_, h1, h2⟩, rfl⟩
  rw [h, all_eq_of_forall_mem P _ _
    fun c hc => cond_result_individual e path f_stat w c (hP c hc)]

/-- C1, on the directory `/tmp/d`: the conditions `-type d ! -name *.txt` hold, the
second because it is negated; with `-type f` added as third they do not. -/
theorem C1_decision_is_conjunction_witness :
    NUL ∉ "/tmp/d".toList ∧
    (∀ c ∈ [new_condition "d".toList 0 COND_TYPE, new_condition "*.txt".toList 1 COND_NAME,
        new_condition "f".toList 0 COND_TYPE], c.recognized = true) ∧
    (∃ w2, eval_conds env0 "/tmp/d".toList
        { st_mode := 0o040755, st_ino := 7, st_size := 4096, st_nlink := 2, st_uid := 1000,
          st_gid := 50, st_mtime := 0 }
        [new_condition "d".toList 0 COND_TYPE, new_condition "*.txt".toList 1 COND_NAME,
          new_condition "f".toList 0 COND_TYPE] (World.init env0)
        = .ok ([new_condition "d".toList 0 COND_TYPE, new_condition "*.txt".toList 1 COND_NAME,
          new_condition "f".toList 0 COND_TYPE].all fun c =>
            Bool.xor (individual_result env0 "/tmp/d".toList
              { st_mode := 0o040755, st_ino := 7, st_size := 4096, st_nlink := 2,
                st_uid := 1000, st_gid := 50, st_mtime := 0 } (World.init env0) c)
              (c.reverse != 0)) w2) ∧
    (eval_conds env0 "/tmp/d".toList
        { st_mode := 0o040755, st_ino := 7, st_size := 4096, st_nlink := 2, st_uid := 1000,
          st_gid := 50, st_mtime := 0 }
        [new_condition "d".toList 0 COND_TYPE, new_condition "*.txt".toList 1 COND_NAME,
          new_condition "f".toList 0 COND_TYPE] (World.init env0)).value = some false ∧
    (eval_conds env0 "/tmp/d".toList
        { st_mode := 0o040755, st_ino := 7, st_size := 4096, st_nlink := 2, st_uid := 1000,
          st_gid := 50, st_mtime := 0 }
        [new_condition "d".toList 0 COND_TYPE, new_condition "*.txt".toList 1 COND_NAME]
        (World.init env0)).value = some true ∧
    individual_result env0 "/tmp/d".toList
        { st_mode := 0o040755, st_ino := 7, st_size := 4096, st_nlink := 2, st_uid := 1000,
          st_gid := 50, st_mtime := 0 } (World.init env0)
        (new_condition "*.txt".toList 1 COND_NAME) = false :=
  ⟨by decide, by decide,
    (C1_decision_is_conjunction env0 "/tmp/d".toList
      { st_mode := 0o040755, st_ino := 7, st_size := 4096, st_nlink := 2, st_uid := 1000,
        st_gid := 50, st_mtime := 0 }
      [new_condition "d".toList 0 COND_TYPE, new_condition "*.txt".toList 1 COND_NAME,
        new_condition "f".toList 0 COND_TYPE] (World.init env0) (by decide) (by decide)).1.imp
      fun _ h => h.1,
    by decide, by decide, by decide⟩

/-- C3 (the code departs from it): `calc_basename` of a path that ends in `/` is the
empty string, whatever the path, because the loop that strips the trailing `/` starts
on the terminating NUL and never runs; so `calc_basename ("/a/b/")` is `""` while
`calc_basename ("/a/b")` is `"b"`. -/
theorem C3_trailing_slash_not_stripped (tmp : List Char) (p : CStr) (hp : NUL ∉ p) :
    (calc_basename tmp (p ++ ['/'])).2 = [] ∧
    (calc_basename (zero_buf 256) "/a/b/".toList).2 = [] ∧
    (calc_basename (zero_buf 256) "/a/b".toList).2 = "b".toList :=
  ⟨calc_basename_trailing_slash tmp p hp, by decide, by decide⟩

/-- C3, at the path `/a/b/`. -/
theorem C3_trailing_slash_not_stripped_witness :
    NUL ∉ "/a/b".toList ∧ (calc_basename (zero_buf 1024) ("/a/b".toList ++ ['/'])).2 = [] :=
  ⟨by decide, (C3_trailing_slash_not_stripped (zero_buf 1024) "/a/b".toList (by decide)).1⟩

/-- C4 (the code departs from it): on the starting path `b`, a path of one component, a
`-name` condition with any pattern is matched against the empty string and not against
`b`: the scan for the last `/` stops at index 0 and the basename starts at index 1.
With the pattern `b` the entry `b` does not match. -/
theorem C4_name_on_single_component (e : Env) (pattern : CStr) (f_stat : stat) (w : World) :
    eval_conds e "b".toList f_stat [new_condition pattern 0 COND_NAME] w
      = .ok (e.fnmatch pattern []) { w with tmp := strcpy (w.tmp.set 0 NUL) "b".toList } ∧
    (eval_conds env0 "b".toList
      { st_mode := 0o100644, st_ino := 7, st_size := 0, st_nlink := 1, st_uid := 1000,
        st_gid := 50, st_mtime := 0 } [new_condition "b".toList 0 COND_NAME]
      (World.init env0)).value = some false ∧
    env0.fnmatch "b".toList "b".toList = true := by
  refine ⟨?_, by decide, by decide⟩
  have hb : calc_basename w.tmp "b".toList
      = (strcpy (w.tmp.set 0 NUL) "b".toList, []) := by
    rw [calc_basename_eq _ _ (by decide)]
    rfl
  simp only [eval_conds, cond_loop, new_condition]
  rw [cond_switch_name _ _ _ _ _ _ rfl, hb]
  simp only [apply_reverse]
  cases e.fnmatch pattern [] <;> rfl

/-- C6: for every entry and every condition whose `reverse` flag is set, the decision
for the list of that one condition is the negation of the decision for the same
condition with the flag cleared (and the process ends in the one case exactly when it
ends in the other). -/
theorem C6_reverse_negates (e : Env) (path : CStr) (f_stat : stat) (p : condition)
    (w : World) (hrev : p.reverse ≠ 0) :
    eval_conds e path f_stat [p] w
      = (eval_conds e path f_stat [{ p with reverse := 0 }] w).not := by
  have hsw : ∀ ct, cond_switch e path f_stat { p with reverse := 0 } ct w
      = cond_switch e path f_stat p ct w := fun _ => rfl
  simp only [eval_conds, cond_loop, hsw, List.length_singleton]
  cases cond_switch e path f_stat p (1 == 0) w with
  | exit w1 => rfl
  | ok b w1 =>
    cases b <;> simp [apply_reverse, hrev, Res.not, cond_loop]

/-- C6, on a regular file with the condition `! -type f`. -/
theorem C6_reverse_negates_witness :
    (new_condition "f".toList 1 COND_TYPE).reverse ≠ 0 ∧
    eval_conds env0 "/tmp/f".toList
      { st_mode := 0o100644, st_ino := 7, st_size := 0, st_nlink := 1, st_uid := 1000,
        st_gid := 50, st_mtime := 0 } [new_condition "f".toList 1 COND_TYPE] (World.init env0)
      = (eval_conds env0 "/tmp/f".toList
          { st_mode := 0o100644, st_ino := 7, st_size := 0, st_nlink := 1, st_uid := 1000,
            st_gid := 50, st_mtime := 0 }
          [{ new_condition "f".toList 1 COND_TYPE with reverse := 0 }] (World.init env0)).not :=
  ⟨by decide, C6_reverse_negates env0 _ _ _ _ (by decide)⟩

theorem fmt_d_small (v : Nat) (h : v < 2 ^ 31) : fmt_d v = (toString v).toList := by
  have h1 : ((v : Int) + 2 ^ 31) % 2 ^ 32 = (v : Int) + 2 ^ 31 :=
    Int.emod_eq_of_lt (by omega) (by omega)
  have h2 : (v : Int) + 2 ^ 31 - 2 ^ 31 = (v : Int) := by omega
  unfold fmt_d
  rw [h1, h2]
  rfl

theorem cmd_ne : ¬ CMD_LS = CMD_PRINT := by decide

/-- C7 (amended): for every entry that is not a symbolic link, whose uid and gid resolve
to the names `o` and `g`, whose modification time `localtime` converts, and whose inode
number, size in kibibytes and link count are below 2^31, the `-ls` command writes
exactly one line and returns: the inode number, the size divided by 1024 (truncated),
the 10 characters of the permission string, the link count, `o`, `g`, the size in bytes
unless the entry is a block or character device, the date as year, day of month, month,
hour and minute, and the path, separated by single spaces and ended by a newline. -/
theorem C7_listing_line (e : Env) (path : CStr) (f_stat : stat) (link : Option CStr)
    (w : World) (o g : CStr) (t : tm)
    (hlnk : S_ISLNK f_stat.st_mode = false)
    (ho : e.getpwuid f_stat.st_uid = some o) (hg : e.getgrgid f_stat.st_gid = some g)
    (ht : e.localtime f_stat.st_mtime = some t)
    (hino : f_stat.st_ino < 2 ^ 31) (hkb : f_stat.st_size / 1024 < 2 ^ 31)
    (hnl : f_stat.st_nlink < 2 ^ 31) :
    perform_cmd e CMD_LS path f_stat link w
      = .ok () (printf
          ((toString f_stat.st_ino).toList ++ ' ' :: (toString (f_stat.st_size / 1024)).toList
            ++ ' ' :: calc_perm_str f_stat.st_mode ++ ' ' :: (toString f_stat.st_nlink).toList
            ++ ' ' :: o ++ ' ' :: g
            ++ (if S_ISBLK f_stat.st_mode || S_ISCHR f_stat.st_mode then []
                else ' ' :: (toString f_stat.st_size).toList)
            ++ ' ' :: ((toString (t.tm_year + 1900)).toList ++ '-' :: pad2 t.tm_mday
                ++ '-' :: pad2 (t.tm_mon + 1) ++ ' ' :: pad2 t.tm_hour ++ ':' :: pad2 t.tm_min)
            ++ ' ' :: path ++ ['\n']) w) ∧
    (calc_perm_str f_stat.st_mode).length = 10 := by
  refine ⟨?_, by rw [calc_perm_str_eq]; rfl⟩
  simp only [perform_cmd, cmd_ne, if_false, if_true, cmd_ls, ho, hg, calc_date_str, ht, hlnk,
    fmt_d_small _ hino, fmt_d_small _ hkb, fmt_d_small _ hnl, fmt_ld, strftime]
  cases hb : S_ISBLK f_stat.st_mode <;> cases hc : S_ISCHR f_stat.st_mode <;>
    simp [printf, List.append_assoc]

/-- C7, on the file of the listing scenario: inode 100, 2048 bytes, mode rw-r--r--,
1 link, alice and staff, 2024-03-15 10:30, path `/tmp/f`. -/
theorem C7_listing_line_witness :
    perform_cmd env0 CMD_LS "/tmp/f".toList
      { st_mode := 0o100644, st_ino := 100, st_size := 2048, st_nlink := 1, st_uid := 1000,
        st_gid := 50, st_mtime := 1710498600 } none (World.init env0)
      = .ok () (printf "100 2 -rw-r--r-- 1 alice staff 2048 2024-15-03 10:30 /tmp/f\n".toList
          (World.init env0)) :=
  (C7_listing_line env0 "/tmp/f".toList
    { st_mode := 0o100644, st_ino := 100, st_size := 2048, st_nlink := 1, st_uid := 1000,
      st_gid := 50, st_mtime := 1710498600 } none (World.init env0) "alice".toList
    "staff".toList { tm_year := 124, tm_mon := 2, tm_mday := 15, tm_hour := 10, tm_min := 30 }
    (by decide) (by decide) (by decide) (by decide) (by decide) (by decide) (by decide)).1

/-- C7 as stated fails: a regular file whose uid and gid resolve but whose modification
time `localtime` cannot convert; the `-ls` command ends the process after the first
fields, and no line is completed. -/
theorem C7_no_line_when_localtime_fails :
    S_ISLNK 0o100644 = false ∧ env0.getpwuid 1000 = some "alice".toList ∧
    env0.getgrgid 50 = some "staff".toList ∧
    perform_cmd env0 CMD_LS "/tmp/f".toList
      { st_mode := 0o100644, st_ino := 100, st_size := 2048, st_nlink := 1, st_uid := 1000,
        st_gid := 50, st_mtime := 2 ^ 62 } none (World.init env0)
      = .exit (perror "localtime".toList
          (printf "100 2 -rw-r--r-- 1 alice staff 2048".toList (World.init env0))) := by
  decide

/-- C8 (the code departs from it): `readlink` writes no NUL and `calc_link_dest` adds
none, so the text printed after ` -> ` runs on into what an earlier, longer link left
in the static array.  In the directory `/d` with the links `a -> long/target` and
`b -> x`, listed in this order, the line of `b` ends with ` -> xong/target`. -/
theorem C8_link_target_runs_on :
    (find_r env0 [] CMD_LS "/d".toList
      (directory 1 (.cons "a".toList (symlink 2 "long/target".toList)
        (.cons "b".toList (symlink 3 "x".toList) .nil))) (World.init env0)).world.stdout
      = ("1 4 drwxr-xr-x 2 alice staff 4096 2024-15-03 10:30 /d\n"
          ++ "2 0 lrwxrwxrwx 1 alice staff 11 2024-15-03 10:30 /d/a -> long/target\n"
          ++ "3 0 lrwxrwxrwx 1 alice staff 1 2024-15-03 10:30 /d/b -> xong/target\n").toList := by
  decide

theorem lines_append (a b : List CStr) : lines (a ++ b) = lines a ++ lines b := by
  induction a with
  | nil => rfl
  | cons p ps ih => simp [lines, ih]

theorem perform_cmd_print (e : Env) (path : CStr) (f_stat : stat) (link : Option CStr)
    (w : World) :
    perform_cmd e CMD_PRINT path f_stat link w = .ok () (printf (path ++ ['\n']) w) := by
  simp [perform_cmd]

theorem selected_append (d : CStr → stat → Bool) (a b : List (CStr × stat)) :
    selected d (a ++ b) = selected d a ++ selected d b := by
  simp [selected]

mutual
/-- With the command `-print` and conditions that decide `d` without writing, `find_r`
returns and has written the lines of the nodes of the tree on which `d` is true. -/
theorem find_r_print (e : Env) (P : List condition) (d : CStr → stat → Bool)
    (H : ∀ path f_stat w, ∃ w2, eval_conds e path f_stat P w = .ok (d path f_stat) w2
      ∧ w2.stdout = w.stdout ∧ w2.stderr = w.stderr) :
    ∀ (n : Node) (path : CStr) (w : World),
      ∃ w2, find_r e P CMD_PRINT path n w = .ok () w2
        ∧ w2.stdout = w.stdout ++ lines (selected d (Node.entries path n))
        ∧ (Node.healthy n = true → w2.stderr = w.stderr)
  | .mk lstat link od ents, path, w => by
    cases lstat with
    | none =>
      refine ⟨perror path w, by simp [find_r], by simp [Node.entries, selected, lines, perror], ?_⟩
      intro h; simp [Node.healthy] at h
    | some f_stat =>
      obtain ⟨w1, h1, hs1, he1⟩ := H path f_stat w
      have hcmd : ∃ w3, (if d path f_stat = true then perform_cmd e CMD_PRINT path f_stat link w1
            else Res.ok () w1) = .ok () w3
          ∧ w3.stdout = w.stdout ++ lines (selected d [(path, f_stat)])
          ∧ w3.stderr = w.stderr := by
        cases hd : d path f_stat
        · exact ⟨w1, by simp, by simp [selected, hd, lines, hs1], he1⟩
        · exact ⟨printf (path ++ ['\n']) w1, by simp [perform_cmd_print],
            by simp [selected, hd, lines, hs1, printf], he1⟩
      obtain ⟨w3, h3, hs3, he3⟩ := hcmd
      simp only [find_r, h1, h3, Node.entries, Node.healthy]
      have hsplit : selected d ((path, f_stat) ::
            (if (S_ISDIR f_stat.st_mode && od) = true then DirList.entries path ents else []))
          = selected d [(path, f_stat)] ++ selected d
            (if (S_ISDIR f_stat.st_mode && od) = true then DirList.entries path ents else []) :=
        selected_append d [(path, f_stat)] _
      rw [hsplit, lines_append]
      cases hdir : S_ISDIR f_stat.st_mode
      · exact ⟨w3, by simp, by simp [hs3, selected, lines], fun _ => he3⟩
      · cases od
        · refine ⟨perror path w3, by simp, by simp [hs3, selected, lines, perror], ?_⟩
          intro h; simp at h
        · obtain ⟨w4, h4, hs4, he4⟩ := readdir_loop_print e P d H ents path w3
          refine ⟨w4, by simp [h4], by simp [hs4, hs3, List.append_assoc], ?_⟩
          intro h
          simp only [if_true, Bool.true_and] at h
          rw [he4 h, he3]
/-- The same for the loop over the stream of a directory. -/
theorem readdir_loop_print (e : Env) (P : List condition) (d : CStr → stat → Bool)
    (H : ∀ path f_stat w, ∃ w2, eval_conds e path f_stat P w = .ok (d path f_stat) w2
      ∧ w2.stdout = w.stdout ∧ w2.stderr = w.stderr) :
    ∀ (ds : DirList) (path : CStr) (w : World),
      ∃ w2, readdir_loop e P CMD_PRINT path ds w = .ok () w2
        ∧ w2.stdout = w.stdout ++ lines (selected d (DirList.entries path ds))
        ∧ (DirList.healthy ds = true → w2.stderr = w.stderr)
  | .nil, path, w => ⟨w, by simp [readdir_loop], by simp [DirList.entries, selected, lines],
      fun _ => rfl⟩
  | .cons d_name child rest, path, w => by
    cases hdot : is_dot d_name
    · obtain ⟨w1, h1, hs1, he1⟩ := find_r_print e P d H child (next_path path d_name) w
      obtain ⟨w2, h2, hs2, he2⟩ := readdir_loop_print e P d H rest path w1
      refine ⟨w2, by simp [readdir_loop, hdot, h1, h2], ?_, ?_⟩
      · simp [DirList.entries, hdot, selected_append, lines_append, hs2, hs1, List.append_assoc]
      · intro h
        simp only [DirList.healthy, hdot, Bool.false_or, Bool.and_eq_true] at h
        rw [he2 h.2, he1 h.1]
    · obtain ⟨w2, h2, hs2, he2⟩ := readdir_loop_print e P d H rest path w
      refine ⟨w2, by simp [readdir_loop, hdot, h2], ?_, ?_⟩
      · simp [DirList.entries, hdot, hs2]
      · intro h
        simp only [DirList.healthy, hdot, Bool.true_or, Bool.true_and] at h
        exact he2 h
end

theorem takeWhile_stop (c : Char) (a s : List Char) (ha : c ∉ a)
    (hs : s = [] ∨ s.head? = some c) : (a ++ s).takeWhile (fun x => x != c) = a := by
  induction a with
  | nil =>
    rcases hs with r | r
    · simp [r]
    · cases s with
      | nil => simp
      | cons x t =>
        simp only [List.head?_cons, Option.some.injEq] at r
        simp [r]
  | cons x t ih =>
    have hx : x ≠ c := fun hc => ha (by simp [hc])
    have ht : c ∉ t := fun hc => ha (by simp [hc])
    simp [List.takeWhile_cons, hx, ih ht]

theorem no_slash_split (a b s1 s2 : List Char) (ha : '/' ∉ a) (hb : '/' ∉ b)
    (h1 : s1 = [] ∨ s1.head? = some '/') (h2 : s2 = [] ∨ s2.head? = some '/')
    (h : a ++ s1 = b ++ s2) : a = b := by
  rw [← takeWhile_stop '/' a s1 ha h1, ← takeWhile_stop '/' b s2 hb h2, h]

theorem dirlist_names_no_slash : ∀ (ds : DirList), DirList.names_ok ds = true →
    ∀ nm ∈ DirList.names ds, '/' ∉ nm
  | .nil, _, nm, h => by simp [DirList.names] at h
  | .cons d_name child rest, hok, nm, h => by
    simp only [DirList.names_ok, Bool.and_eq_true, Bool.not_eq_true', List.contains_eq_any_beq,
      List.any_eq_false, beq_iff_eq] at hok
    simp only [DirList.names, List.mem_cons] at h
    rcases h with r | r
    · subst r
      intro hc
      exact hok.1.1.1 '/' hc rfl
    · exact dirlist_names_no_slash rest hok.2 nm r

mutual
/-- Every path of a tree extends the path of its root by nothing or by `/` and more. -/
theorem node_paths_shape : ∀ (n : Node) (p q : CStr), q ∈ Node.paths p n →
    ∃ s, q = p ++ s ∧ (s = [] ∨ s.head? = some '/')
  | .mk lstat link od ents, p, q, h => by
    cases lstat with
    | none => simp [Node.paths, Node.entries] at h
    | some f_stat =>
      simp only [Node.paths, Node.entries, List.map_cons, List.mem_cons] at h
      rcases h with r | r
      · exact ⟨[], by simp [r], Or.inl rfl⟩
      · split at r
        · obtain ⟨nm, _, s, hq, _⟩ := dirlist_paths_shape ents p q r
          exact ⟨'/' :: (nm ++ s), by simp [hq, next_path], Or.inr rfl⟩
        · simp at r
/-- Every path below a directory extends the path of one of its entries. -/
theorem dirlist_paths_shape : ∀ (ds : DirList) (p q : CStr),
    q ∈ (DirList.entries p ds).map Prod.fst →
    ∃ nm ∈ DirList.names ds, ∃ s, q = next_path p nm ++ s ∧ (s = [] ∨ s.head? = some '/')
  | .nil, p, q, h => by simp [DirList.entries] at h
  | .cons d_name child rest, p, q, h => by
    simp only [DirList.entries, List.map_append, List.mem_append] at h
    rcases h with r | r
    · split at r
      · simp at r
      · obtain ⟨s, hq, hs⟩ := node_paths_shape child (next_path p d_name) q r
        exact ⟨d_name, by simp [DirList.names], s, hq, hs⟩
    · obtain ⟨nm, hnm, s, hq, hs⟩ := dirlist_paths_shape rest p q r
      exact ⟨nm, by simp [DirList.names, hnm], s, hq, hs⟩
end

mutual
/-- With distinct names that hold no `/`, no path occurs twice in a tree. -/
theorem node_paths_nodup : ∀ (n : Node) (p : CStr), Node.names_ok n = true →
    (Node.paths p n).Nodup
  | .mk lstat link od ents, p, hok => by
    cases lstat with
    | none => simp [Node.paths, Node.entries]
    | some f_stat =>
      simp only [Node.paths, Node.entries, List.map_cons, List.nodup_cons]
      simp only [Node.names_ok] at hok
      split
      · refine ⟨?_, dirlist_paths_nodup ents p hok⟩
        intro hmem
        obtain ⟨nm, _, s, hq, _⟩ := dirlist_paths_shape ents p p hmem
        have := congrArg List.length hq
        simp [next_path] at this
      · simp
/-- The same below a directory. -/
theorem dirlist_paths_nodup : ∀ (ds : DirList) (p : CStr), DirList.names_ok ds = true →
    ((DirList.entries p ds).map Prod.fst).Nodup
  | .nil, p, _ => by simp [DirList.entries]
  | .cons d_name child rest, p, hok => by
    have hns := dirlist_names_no_slash (.cons d_name child rest) hok
    simp only [DirList.names_ok, Bool.and_eq_true, Bool.not_eq_true', List.contains_eq_any_beq,
      List.any_eq_false, beq_iff_eq] at hok
    simp only [DirList.entries, List.map_append]
    rw [List.nodup_append]
    refine ⟨?_, dirlist_paths_nodup rest p hok.2, ?_⟩
    · split
      · simp
      · exact node_paths_nodup child (next_path p d_name) hok.1.2
    · intro q h1 h2
      split at h1
      · simp at h1
      · obtain ⟨s1, hq1, hs1⟩ := node_paths_shape child (next_path p d_name) q h1
        obtain ⟨nm, hnm, s2, hq2, hs2⟩ := dirlist_paths_shape rest p q h2
        have heq : d_name ++ s1 = nm ++ s2 := by
          have h := hq1.symm.trans hq2
          simpa [next_path] using h
        have hd : d_name = nm :=
          no_slash_split d_name nm s1 s2 (hns d_name (by simp [DirList.names]))
            (hns nm (by simp [DirList.names, hnm])) hs1 hs2 heq
        exact hok.1.1.2 nm hnm hd
end

mutual
/-- A healthy tree has one node for its root and one for each entry below it. -/
theorem node_entries_length : ∀ (n : Node) (p : CStr), Node.healthy n = true →
    (Node.entries p n).length = Node.count n + 1
  | .mk lstat link od ents, p, h => by
    cases lstat with
    | none => simp [Node.healthy] at h
    | some f_stat =>
      simp only [Node.healthy] at h
      simp only [Node.entries, Node.count, List.length_cons]
      cases hdir : S_ISDIR f_stat.st_mode
      · simp
      · simp only [hdir, if_true, Bool.and_eq_true] at h
        simp [h.1, dirlist_entries_length ents p h.2]
/-- The same below a directory. -/
theorem dirlist_entries_length : ∀ (ds : DirList) (p : CStr), DirList.healthy ds = true →
    (DirList.entries p ds).length = DirList.count ds
  | .nil, p, _ => by simp [DirList.entries, DirList.count]
  | .cons d_name child rest, p, h => by
    simp only [DirList.healthy, Bool.and_eq_true, Bool.or_eq_true] at h
    simp only [DirList.entries, DirList.count, List.length_append,
      dirlist_entries_length rest p h.2]
    cases hdot : is_dot d_name
    · have hc : Node.healthy child = true := by simpa [hdot] using h.1
      simp [node_entries_length child (next_path p d_name) hc]
      omega
    · simp
end

/-- The loop of `main` with `-print`: the lines of the selected nodes of every tree. -/
theorem main_loop_print (e : Env) (P : List condition) (d : CStr → stat → Bool)
    (H : ∀ path f_stat w, ∃ w2, eval_conds e path f_stat P w = .ok (d path f_stat) w2
      ∧ w2.stdout = w.stdout ∧ w2.stderr = w.stderr) (fs : CStr → Node) :
    ∀ (roots : List CStr) (w : World), (∀ p ∈ roots, Node.healthy (fs p) = true) →
      ∃ w2, main_loop e P CMD_PRINT fs roots w = .ok () w2
        ∧ w2.stdout = w.stdout
            ++ lines (selected d (all_entries fs roots))
        ∧ w2.stderr = w.stderr
  | [], w, _ => ⟨w, rfl, by simp [selected, lines], rfl⟩
  | p :: ps, w, hh => by
    obtain ⟨w1, h1, hs1, he1⟩ := find_r_print e P d H (fs p) p w
    obtain ⟨w2, h2, hs2, he2⟩ :=
      main_loop_print e P d H fs ps w1 (fun q hq => hh q (List.mem_cons_of_mem _ hq))
    refine ⟨w2, by simp [main_loop, h1, h2], ?_, ?_⟩
    · simp [hs2, hs1, all_entries, selected_append, lines_append, List.append_assoc]
    · rw [he2, he1 (hh p (List.mem_cons_self _ _))]

theorem eval_conds_type (e : Env) (path : CStr) (f_stat : stat) (w : World) (letter : Char)
    (b : Bool) (h : type_test letter f_stat.st_mode = some b) :
    eval_conds e path f_stat [new_condition [letter] 0 COND_TYPE] w = .ok b w := by
  simp only [eval_conds, cond_loop, new_condition]
  rw [cond_switch_type _ _ _ _ _ _ rfl]
  simp only [List.headD_cons, h, apply_reverse]
  cases b <;> rfl

theorem eval_conds_type_d (e : Env) (path : CStr) (f_stat : stat) (w : World) :
    ∃ w2, eval_conds e path f_stat [new_condition "d".toList 0 COND_TYPE] w
        = .ok ((fun _ (s : stat) => S_ISDIR s.st_mode) path f_stat) w2
      ∧ w2.stdout = w.stdout ∧ w2.stderr = w.stderr :=
  ⟨w, eval_conds_type e path f_stat w 'd' _ rfl, rfl, rfl⟩

theorem S_ISLNK_only (m : Nat) (h : S_ISLNK m = true) :
    S_ISREG m = false ∧ S_ISDIR m = false ∧ S_ISFIFO m = false ∧ S_ISBLK m = false
      ∧ S_ISCHR m = false ∧ S_ISSOCK m = false := by
  simp only [S_ISLNK, beq_iff_eq] at h
  simp only [S_ISREG, S_ISDIR, S_ISFIFO, S_ISBLK, S_ISCHR, S_ISSOCK, h]
  decide

/-- C5: on trees in which every node can be stat'ed and every directory opened, the run
with the single condition `-type d` and `-print` writes exactly the lines of the nodes
that are directories, starting paths included, and no other line; and for each of the
letters f, d, l, p, b, c, s the condition `-type` of that letter, not reversed, holds on
an entry exactly when the type in its `lstat` record is regular file, directory,
symbolic link, fifo, block device, character device, socket; a symbolic link has none
of the other six types. -/
theorem C5_type_filter (e : Env) (fs : CStr → Node) (roots : List CStr) (w : World)
    (hh : ∀ p ∈ roots, Node.healthy (fs p) = true) :
    (∃ w2, main_loop e [new_condition "d".toList 0 COND_TYPE] CMD_PRINT fs roots w = .ok () w2
      ∧ w2.stdout = w.stdout
          ++ lines (selected (fun _ s => S_ISDIR s.st_mode) (all_entries fs roots))
      ∧ w2.stderr = w.stderr) ∧
    (∀ (path : CStr) (f_stat : stat) (w1 : World),
      eval_conds e path f_stat [new_condition "f".toList 0 COND_TYPE] w1
        = .ok (S_ISREG f_stat.st_mode) w1 ∧
      eval_conds e path f_stat [new_condition "d".toList 0 COND_TYPE] w1
        = .ok (S_ISDIR f_stat.st_mode) w1 ∧
      eval_conds e path f_stat [new_condition "l".toList 0 COND_TYPE] w1
        = .ok (S_ISLNK f_stat.st_mode) w1 ∧
      eval_conds e path f_stat [new_condition "p".toList 0 COND_TYPE] w1
        = .ok (S_ISFIFO f_stat.st_mode) w1 ∧
      eval_conds e path f_stat [new_condition "b".toList 0 COND_TYPE] w1
        = .ok (S_ISBLK f_stat.st_mode) w1 ∧
      eval_conds e path f_stat [new_condition "c".toList 0 COND_TYPE] w1
        = .ok (S_ISCHR f_stat.st_mode) w1 ∧
      eval_conds e path f_stat [new_condition "s".toList 0 COND_TYPE] w1
        = .ok (S_ISSOCK f_stat.st_mode) w1) ∧
    (∀ m, S_ISLNK m = true →
      S_ISREG m = false ∧ S_ISDIR m = false ∧ S_ISFIFO m = false ∧ S_ISBLK m = false
        ∧ S_ISCHR m = false ∧ S_ISSOCK m = false) := by
  refine ⟨?_, ?_, S_ISLNK_only⟩
  · exact main_loop_print e _ _ (eval_conds_type_d e) fs roots w hh
  · intro path f_stat w1
    exact ⟨eval_conds_type e path f_stat w1 'f' _ rfl, eval_conds_type e path f_stat w1 'd' _ rfl,
      eval_conds_type e path f_stat w1 'l' _ rfl, eval_conds_type e path f_stat w1 'p' _ rfl,
      eval_conds_type e path f_stat w1 'b' _ rfl, eval_conds_type e path f_stat w1 'c' _ rfl,
      eval_conds_type e path f_stat w1 's' _ rfl⟩

/-- C5, on the tree `tree0` with 3 directories and 5 files below the directory `/r`:
the lines of the 3 directories and of the root. -/
theorem C5_type_filter_witness :
    (∀ p ∈ ["/r".toList], Node.healthy (fs0 p) = true) ∧
    (∃ w2, main_loop env0 [new_condition "d".toList 0 COND_TYPE] CMD_PRINT fs0 ["/r".toList]
        (World.init env0) = .ok () w2
      ∧ w2.stdout = (World.init env0).stdout
          ++ lines (selected (fun _ s => S_ISDIR s.st_mode) (all_entries fs0 ["/r".toList]))
      ∧ w2.stderr = (World.init env0).stderr) ∧
    lines (selected (fun _ s => S_ISDIR s.st_mode) (all_entries fs0 ["/r".toList]))
      = "/r\n/r/x\n/r/y\n/r/y/z\n".toList :=
  ⟨by decide,
    (C5_type_filter env0 fs0 ["/r".toList] (World.init env0) (by decide)).1,
    by decide⟩

theorem world_quiet_push (s : List CStr) (w : World) : (w.push s).quiet = w.quiet := rfl

theorem res_quiet_push {α : Type} (s : List CStr) (r : Res α) : (r.push s).quiet = r.quiet := by
  cases r <;> rfl

theorem world_push_quiet (w : World) : w.quiet.push w.stderr = w := by
  simp [World.push, World.quiet]

theorem perror_push (s : List CStr) (x : CStr) (w : World) :
    perror x (w.push s) = (perror x w).push s := by
  simp [perror, World.push]

theorem printf_push (s : List CStr) (x : List Char) (w : World) :
    printf x (w.push s) = (printf x w).push s := rfl

theorem cond_switch_push (e : Env) (path : CStr) (f_stat : stat) (c : condition) (ct : Bool)
    (s : List CStr) (w : World) :
    cond_switch e path f_stat c ct (w.push s) = (cond_switch e path f_stat c ct w).push s := by
  by_cases h1 : c.type = COND_NAME
  · rw [cond_switch_name _ _ _ _ _ _ h1, cond_switch_name _ _ _ _ _ _ h1]; rfl
  · by_cases h2 : c.type = COND_TYPE
    · rw [cond_switch_type _ _ _ _ _ _ h2, cond_switch_type _ _ _ _ _ _ h2]
      cases type_test (c.data.headD NUL) f_stat.st_mode
      · simp only [perror_push]; rfl
      · rfl
    · rw [cond_switch_other _ _ _ _ _ _ h1 h2, cond_switch_other _ _ _ _ _ _ h1 h2]; rfl

theorem cond_loop_push (e : Env) (path : CStr) (f_stat : stat) (s : List CStr)
    (P : List condition) : ∀ (ct : Bool) (w : World),
    cond_loop e path f_stat P ct (w.push s) = (cond_loop e path f_stat P ct w).push s := by
  induction P with
  | nil => intro ct w; rfl
  | cons c rest ih =>
    intro ct w
    simp only [cond_loop, cond_switch_push]
    cases cond_switch e path f_stat c ct w with
    | exit w1 => rfl
    | ok b w1 =>
      simp only [Res.push]
      split
      · rfl
      · exact ih _ w1

theorem calc_date_str_push (e : Env) (time : Int) (s : List CStr) (w : World) :
    calc_date_str e time (w.push s) = (calc_date_str e time w).push s := by
  unfold calc_date_str
  cases e.localtime time with
  | none => simp only [perror_push]; rfl
  | some t => rfl

theorem calc_link_dest_push (e : Env) (link : Option CStr) (s : List CStr) (w : World) :
    calc_link_dest e link (w.push s) = (calc_link_dest e link w).push s := by
  unfold calc_link_dest
  cases link with
  | none => simp only [perror_push]; rfl
  | some t => rfl

theorem cmd_ls_push (e : Env) (path : CStr) (f_stat : stat) (link : Option CStr)
    (s : List CStr) (w : World) :
    cmd_ls e path f_stat link (w.push s) = (cmd_ls e path f_stat link w).push s := by
  unfold cmd_ls
  cases e.getpwuid f_stat.st_uid with
  | none => simp only [perror_push]; rfl
  | some o =>
    cases e.getgrgid f_stat.st_gid with
    | none => simp only [perror_push]; rfl
    | some g =>
      dsimp only
      have hw1 : ∀ (a b : List Char) (c : Bool),
          (if c = true then printf a (printf b (w.push s)) else printf b (w.push s))
            = (if c = true then printf a (printf b w) else printf b w).push s := by
        intro a b c; cases c <;> rfl
      rw [hw1, calc_date_str_push]
      cases calc_date_str e f_stat.st_mtime _ with
      | exit w2 => rfl
      | ok d w2 =>
        simp only [Res.push]
        split
        · rw [printf_push, calc_link_dest_push]
          cases calc_link_dest e link _ <;> rfl
        · rfl

theorem perform_cmd_push (e : Env) (cmd : Nat) (path : CStr) (f_stat : stat)
    (link : Option CStr) (s : List CStr) (w : World) :
    perform_cmd e cmd path f_stat link (w.push s)
      = (perform_cmd e cmd path f_stat link w).push s := by
  unfold perform_cmd
  split
  · rfl
  · split
    · exact cmd_ls_push e path f_stat link s w
    · rfl

/-- The outcome of the condition part, diagnostics apart, depends on the state only
through the state without its diagnostics. -/
theorem eval_conds_quiet (e : Env) (path : CStr) (f_stat : stat) (P : List condition)
    (w w1 : World) (h : w.quiet = w1.quiet) :
    (eval_conds e path f_stat P w).quiet = (eval_conds e path f_stat P w1).quiet := by
  rw [← world_push_quiet w, ← world_push_quiet w1, h]
  simp only [eval_conds, cond_loop_push, res_quiet_push]

theorem perform_cmd_quiet (e : Env) (cmd : Nat) (path : CStr) (f_stat : stat)
    (link : Option CStr) (w w1 : World) (h : w.quiet = w1.quiet) :
    (perform_cmd e cmd path f_stat link w).quiet
      = (perform_cmd e cmd path f_stat link w1).quiet := by
  rw [← world_push_quiet w, ← world_push_quiet w1, h]
  simp only [perform_cmd_push, res_quiet_push]

theorem perror_quiet (x : CStr) (w : World) : (perror x w).quiet = w.quiet := rfl

theorem res_quiet_ok_inj {α : Type} {a b : α} {w w1 : World}
    (h : (Res.ok a w).quiet = (Res.ok b w1).quiet) : a = b ∧ w.quiet = w1.quiet := by
  simp only [Res.quiet, Res.ok.injEq] at h
  exact h

/-- The part of `find_r` before the directory is read, followed by `k`: its outcome,
diagnostics apart, depends on the state only through the state without diagnostics. -/
theorem find_r_step_quiet (e : Env) (P : List condition) (cmd : Nat) (path : CStr)
    (f_stat : stat) (link : Option CStr) (k k1 : World → Res Unit)
    (hk : ∀ a b : World, a.quiet = b.quiet → (k a).quiet = (k1 b).quiet)
    (w w1 : World) (h : w.quiet = w1.quiet) :
    (match eval_conds e path f_stat P w with
      | .exit w => Res.exit w
      | .ok cond_true w =>
        match (if cond_true then perform_cmd e cmd path f_stat link w else .ok () w) with
        | .exit w => Res.exit w
        | .ok _ w => k w).quiet
    = (match eval_conds e path f_stat P w1 with
      | .exit w => Res.exit w
      | .ok cond_true w =>
        match (if cond_true then perform_cmd e cmd path f_stat link w else .ok () w) with
        | .exit w => Res.exit w
        | .ok _ w => k1 w).quiet := by
  have hc := eval_conds_quiet e path f_stat P w w1 h
  cases hr : eval_conds e path f_stat P w with
  | exit w2 =>
    cases hr1 : eval_conds e path f_stat P w1 with
    | exit w3 =>
      rw [hr, hr1] at hc
      simp only [Res.quiet, Res.exit.injEq] at hc ⊢
      exact hc
    | ok ct1 w3 => rw [hr, hr1] at hc; simp [Res.quiet] at hc
  | ok ct w2 =>
    cases hr1 : eval_conds e path f_stat P w1 with
    | exit w3 => rw [hr, hr1] at hc; simp [Res.quiet] at hc
    | ok ct1 w3 =>
      rw [hr, hr1] at hc
      obtain ⟨hct, hw⟩ := res_quiet_ok_inj hc
      subst hct
      dsimp only
      cases ct with
      | false => exact hk w2 w3 hw
      | true =>
        have hp := perform_cmd_quiet e cmd path f_stat link w2 w3 hw
        simp only [if_true]
        cases hq : perform_cmd e cmd path f_stat link w2 with
        | exit w4 =>
          cases hq1 : perform_cmd e cmd path f_stat link w3 with
          | exit w5 => rw [hq, hq1] at hp; simpa using hp
          | ok u w5 => rw [hq, hq1] at hp; simp [Res.quiet] at hp
        | ok u w4 =>
          cases hq1 : perform_cmd e cmd path f_stat link w3 with
          | exit w5 => rw [hq, hq1] at hp; simp [Res.quiet] at hp
          | ok u1 w5 =>
            rw [hq, hq1] at hp
            exact hk w4 w5 (res_quiet_ok_inj hp).2

mutual
/-- The outcome of `find_r` on a tree and on the pruned tree are the same, diagnostics
apart. -/
theorem find_r_prune (e : Env) (P : List condition) (cmd : Nat) :
    ∀ (n : Node) (path : CStr) (w w1 : World), w.quiet = w1.quiet →
      (find_r e P cmd path n w).quiet = (find_r e P cmd path (Node.prune n) w1).quiet
  | .mk lstat link od ents, path, w, w1, h => by
    cases lstat with
    | none => simp only [Node.prune, find_r, Res.quiet, perror_quiet, h]
    | some f_stat =>
      cases hdir : S_ISDIR f_stat.st_mode
      · simp only [Node.prune, hdir, find_r]
        exact find_r_step_quiet e P cmd path f_stat link _ _
          (fun a b hab => by simp [Res.quiet, hab, hdir]) w w1 h
      · cases od
        · simp only [Node.prune, hdir, find_r]
          exact find_r_step_quiet e P cmd path f_stat link _ _
            (fun a b hab => by simp [Res.quiet, readdir_loop, perror_quiet, hab, hdir]) w w1 h
        · simp only [Node.prune, hdir, find_r]
          exact find_r_step_quiet e P cmd path f_stat link _ _
            (fun a b hab => by
              simpa [hdir] using readdir_loop_prune e P cmd ents path a b hab) w w1 h
/-- The same for the loop over the stream of a directory. -/
theorem readdir_loop_prune (e : Env) (P : List condition) (cmd : Nat) :
    ∀ (ds : DirList) (path : CStr) (w w1 : World), w.quiet = w1.quiet →
      (readdir_loop e P cmd path ds w).quiet
        = (readdir_loop e P cmd path (DirList.prune ds) w1).quiet
  | .nil, path, w, w1, h => by simp only [DirList.prune, readdir_loop, Res.quiet, h]
  | .cons d_name (.mk lstat link od ents) rest, path, w, w1, h => by
    cases lstat with
    | none =>
      simp only [DirList.prune, Node.statable, Option.isSome_none, Bool.false_eq_true,
        if_false, readdir_loop, find_r]
      cases is_dot d_name
      · exact readdir_loop_prune e P cmd rest path _ w1 (by rw [perror_quiet, h])
      · exact readdir_loop_prune e P cmd rest path w w1 h
    | some f_stat =>
      simp only [DirList.prune, Node.statable, Option.isSome_some, if_true, readdir_loop]
      cases is_dot d_name
      · have hc := find_r_prune e P cmd (.mk (some f_stat) link od ents)
          (next_path path d_name) w w1 h
        simp only [Bool.false_eq_true, if_false]
        cases hr : find_r e P cmd (next_path path d_name) (.mk (some f_stat) link od ents) w with
        | exit w2 =>
          cases hr1 : find_r e P cmd (next_path path d_name)
              (Node.prune (.mk (some f_stat) link od ents)) w1 with
          | exit w3 => rw [hr, hr1] at hc; exact hc
          | ok u w3 => rw [hr, hr1] at hc; simp [Res.quiet] at hc
        | ok u w2 =>
          cases hr1 : find_r e P cmd (next_path path d_name)
              (Node.prune (.mk (some f_stat) link od ents)) w1 with
          | exit w3 => rw [hr, hr1] at hc; simp [Res.quiet] at hc
          | ok u1 w3 =>
            rw [hr, hr1] at hc
            exact readdir_loop_prune e P cmd rest path w2 w3 (res_quiet_ok_inj hc).2
      · exact readdir_loop_prune e P cmd rest path w w1 h
end

theorem cond_switch_stderr (e : Env) (path : CStr) (f_stat : stat) (c : condition) (ct b : Bool)
    (w w2 : World) (h : cond_switch e path f_stat c ct w = .ok b w2) :
    w2.stderr = w.stderr := by
  by_cases h1 : c.type = COND_NAME
  · rw [cond_switch_name _ _ _ _ _ _ h1] at h
    simp only [Res.ok.injEq] at h
    rw [← h.2]
  · by_cases h2 : c.type = COND_TYPE
    · rw [cond_switch_type _ _ _ _ _ _ h2] at h
      cases ht : type_test (c.data.headD NUL) f_stat.st_mode with
      | none => rw [ht] at h; simp at h
      | some b1 =>
        rw [ht] at h
        simp only [Res.ok.injEq] at h
        rw [← h.2]
    · rw [cond_switch_other _ _ _ _ _ _ h1 h2] at h
      simp only [Res.ok.injEq] at h
      rw [← h.2]

theorem cond_loop_stderr (e : Env) (path : CStr) (f_stat : stat) (P : List condition) :
    ∀ (ct b : Bool) (w w2 : World), cond_loop e path f_stat P ct w = .ok b w2 →
      w2.stderr = w.stderr := by
  induction P with
  | nil =>
    intro ct b w w2 h
    simp only [cond_loop, Res.ok.injEq] at h
    rw [← h.2]
  | cons c rest ih =>
    intro ct b w w2 h
    rw [cond_loop] at h
    cases hs : cond_switch e path f_stat c ct w with
    | exit w1 => rw [hs] at h; simp at h
    | ok b1 w1 =>
      rw [hs] at h
      have h1 := cond_switch_stderr e path f_stat c ct b1 w w1 hs
      dsimp only at h
      split at h
      · simp only [Res.ok.injEq] at h
        rw [← h.2, h1]
      · rw [ih _ _ _ _ h, h1]

theorem calc_date_str_ok (e : Env) (time : Int) (w w2 : World) (d : CStr)
    (h : calc_date_str e time w = .ok d w2) : w2 = w := by
  unfold calc_date_str at h
  cases ht : e.localtime time with
  | none => rw [ht] at h; exact Res.noConfusion h
  | some t =>
    rw [ht] at h
    injection h with _ h2
    exact h2.symm

theorem calc_link_dest_ok (e : Env) (link : Option CStr) (w w2 : World) (d : CStr)
    (h : calc_link_dest e link w = .ok d w2) : w2.stderr = w.stderr := by
  unfold calc_link_dest at h
  cases link with
  | none => exact Res.noConfusion h
  | some target =>
    injection h with _ h2
    rw [← h2]

theorem cmd_ls_stderr (e : Env) (path : CStr) (f_stat : stat) (link : Option CStr)
    (w w2 : World) (u : Unit) (h : cmd_ls e path f_stat link w = .ok u w2) :
    w2.stderr = w.stderr := by
  unfold cmd_ls at h
  cases ho : e.getpwuid f_stat.st_uid with
  | none => rw [ho] at h; exact Res.noConfusion h
  | some o =>
    cases hg : e.getgrgid f_stat.st_gid with
    | none => rw [ho, hg] at h; exact Res.noConfusion h
    | some g =>
      rw [ho, hg] at h
      dsimp only at h
      have hw1 : ∀ (a b : List Char) (c : Bool),
          (if c = true then printf a (printf b w) else printf b w).stderr = w.stderr := by
        intro a b c; cases c <;> rfl
      revert h
      generalize hW : (if (!S_ISBLK f_stat.st_mode && !S_ISCHR f_stat.st_mode) = true then _ else _) = W
      have hWs : W.stderr = w.stderr := by rw [← hW]; exact hw1 _ _ _
      cases hd : calc_date_str e f_stat.st_mtime W with
      | exit w3 => intro h; exact Res.noConfusion h
      | ok d w3 =>
        have h3 := calc_date_str_ok e _ W w3 d hd
        subst h3
        dsimp only
        cases S_ISLNK f_stat.st_mode with
        | false =>
          intro h
          injection h with _ h2
          rw [← h2]; exact hWs
        | true =>
          simp only [if_true]
          cases hl : calc_link_dest e link (printf (' ' :: d ++ ' ' :: path) w3) with
          | exit w4 => intro h; exact Res.noConfusion h
          | ok l w4 =>
            intro h
            injection h with _ h2
            rw [← h2]
            have := calc_link_dest_ok e link _ w4 l hl
            exact this.trans hWs
theorem perform_cmd_stderr (e : Env) (cmd : Nat) (path : CStr) (f_stat : stat)
    (link : Option CStr) (w w2 : World) (u : Unit)
    (h : perform_cmd e cmd path f_stat link w = .ok u w2) : w2.stderr = w.stderr := by
  unfold perform_cmd at h
  split at h
  · simp only [Res.ok.injEq] at h
    rw [← h.2]; rfl
  · split at h
    · exact cmd_ls_stderr e path f_stat link w w2 u h
    · simp only [Res.ok.injEq] at h
      rw [← h.2]

mutual
/-- When `find_r` returns, it has written one diagnostic for each failing node. -/
theorem find_r_stderr (e : Env) (P : List condition) (cmd : Nat) :
    ∀ (n : Node) (path : CStr) (w w2 : World) (u : Unit),
      find_r e P cmd path n w = .ok u w2 → w2.stderr = w.stderr ++ Node.failing path n
  | .mk lstat link od ents, path, w, w2, u, h => by
    cases lstat with
    | none =>
      simp only [find_r, Res.ok.injEq] at h
      rw [← h.2]; rfl
    | some f_stat =>
      simp only [find_r] at h
      cases hr : eval_conds e path f_stat P w with
      | exit w3 => rw [hr] at h; simp at h
      | ok ct w3 =>
        rw [hr] at h
        have h3 : w3.stderr = w.stderr := cond_loop_stderr e path f_stat P _ ct w w3 hr
        dsimp only at h
        have hcmd : ∀ w4 u4, (if ct = true then perform_cmd e cmd path f_stat link w3
            else Res.ok () w3) = .ok u4 w4 → w4.stderr = w.stderr := by
          intro w4 u4 h4
          cases ct with
          | false =>
            simp only [Bool.false_eq_true, if_false, Res.ok.injEq] at h4
            rw [← h4.2, h3]
          | true =>
            simp only [if_true] at h4
            rw [perform_cmd_stderr e cmd path f_stat link w3 w4 u4 h4, h3]
        cases hq : (if ct = true then perform_cmd e cmd path f_stat link w3
            else Res.ok () w3) with
        | exit w4 => rw [hq] at h; simp at h
        | ok u4 w4 =>
          rw [hq] at h
          have h4 := hcmd w4 u4 hq
          dsimp only at h
          simp only [Node.failing]
          cases hdir : S_ISDIR f_stat.st_mode
          · simp only [hdir, Bool.false_eq_true, if_false, Res.ok.injEq] at h
            simp [← h.2, h4]
          · cases od
            · simp only [hdir, if_true, Bool.false_eq_true, if_false, Res.ok.injEq] at h
              simp [← h.2, h4, perror]
            · simp only [hdir, if_true] at h
              rw [readdir_loop_stderr e P cmd ents path w4 w2 u h, h4]
              simp
/-- The same for the loop over the stream of a directory. -/
theorem readdir_loop_stderr (e : Env) (P : List condition) (cmd : Nat) :
    ∀ (ds : DirList) (path : CStr) (w w2 : World) (u : Unit),
      readdir_loop e P cmd path ds w = .ok u w2 → w2.stderr = w.stderr ++ DirList.failing path ds
  | .nil, path, w, w2, u, h => by
    simp only [readdir_loop, Res.ok.injEq] at h
    simp [← h.2, DirList.failing]
  | .cons d_name child rest, path, w, w2, u, h => by
    simp only [readdir_loop] at h
    simp only [DirList.failing]
    cases hdot : is_dot d_name
    · simp only [hdot, Bool.false_eq_true, if_false] at h
      cases hr : find_r e P cmd (next_path path d_name) child w with
      | exit w3 => rw [hr] at h; simp at h
      | ok u3 w3 =>
        rw [hr] at h
        dsimp only at h
        rw [readdir_loop_stderr e P cmd rest path w3 w2 u h,
          find_r_stderr e P cmd child (next_path path d_name) w w3 u3 hr]
        simp
    · simp only [hdot, if_true] at h
      rw [readdir_loop_stderr e P cmd rest path w w2 u h]
      simp
end

theorem node_healthy_statable (n : Node) (h : Node.healthy n = true) : Node.statable n = true := by
  cases n with
  | mk lstat link od ents =>
    cases lstat with
    | none => simp [Node.healthy] at h
    | some f_stat => rfl

mutual
/-- A tree whose root can be stat'ed is, once pruned, without a failing node. -/
theorem node_prune_healthy : ∀ (n : Node), Node.statable n = true →
    Node.healthy (Node.prune n) = true
  | .mk lstat link od ents, h => by
    cases lstat with
    | none => simp [Node.statable] at h
    | some f_stat =>
      simp only [Node.prune]
      cases hdir : S_ISDIR f_stat.st_mode
      · simp [Node.healthy, hdir]
      · cases od
        · simp [Node.healthy, hdir, DirList.healthy]
        · simp [Node.healthy, hdir, dirlist_prune_healthy ents]
/-- A pruned stream has healthy entries only. -/
theorem dirlist_prune_healthy : ∀ (ds : DirList), DirList.healthy (DirList.prune ds) = true
  | .nil => by simp [DirList.prune, DirList.healthy]
  | .cons d_name child rest => by
    simp only [DirList.prune]
    cases hs : Node.statable child
    · simpa using dirlist_prune_healthy rest
    · simp [DirList.healthy, node_prune_healthy child hs, dirlist_prune_healthy rest]
end

mutual
/-- A healthy tree has no failing node. -/
theorem node_healthy_failing : ∀ (n : Node) (path : CStr), Node.healthy n = true →
    Node.failing path n = []
  | .mk lstat link od ents, path, h => by
    cases lstat with
    | none => simp [Node.healthy] at h
    | some f_stat =>
      simp only [Node.healthy] at h
      simp only [Node.failing]
      cases hdir : S_ISDIR f_stat.st_mode
      · simp
      · simp only [hdir, if_true, Bool.and_eq_true] at h
        simp [h.1, dirlist_healthy_failing ents path h.2]
/-- The same below a directory. -/
theorem dirlist_healthy_failing : ∀ (ds : DirList) (path : CStr), DirList.healthy ds = true →
    DirList.failing path ds = []
  | .nil, path, _ => by simp [DirList.failing]
  | .cons d_name child rest, path, h => by
    simp only [DirList.healthy, Bool.and_eq_true, Bool.or_eq_true] at h
    simp only [DirList.failing, dirlist_healthy_failing rest path h.2, List.append_nil]
    cases hdot : is_dot d_name
    · have hc : Node.healthy child = true := by simpa [hdot] using h.1
      simp [node_healthy_failing child (next_path path d_name) hc]
    · simp
end

theorem res_quiet_ok_cases {α : Type} (r : Res α) (a : α) (w2 : World)
    (h : r.quiet = (Res.ok a w2).quiet) : ∃ w3, r = .ok a w3 ∧ w3.quiet = w2.quiet := by
  cases r with
  | exit w3 => exact Res.noConfusion h
  | ok b w3 =>
    obtain ⟨hb, hw⟩ := res_quiet_ok_inj h
    exact ⟨w3, by rw [hb], hw⟩

/-- C10: a node that cannot be stat'ed and a directory that cannot be opened do not end
the walk.  For every tree, condition list and command, the outcome of `find_r` is, the
diagnostics apart, the outcome on the pruned tree, in which every entry that cannot be
stat'ed is removed and every directory that cannot be opened is kept as a directory
without entries (so it is still checked and reported); whenever the walk of the pruned
tree returns, the walk of the tree returns too, with the same standard output and with
exactly one diagnostic for each failing node, in the order of the walk; the pruned tree
has no failing node; and at a starting path that cannot be stat'ed the walk writes its
one diagnostic and returns. -/
theorem C10_failures_abandon_subtree (e : Env) (P : List condition) (cmd : Nat) (path : CStr)
    (n : Node) (w : World) :
    (find_r e P cmd path n w).quiet = (find_r e P cmd path (Node.prune n) w).quiet ∧
    (∀ (u : Unit) (w2 : World), find_r e P cmd path (Node.prune n) w = .ok u w2 →
      ∃ w3, find_r e P cmd path n w = .ok u w3 ∧ w3.stdout = w2.stdout
        ∧ w3.stderr = w.stderr ++ Node.failing path n) ∧
    (Node.statable n = true →
      Node.healthy (Node.prune n) = true ∧ Node.failing path (Node.prune n) = []) ∧
    (Node.statable n = false → find_r e P cmd path n w = .ok () (perror path w)) := by
  have hA := find_r_prune e P cmd n path w w rfl
  refine ⟨hA, ?_, ?_, ?_⟩
  · intro u w2 h2
    rw [h2] at hA
    obtain ⟨w3, h3, hq⟩ := res_quiet_ok_cases _ u w2 hA
    refine ⟨w3, h3, ?_, find_r_stderr e P cmd n path w w3 u h3⟩
    have hso : w3.quiet.stdout = w2.quiet.stdout := by rw [hq]
    exact hso
  · intro hs
    have hh := node_prune_healthy n hs
    exact ⟨hh, node_healthy_failing _ path hh⟩
  · intro hs
    cases n with
    | mk lstat link od ents =>
      cases lstat with
      | none => simp only [find_r]
      | some f_stat => exact absurd hs (by simp [Node.statable])

/-- C10, on the directory `/r` of `tree1` with `-print`: the entry `bad` cannot be
stat'ed and the directory `locked` cannot be opened; the walk returns, prints the four
other paths as on the pruned tree, and writes the two diagnostics. -/
theorem C10_failures_abandon_subtree_witness :
    find_r env0 [] CMD_PRINT "/r".toList (Node.prune tree1) (World.init env0)
      = .ok () (printf "/r\n/r/a\n/r/locked\n/r/z\n".toList (World.init env0)) ∧
    (∃ w3, find_r env0 [] CMD_PRINT "/r".toList tree1 (World.init env0) = .ok () w3
      ∧ w3.stdout = (printf "/r\n/r/a\n/r/locked\n/r/z\n".toList (World.init env0)).stdout
      ∧ w3.stderr = (World.init env0).stderr ++ Node.failing "/r".toList tree1) ∧
    Node.failing "/r".toList tree1 = ["/r/bad".toList, "/r/locked".toList] :=
  ⟨by decide,
    (C10_failures_abandon_subtree env0 [] CMD_PRINT "/r".toList tree1 (World.init env0)).2.1 ()
      (printf "/r\n/r/a\n/r/locked\n/r/z\n".toList (World.init env0)) (by decide),
    by decide⟩

theorem after_last_slash_snoc (q : List Char) (c : Char) :
    after_last_slash (q ++ [c]) = if c = '/' then [] else after_last_slash q ++ [c] := by
  unfold after_last_slash
  rw [List.reverse_append]
  by_cases hc : c = '/'
  · simp [hc]
  · simp [List.takeWhile_cons, hc]

theorem after_last_slash_subset (q : List Char) : ∀ x ∈ after_last_slash q, x ∈ q := by
  intro x hx
  unfold after_last_slash at hx
  rw [List.mem_reverse] at hx
  have := (List.takeWhile_sublist (fun c => c != '/') (l := q.reverse)).subset hx
  exact List.mem_reverse.mp this

theorem after_last_slash_no_slash (q : List Char) (h : '/' ∉ q) : after_last_slash q = q := by
  unfold after_last_slash
  have : q.reverse.takeWhile (fun c => c != '/') = q.reverse := by
    rw [List.takeWhile_eq_self_iff]
    intro x hx
    have hx2 : x ∈ q := List.mem_reverse.mp hx
    have : x ≠ '/' := fun hc => h (hc ▸ hx2)
    simpa using this
  rw [this, List.reverse_reverse]

theorem after_last_slash_append (par name : List Char) (h : '/' ∉ name) :
    after_last_slash (par ++ '/' :: name) = name := by
  unfold after_last_slash
  have hr : (par ++ '/' :: name).reverse = name.reverse ++ '/' :: par.reverse := by simp
  rw [hr]
  have : (name.reverse ++ '/' :: par.reverse).takeWhile (fun c => c != '/') = name.reverse :=
    takeWhile_stop '/' name.reverse ('/' :: par.reverse)
      (fun hc => h (List.mem_reverse.mp hc)) (Or.inr rfl)
  rw [this, List.reverse_reverse]

theorem char_at_cons_append (a : Char) (q s : List Char) (c : Char) :
    char_at (a :: (q ++ c :: s)) (q.length + 1) = c := by
  have := char_at_append_right (a :: q) (c :: s) 0
  simpa [char_at] using this

/-- The scan of the second loop of `calc_basename` from the end of `q` leaves the index
just before the part of `q` after its last `/`; index 0 is never looked at. -/
theorem find_loop_drop (a : Char) (q : List Char) :
    ∀ s : List Char, (a :: (q ++ s)).drop (find_loop (a :: (q ++ s)) q.length + 1)
      = after_last_slash q ++ s := by
  induction q using List.reverseRecOn with
  | nil => intro s; simp [find_loop, after_last_slash]
  | append_singleton q c ih =>
    intro s
    have hlen : (q ++ [c]).length = q.length + 1 := by simp
    have hlist : a :: (q ++ [c] ++ s) = a :: (q ++ c :: s) := by simp
    rw [hlen, hlist, find_loop, char_at_cons_append, after_last_slash_snoc]
    by_cases hc : c = '/'
    · simp [hc]
    · simp only [ne_eq, hc, not_false_eq_true, if_true, if_false]
      rw [ih (c :: s)]
      simp

/-- What `calc_basename` returns for a non-empty path: the part after the last `/` of
the path without its first character. -/
theorem calc_basename_tail (tmp : List Char) (a : Char) (q : List Char)
    (h : NUL ∉ a :: q) : (calc_basename tmp (a :: q)).2 = after_last_slash q := by
  rw [calc_basename_eq tmp _ h]
  simp only [strcpy, List.length_cons]
  generalize (tmp.set 0 NUL).drop (q.length + 1 + 1) = r
  have h1 : char_at (a :: q ++ NUL :: r) (q.length + 1) = NUL := by
    simpa using char_at_cons_append a q r NUL
  rw [find_loop, if_pos (by rw [h1]; exact nul_ne_slash)]
  unfold cstr_at
  have hd := find_loop_drop a q (NUL :: r)
  simp only [List.cons_append] at hd ⊢
  rw [hd]
  apply takeWhile_no_nul
  intro hc
  exact h (List.mem_cons_of_mem _ (after_last_slash_subset q NUL hc))

/-- For a non-empty path the result of `calc_basename` does not depend on what the
static array held. -/
theorem calc_basename_indep (t1 t2 : List Char) (p : CStr) (hp : p ≠ []) (h : NUL ∉ p) :
    (calc_basename t1 p).2 = (calc_basename t2 p).2 := by
  cases p with
  | nil => exact absurd rfl hp
  | cons a q => rw [calc_basename_tail t1 a q h, calc_basename_tail t2 a q h]

theorem takeWhile_append_stop_left (p : Char → Bool) (l m : List Char)
    (h : ∃ x ∈ l, p x = false) : (l ++ m).takeWhile p = l.takeWhile p := by
  induction l with
  | nil => obtain ⟨x, hx, _⟩ := h; simp at hx
  | cons a t ih =>
    obtain ⟨x, hx, hpx⟩ := h
    cases hpa : p a
    · simp [List.takeWhile_cons, hpa]
    · have hx2 : x ∈ t := by
        rcases List.mem_cons.mp hx with r | r
        · rw [r, hpa] at hpx; exact absurd hpx (by simp)
        · exact r
      simp [List.takeWhile_cons, hpa, ih ⟨x, hx2, hpx⟩]

theorem after_last_slash_cons (a : Char) (q : List Char) (h : '/' ∈ a :: q) :
    after_last_slash (a :: q) = after_last_slash q := by
  by_cases hq : '/' ∈ q
  · unfold after_last_slash
    rw [List.reverse_cons, takeWhile_append_stop_left]
    exact ⟨'/', List.mem_reverse.mpr hq, by simp⟩
  · have ha : a = '/' := by
      rcases List.mem_cons.mp h with r | r
      · exact r.symm
      · exact absurd r hq
    rw [ha, after_last_slash_no_slash q hq]
    exact after_last_slash_append [] q hq

/-- C12 (the code departs from it): for a non-empty path without `/`, `calc_basename`
returns the path without its first character, which is not the path: the scan for the
last `/` runs while `i > 0` and the result starts at `tmp + i + 1`, after index 0.  So
`calc_basename ("b")` is the empty string and `calc_basename ("abc")` is `"bc"`. -/
theorem C12_single_component_loses_first_char (tmp : List Char) (p : CStr) (hne : p ≠ [])
    (hnul : NUL ∉ p) (hslash : '/' ∉ p) :
    (calc_basename tmp p).2 = p.tail ∧ (calc_basename tmp p).2 ≠ p ∧
    (calc_basename (zero_buf 256) "b".toList).2 = [] ∧
    (calc_basename (zero_buf 256) "abc".toList).2 = "bc".toList := by
  cases p with
  | nil => exact absurd rfl hne
  | cons a q =>
    have hq : '/' ∉ q := fun hc => hslash (List.mem_cons_of_mem _ hc)
    have h1 : (calc_basename tmp (a :: q)).2 = q := by
      rw [calc_basename_tail tmp a q hnul, after_last_slash_no_slash q hq]
    refine ⟨h1, ?_, by decide, by decide⟩
    rw [h1]
    intro hc
    have := congrArg List.length hc
    simp at this

/-- C12, at the path `b`. -/
theorem C12_single_component_loses_first_char_witness :
    "b".toList ≠ [] ∧ NUL ∉ "b".toList ∧ '/' ∉ "b".toList ∧
    (calc_basename (zero_buf 1024) "b".toList).2 = "b".toList.tail ∧
    (calc_basename (zero_buf 1024) "b".toList).2 ≠ "b".toList :=
  ⟨by decide, by decide, by decide,
    (C12_single_component_loses_first_char (zero_buf 1024) "b".toList (by decide) (by decide)
      (by decide)).1,
    (C12_single_component_loses_first_char (zero_buf 1024) "b".toList (by decide) (by decide)
      (by decide)).2.1⟩

/-- C18: for every child path that the walk builds, a parent path, a `/` and a name
without `/`, that fits the static array, `calc_basename` returns exactly the name; and
for every path that holds a `/` and fits the array it returns the part after the last
`/`; `calc_basename ("/a/b")` is `"b"`. -/
theorem C18_basename_of_child_path (tmp : List Char) (parent name : CStr)
    (hpar : NUL ∉ parent) (hname : NUL ∉ name) (hslash : '/' ∉ name)
    (_hlen : (next_path parent name).length < tmp.length) :
    (calc_basename tmp (next_path parent name)).2 = name ∧
    (∀ p : CStr, NUL ∉ p → '/' ∈ p → p.length < tmp.length →
      (calc_basename tmp p).2 = after_last_slash p) ∧
    (calc_basename (zero_buf 256) "/a/b".toList).2 = "b".toList := by
  have hgen : ∀ p : CStr, NUL ∉ p → '/' ∈ p → (calc_basename tmp p).2 = after_last_slash p := by
    intro p hp hs
    cases p with
    | nil => simp at hs
    | cons a q => rw [calc_basename_tail tmp a q hp, after_last_slash_cons a q hs]
  refine ⟨?_, fun p hp hs _ => hgen p hp hs, by decide⟩
  have hn : NUL ∉ next_path parent name := by
    simp only [next_path, List.mem_append, List.mem_cons, not_or]
    exact ⟨hpar, nul_ne_slash, hname⟩
  rw [hgen _ hn (by simp [next_path])]
  exact after_last_slash_append parent name hslash

/-- C18, at the child path `/tmp/d` + `/` + `a.txt`. -/
theorem C18_basename_of_child_path_witness :
    NUL ∉ "/tmp/d".toList ∧ NUL ∉ "a.txt".toList ∧ '/' ∉ "a.txt".toList ∧
    (next_path "/tmp/d".toList "a.txt".toList).length < (zero_buf 256).length ∧
    (calc_basename (zero_buf 256) (next_path "/tmp/d".toList "a.txt".toList)).2
      = "a.txt".toList :=
  ⟨by decide, by decide, by decide, by decide,
    (C18_basename_of_child_path (zero_buf 256) "/tmp/d".toList "a.txt".toList (by decide)
      (by decide) (by decide) (by decide)).1⟩

/-- C20: a `-type` condition is decided by the first character of its data only: for
every entry, every flag and every non-empty data, the outcome is the outcome for the
one-character string of its first character (so `directory` acts as `d`); and with
empty data the switch reads the terminating NUL, takes its `default` case, and the
process ends with the `-type` diagnostic. -/
theorem C20_type_first_char_only (e : Env) (path : CStr) (f_stat : stat) (c : Char)
    (rest : CStr) (reverse : Nat) (w : World) :
    eval_conds e path f_stat [new_condition (c :: rest) reverse COND_TYPE] w
      = eval_conds e path f_stat [new_condition [c] reverse COND_TYPE] w ∧
    eval_conds e path f_stat [new_condition "directory".toList 0 COND_TYPE] w
      = .ok (S_ISDIR f_stat.st_mode) w ∧
    eval_conds e path f_stat [new_condition [] reverse COND_TYPE] w
      = .exit (perror type_usage w) := by
  refine ⟨?_, ?_, ?_⟩
  · simp only [eval_conds, cond_loop, new_condition]
    rw [cond_switch_type _ _ _ _ _ _ rfl, cond_switch_type _ _ _ _ _ _ rfl]
    rfl
  · simp only [eval_conds, cond_loop, new_condition]
    rw [cond_switch_type _ _ _ _ _ _ rfl]
    have : type_test ("directory".toList.headD NUL) f_stat.st_mode
        = some (S_ISDIR f_stat.st_mode) := rfl
    simp only [this, apply_reverse]
    cases S_ISDIR f_stat.st_mode <;> rfl
  · simp only [eval_conds, cond_loop, new_condition]
    rw [cond_switch_type _ _ _ _ _ _ rfl]
    rfl

theorem type_test_none (c : Char) (m : Nat) (h : c ∉ type_letters) : type_test c m = none := by
  simp only [type_letters, List.mem_cons, List.mem_singleton, List.not_mem_nil, or_false,
    not_or] at h
  obtain ⟨h1, h2, h3, h4, h5, h6, h7⟩ := h
  simp only [type_test, h1, h2, h3, h4, h5, h6, h7, if_false]

theorem cond_switch_bad (e : Env) (path : CStr) (f_stat : stat) (bad : condition) (ct : Bool)
    (w : World) (hty : bad.type = COND_TYPE) (hbad : bad.data.headD NUL ∉ type_letters) :
    cond_switch e path f_stat bad ct w = .exit (perror type_usage w) := by
  rw [cond_switch_type _ _ _ _ _ _ hty, type_test_none _ _ hbad]

/-- The loop over recognized conditions followed by more conditions: when all the first
hold, the loop goes on with the rest; when one fails, the loop ends there with false. -/
theorem cond_loop_append (e : Env) (path : CStr) (f_stat : stat) (w : World)
    (hpath : NUL ∉ path) (rest : List condition) (pre : List condition) :
    ∀ w1 : World, (∀ c ∈ pre, c.recognized = true) →
      (calc_basename w1.tmp path).2 = (calc_basename w.tmp path).2 →
      ((pre.all fun c => cond_result e path f_stat w c == some true) = true →
        ∃ w2, cond_loop e path f_stat (pre ++ rest) true w1
            = cond_loop e path f_stat rest true w2
          ∧ w2.stdout = w1.stdout ∧ w2.stderr = w1.stderr ∧ w2.link_dest = w1.link_dest) ∧
      ((pre.all fun c => cond_result e path f_stat w c == some true) = false →
        ∃ w2, cond_loop e path f_stat (pre ++ rest) true w1 = .ok false w2
          ∧ w2.stdout = w1.stdout ∧ w2.stderr = w1.stderr ∧ w2.link_dest = w1.link_dest) := by
  induction pre with
  | nil =>
    intro w1 _ _
    exact ⟨fun _ => ⟨w1, rfl, rfl, rfl, rfl⟩, fun h => by simp at h⟩
  | cons c pre ih =>
    intro w1 hP hw
    obtain ⟨hct, b, w3, hsw, hw3⟩ :=
      cond_switch_recognized e path f_stat c true w1 (hP c (List.mem_cons_self _ _))
    have hres : cond_result e path f_stat w c = some (apply_reverse c b) := by
      rw [← cond_result_congr e path f_stat w w1 c hw]
      simp only [cond_result, hsw]
    have hw3b : (calc_basename w3.tmp path).2 = (calc_basename w.tmp path).2 := by
      rcases hw3 with r | r
      · rw [r]; exact hw
      · rw [r]
        simp only []
        rw [calc_basename_idem _ _ hpath]
        exact hw
    have hw3s : w3.stdout = w1.stdout ∧ w3.stderr = w1.stderr ∧ w3.link_dest = w1.link_dest := by
      rcases hw3 with r | r <;> rw [r] <;> exact ⟨rfl, rfl, rfl⟩
    rw [List.cons_append, cond_loop, hct, hsw]
    simp only [List.all_cons, hres]
    cases hb : apply_reverse c b with
    | false =>
      refine ⟨fun h => by simp at h, fun _ => ⟨w3, by simp, hw3s⟩⟩
    | true =>
      obtain ⟨ih1, ih2⟩ := ih w3 (fun c hc => hP c (List.mem_cons_of_mem _ hc)) hw3b
      constructor
      · intro h
        obtain ⟨w2, h2, h2s⟩ := ih1 (by simpa using h)
        exact ⟨w2, by simpa using h2,
          h2s.1.trans hw3s.1, h2s.2.1.trans hw3s.2.1, h2s.2.2.trans hw3s.2.2⟩
      · intro h
        obtain ⟨w2, h2, h2s⟩ := ih2 (by simpa using h)
        exact ⟨w2, by simpa using h2,
          h2s.1.trans hw3s.1, h2s.2.1.trans hw3s.2.1, h2s.2.2.trans hw3s.2.2⟩

/-- The first value of `cond_true` does not count when the list starts with a
condition of one of the two kinds. -/
theorem eval_conds_start (e : Env) (path : CStr) (f_stat : stat) (c : condition)
    (l : List condition) (w : World) (h : c.type = COND_NAME ∨ c.type = COND_TYPE) :
    eval_conds e path f_stat (c :: l) w = cond_loop e path f_stat (c :: l) true w := by
  have hs : cond_switch e path f_stat c false w = cond_switch e path f_stat c true w := by
    rcases h with h | h
    · rw [cond_switch_name _ _ _ _ _ _ h, cond_switch_name _ _ _ _ _ _ h]
    · rw [cond_switch_type _ _ _ _ _ _ h, cond_switch_type _ _ _ _ _ _ h]
  have hz : (l.length + 1 == 0) = false := rfl
  simp only [eval_conds, cond_loop, List.length_cons, hz, hs]

theorem recognized_kind (c : condition) (h : c.recognized = true) :
    c.type = COND_NAME ∨ c.type = COND_TYPE := by
  unfold condition.recognized at h
  simp only [Bool.or_eq_true, Bool.and_eq_true, beq_iff_eq] at h
  rcases h with h | h
  · exact Or.inl h
  · exact Or.inr h.1

theorem eval_conds_append_start (e : Env) (path : CStr) (f_stat : stat) (pre : List condition)
    (bad : condition) (post : List condition) (w : World)
    (hpre : ∀ c ∈ pre, c.recognized = true) (hty : bad.type = COND_TYPE) :
    eval_conds e path f_stat (pre ++ bad :: post) w
      = cond_loop e path f_stat (pre ++ bad :: post) true w := by
  cases pre with
  | nil => exact eval_conds_start e path f_stat bad post w (Or.inr hty)
  | cons c pre =>
    exact eval_conds_start e path f_stat c _ w (recognized_kind c (hpre c (List.mem_cons_self _ _)))

theorem all_perm {α : Type} (f : α → Bool) {l l2 : List α} (h : l.Perm l2) :
    l.all f = l2.all f := by
  induction h with
  | nil => rfl
  | cons x _ ih => simp only [List.all_cons, ih]
  | swap x y l => simp only [List.all_cons, Bool.and_left_comm]
  | trans _ _ ih1 ih2 => exact ih1.trans ih2

/-- C11 (amended): a `-type` condition whose letter is not one of f, p, b, c, d, l, s
ends the process, with the `-type` diagnostic and nothing printed for the entry, on
every stat'ed entry on which all the conditions standing before it hold, whatever the
conditions after it are; on an entry on which a condition standing before it fails, the
loop stops there with a false decision and without diagnostic. -/
theorem C11_bad_letter_fatal_when_reached (e : Env) (path : CStr) (f_stat : stat)
    (pre : List condition) (bad : condition) (post : List condition) (cmd : Nat)
    (link : Option CStr) (od : Bool) (ents : DirList) (w : World)
    (hpath : NUL ∉ path) (hpre : ∀ c ∈ pre, c.recognized = true)
    (hty : bad.type = COND_TYPE) (hbad : bad.data.headD NUL ∉ type_letters) :
    ((pre.all fun c => cond_result e path f_stat w c == some true) = true →
      ∃ w2, eval_conds e path f_stat (pre ++ bad :: post) w = .exit w2
        ∧ w2.stdout = w.stdout ∧ w2.stderr = w.stderr ++ [type_usage]
        ∧ find_r e (pre ++ bad :: post) cmd path (.mk (some f_stat) link od ents) w
            = .exit w2) ∧
    ((pre.all fun c => cond_result e path f_stat w c == some true) = false →
      ∃ w2, eval_conds e path f_stat (pre ++ bad :: post) w = .ok false w2
        ∧ w2.stdout = w.stdout ∧ w2.stderr = w.stderr) := by
  have hstart := eval_conds_append_start e path f_stat pre bad post w hpre hty
  obtain ⟨h1, h2⟩ := cond_loop_append e path f_stat w hpath (bad :: post) pre w hpre rfl
  constructor
  · intro h
    obtain ⟨w2, hl, hs, he, _⟩ := h1 h
    have hx : eval_conds e path f_stat (pre ++ bad :: post) w
        = .exit (perror type_usage w2) := by
      rw [hstart, hl, cond_loop, cond_switch_bad e path f_stat bad true w2 hty hbad]
    refine ⟨perror type_usage w2, hx, hs, by simp [perror, he], ?_⟩
    simp only [find_r, hx]
  · intro h
    obtain ⟨w2, hl, hs, he, _⟩ := h2 h
    exact ⟨w2, by rw [hstart, hl], hs, he⟩

/-- C11, on the directory `/r` with the conditions `-type x -name *.txt`: the letter x
is reached on the first entry and ends the process. -/
theorem C11_bad_letter_fatal_when_reached_witness :
    NUL ∉ "/r".toList ∧ (new_condition "x".toList 0 COND_TYPE).type = COND_TYPE ∧
    (new_condition "x".toList 0 COND_TYPE).data.headD NUL ∉ type_letters ∧
    ∃ w2, find_r env0 ([] ++ new_condition "x".toList 0 COND_TYPE
          :: [new_condition "*.txt".toList 0 COND_NAME]) CMD_PRINT "/r".toList
        (.mk (some { st_mode := 0o040755, st_ino := 1, st_size := 4096, st_nlink := 2,
                     st_uid := 1000, st_gid := 50, st_mtime := 1710498600 }) none true .nil)
        (World.init env0) = .exit w2
      ∧ w2.stdout = [] ∧ w2.stderr = [type_usage] :=
  ⟨by decide, by decide, by decide,
    ((C11_bad_letter_fatal_when_reached env0 "/r".toList
        { st_mode := 0o040755, st_ino := 1, st_size := 4096, st_nlink := 2,
          st_uid := 1000, st_gid := 50, st_mtime := 1710498600 }
        [] (new_condition "x".toList 0 COND_TYPE) [new_condition "*.txt".toList 0 COND_NAME]
        CMD_PRINT none true .nil (World.init env0) (by decide)
        (fun _ h => absurd h (List.not_mem_nil _)) (by decide) (by decide)).1 rfl).imp
      fun _ h => ⟨h.2.2.2, h.2.1, h.2.2.1⟩⟩

/-- C11 as stated fails: the starting path `/r` exists and the list `-name nomatch
-type x` holds a `-type` condition with the letter x, yet the run over `tree0` returns
normally, without any diagnostic: `-name nomatch` fails on every entry and the loop
stops before the `-type` condition. -/
theorem C11_bad_letter_not_reached :
    Node.statable (fs0 "/r".toList) = true ∧ 'x' ∉ type_letters ∧
    (main_loop env0 [new_condition "nomatch".toList 0 COND_NAME,
        new_condition "x".toList 0 COND_TYPE] CMD_PRINT fs0 ["/r".toList]
        (World.init env0)).value = some () ∧
    (main_loop env0 [new_condition "nomatch".toList 0 COND_NAME,
        new_condition "x".toList 0 COND_TYPE] CMD_PRINT fs0 ["/r".toList]
        (World.init env0)).world.stderr = [] ∧
    (main_loop env0 [new_condition "nomatch".toList 0 COND_NAME,
        new_condition "x".toList 0 COND_TYPE] CMD_PRINT fs0 ["/r".toList]
        (World.init env0)).world.stdout = [] := by
  decide

/-- C14 (amended): for every entry and every two lists of recognized conditions that
are permutations of each other, the two decisions are the same, and neither evaluation
ends the process. -/
theorem C14_order_of_recognized (e : Env) (path : CStr) (f_stat : stat)
    (P P2 : List condition) (w : World) (hpath : NUL ∉ path)
    (hP : ∀ c ∈ P, c.recognized = true) (hperm : P.Perm P2) :
    (eval_conds e path f_stat P w).value = (eval_conds e path f_stat P2 w).value ∧
    (eval_conds e path f_stat P w).value
      = some (P.all fun c => cond_result e path f_stat w c == some true) := by
  obtain ⟨w2, h, _⟩ := eval_conds_all e path f_stat w hpath P hP
  obtain ⟨w3, h3, _⟩ := eval_conds_all e path f_stat w hpath P2
    (fun c hc => hP c (hperm.mem_iff.mpr hc))
  rw [h, h3, all_perm _ hperm]
  exact ⟨rfl, rfl⟩

/-- C14, on a regular file with `-type f ! -name *.txt` and the two conditions swapped. -/
theorem C14_order_of_recognized_witness :
    NUL ∉ "/tmp/f".toList ∧
    (∀ c ∈ [new_condition "f".toList 0 COND_TYPE, new_condition "*.txt".toList 1 COND_NAME],
      c.recognized = true) ∧
    (eval_conds env0 "/tmp/f".toList
      { st_mode := 0o100644, st_ino := 7, st_size := 0, st_nlink := 1, st_uid := 1000,
        st_gid := 50, st_mtime := 0 }
      [new_condition "f".toList 0 COND_TYPE, new_condition "*.txt".toList 1 COND_NAME]
      (World.init env0)).value
    = (eval_conds env0 "/tmp/f".toList
      { st_mode := 0o100644, st_ino := 7, st_size := 0, st_nlink := 1, st_uid := 1000,
        st_gid := 50, st_mtime := 0 }
      [new_condition "*.txt".toList 1 COND_NAME, new_condition "f".toList 0 COND_TYPE]
      (World.init env0)).value :=
  ⟨by decide, by decide,
    (C14_order_of_recognized env0 "/tmp/f".toList _ _ _ (World.init env0) (by decide)
      (by decide) (List.Perm.swap _ _ [])).1⟩

/-- C14 as stated fails: the lists `-name nomatch -type x` and `-type x -name nomatch`
are permutations of each other; on the same entry the first gives the decision false and
the second ends the process with the `-type` diagnostic. -/
theorem C14_order_changes_fatal :
    List.Perm [new_condition "nomatch".toList 0 COND_NAME, new_condition "x".toList 0 COND_TYPE]
      [new_condition "x".toList 0 COND_TYPE, new_condition "nomatch".toList 0 COND_NAME] ∧
    (eval_conds env0 "/tmp/f".toList
      { st_mode := 0o100644, st_ino := 7, st_size := 0, st_nlink := 1, st_uid := 1000,
        st_gid := 50, st_mtime := 0 }
      [new_condition "nomatch".toList 0 COND_NAME, new_condition "x".toList 0 COND_TYPE]
      (World.init env0)).value = some false ∧
    (eval_conds env0 "/tmp/f".toList
      { st_mode := 0o100644, st_ino := 7, st_size := 0, st_nlink := 1, st_uid := 1000,
        st_gid := 50, st_mtime := 0 }
      [new_condition "x".toList 0 COND_TYPE, new_condition "nomatch".toList 0 COND_NAME]
      (World.init env0)).value = none :=
  ⟨List.Perm.swap _ _ [], by decide, by decide⟩

theorem is_expression_token_false (a : CStr) (h1 : a ≠ "!".toList) (h2 : a ≠ "-name".toList)
    (h3 : a ≠ "-type".toList) (h4 : a ≠ "-print".toList) (h5 : a ≠ "-ls".toList) :
    is_expression_token a = false := by
  unfold is_expression_token
  rw [beq_eq_false_iff_ne.mpr h1, beq_eq_false_iff_ne.mpr h2, beq_eq_false_iff_ne.mpr h3,
    beq_eq_false_iff_ne.mpr h4, beq_eq_false_iff_ne.mpr h5]
  rfl

theorem is_expression_token_true (a : CStr)
    (h : a = "!".toList ∨ a = "-name".toList ∨ a = "-type".toList ∨ a = "-print".toList
      ∨ a = "-ls".toList) : is_expression_token a = true := by
  rcases h with h | h | h | h | h <;> subst h <;> rfl

theorem parse_loop_cons (a : CStr) (rest : List CStr) (s : Parsed) :
    parse_loop (a :: rest) s =
      if a = "!".toList then parse_loop rest { s with arg_path := 0, reverse := 1 }
      else if a = "-name".toList then
        match rest with
        | [] =>
          { s with arg_path := 0, reverse := 0, null_data := true
                   cond_l := push_l s.cond_l (new_condition [] s.reverse COND_NAME) }
        | data :: rest2 =>
          parse_loop rest2
            { s with arg_path := 0, reverse := 0
                     cond_l := push_l s.cond_l (new_condition data s.reverse COND_NAME) }
      else if a = "-type".toList then
        match rest with
        | [] =>
          { s with arg_path := 0, reverse := 0, null_data := true
                   cond_l := push_l s.cond_l (new_condition [] s.reverse COND_TYPE) }
        | data :: rest2 =>
          parse_loop rest2
            { s with arg_path := 0, reverse := 0
                     cond_l := push_l s.cond_l (new_condition data s.reverse COND_TYPE) }
      else if a = "-print".toList then { s with cmd := CMD_PRINT }
      else if a = "-ls".toList then { s with cmd := CMD_LS }
      else if s.arg_path ≠ 0 then parse_loop rest { s with path_l := push_l s.path_l a }
      else parse_loop rest s := by
  rw [parse_loop.eq_def]

/-- Once `arg_path` is cleared, the argument loop adds no path. -/
theorem parse_loop_paths_closed : ∀ (n : Nat) (args : List CStr) (s : Parsed),
    args.length ≤ n → s.arg_path = 0 → (parse_loop args s).path_l = s.path_l := by
  intro n
  induction n with
  | zero =>
    intro args s hn _
    have : args = [] := List.length_eq_zero.mp (Nat.le_zero.mp hn)
    subst this
    rfl
  | succ n ih =>
    intro args s hn hs
    cases args with
    | nil => rfl
    | cons a rest =>
      have hr : rest.length ≤ n := by simpa using hn
      rw [parse_loop_cons]
      split
      · exact ih rest _ hr rfl
      · split
        · cases rest with
          | nil => rfl
          | cons d rest2 =>
            have hr2 : rest2.length ≤ n := by simp at hr; omega
            exact ih rest2 _ hr2 rfl
        · split
          · cases rest with
            | nil => rfl
            | cons d rest2 =>
              have hr2 : rest2.length ≤ n := by simp at hr; omega
              exact ih rest2 _ hr2 rfl
          · split
            · rfl
            · split
              · rfl
              · rw [if_neg (by simp [hs])]
                exact ih rest s hr hs

/-- While `arg_path` is set, the argument loop adds the arguments up to the first
expression token. -/
theorem parse_loop_paths_open : ∀ (args : List CStr) (s : Parsed), s.arg_path ≠ 0 →
    (parse_loop args s).path_l
      = s.path_l ++ args.takeWhile fun a => !is_expression_token a := by
  intro args
  induction args with
  | nil => intro s _; simp [parse_loop]
  | cons a rest ih =>
    intro s hs
    rw [parse_loop_cons]
    split
    · rename_i h
      rw [parse_loop_paths_closed rest.length rest _ (Nat.le_refl _) rfl]
      simp [List.takeWhile_cons, is_expression_token_true a (by simp [h])]
    · split
      · rename_i h1 h
        have hc : (List.takeWhile (fun a => !is_expression_token a) (a :: rest)) = [] := by
          simp [List.takeWhile_cons, is_expression_token_true a (by simp [h])]
        rw [hc]
        cases rest with
        | nil => simp
        | cons d rest2 =>
          simp only []
          rw [parse_loop_paths_closed rest2.length rest2 _ (Nat.le_refl _) rfl]
          simp
      · split
        · rename_i h1 h2 h
          have hc : (List.takeWhile (fun a => !is_expression_token a) (a :: rest)) = [] := by
            simp [List.takeWhile_cons, is_expression_token_true a (by simp [h])]
          rw [hc]
          cases rest with
          | nil => simp
          | cons d rest2 =>
            simp only []
            rw [parse_loop_paths_closed rest2.length rest2 _ (Nat.le_refl _) rfl]
            simp
        · split
          · rename_i h1 h2 h3 h
            simp [List.takeWhile_cons, is_expression_token_true a (by simp [h])]
          · split
            · rename_i h1 h2 h3 h4 h
              simp [List.takeWhile_cons, is_expression_token_true a (by simp [h])]
            · rename_i h1 h2 h3 h4 h5
              rw [ih { s with path_l := push_l s.path_l a } hs]
              simp [List.takeWhile_cons, is_expression_token_false a h1 h2 h3 h4 h5, push_l]

/-- C15: for every argument vector, the list of starting paths that `main` builds is
the sequence of the arguments (after the program name) that precede the first argument
equal to `!`, `-name`, `-type`, `-print` or `-ls`, in order; no later argument is
collected. -/
theorem C15_starting_paths (argv : List CStr) :
    (parse_loop argv.tail Parsed.start).path_l
      = argv.tail.takeWhile fun a => !is_expression_token a := by
  rw [parse_loop_paths_open argv.tail Parsed.start (by decide)]
  rfl

theorem spec_conditions_bang (rest : List CStr) (neg : Bool) :
    spec_conditions ("!".toList :: rest) neg = spec_conditions rest true := by
  rw [spec_conditions.eq_def]; rfl

theorem spec_conditions_name (d : CStr) (rest : List CStr) (neg : Bool) :
    spec_conditions ("-name".toList :: d :: rest) neg
      = { data := d, reverse := if neg then 1 else 0, type := COND_NAME }
          :: spec_conditions rest false := by
  rw [spec_conditions.eq_def]; rfl

theorem spec_conditions_type (d : CStr) (rest : List CStr) (neg : Bool) :
    spec_conditions ("-type".toList :: d :: rest) neg
      = { data := d, reverse := if neg then 1 else 0, type := COND_TYPE }
          :: spec_conditions rest false := by
  rw [spec_conditions.eq_def]; rfl

theorem spec_conditions_print (rest : List CStr) (neg : Bool) :
    spec_conditions ("-print".toList :: rest) neg = [] := by
  rw [spec_conditions.eq_def]; rfl

theorem spec_conditions_ls (rest : List CStr) (neg : Bool) :
    spec_conditions ("-ls".toList :: rest) neg = [] := by
  rw [spec_conditions.eq_def]; rfl

theorem spec_conditions_other (a : CStr) (rest : List CStr) (neg : Bool)
    (h1 : a ≠ "!".toList) (h2 : a ≠ "-name".toList) (h3 : a ≠ "-type".toList)
    (h4 : a ≠ "-print".toList) (h5 : a ≠ "-ls".toList) :
    spec_conditions (a :: rest) neg = spec_conditions rest neg := by
  rw [spec_conditions.eq_def]
  simp only [h1, h2, h3, h4, h5, or_self, if_false]

theorem args_complete_bang (rest : List CStr) :
    args_complete ("!".toList :: rest) = args_complete rest := by
  rw [args_complete.eq_def]; rfl

theorem args_complete_name (rest : List CStr) :
    args_complete ("-name".toList :: rest)
      = match rest with
        | [] => false
        | _ :: rest2 => args_complete rest2 := by
  rw [args_complete.eq_def]; rfl

theorem args_complete_type (rest : List CStr) :
    args_complete ("-type".toList :: rest)
      = match rest with
        | [] => false
        | _ :: rest2 => args_complete rest2 := by
  rw [args_complete.eq_def]; rfl

theorem args_complete_other (a : CStr) (rest : List CStr)
    (h2 : a ≠ "-name".toList) (h3 : a ≠ "-type".toList)
    (h4 : a ≠ "-print".toList) (h5 : a ≠ "-ls".toList) :
    args_complete (a :: rest) = args_complete rest := by
  rw [args_complete.eq_def]
  simp only [h2, h3, h4, h5, or_self, if_false]

/-- The argument loop, started with conditions already built and with `reverse` set or
not (`neg`), adds the conditions that the arguments ask for. -/
theorem parse_loop_conds : ∀ (n : Nat) (args : List CStr) (s : Parsed) (neg : Bool),
    args.length ≤ n → s.reverse = (if neg then 1 else 0) → args_complete args = true →
    (parse_loop args s).cond_l = s.cond_l ++ spec_conditions args neg
      ∧ (parse_loop args s).null_data = s.null_data := by
  intro n
  induction n with
  | zero =>
    intro args s neg hn _ _
    have : args = [] := List.length_eq_zero.mp (Nat.le_zero.mp hn)
    subst this
    simp [parse_loop, spec_conditions]
  | succ n ih =>
    intro args s neg hn hrev hc
    cases args with
    | nil => simp [parse_loop, spec_conditions]
    | cons a rest =>
      have hr : rest.length ≤ n := by simpa using hn
      rw [parse_loop_cons]
      split
      · rename_i h
        subst h
        rw [args_complete_bang] at hc
        rw [spec_conditions_bang]
        exact ih rest _ true hr rfl hc
      · split
        · rename_i h1 h
          subst h
          rw [args_complete_name] at hc
          cases rest with
          | nil => simp at hc
          | cons d rest2 =>
            have hr2 : rest2.length ≤ n := by simp at hr; omega
            simp only [] at hc ⊢
            obtain ⟨i1, i2⟩ := ih rest2
              { s with arg_path := 0, reverse := 0
                       cond_l := push_l s.cond_l (new_condition d s.reverse COND_NAME) }
              false hr2 rfl hc
            rw [i1, i2, spec_conditions_name, hrev]
            simp [push_l, new_condition]
        · split
          · rename_i h1 h2 h
            subst h
            rw [args_complete_type] at hc
            cases rest with
            | nil => simp at hc
            | cons d rest2 =>
              have hr2 : rest2.length ≤ n := by simp at hr; omega
              simp only [] at hc ⊢
              obtain ⟨i1, i2⟩ := ih rest2
                { s with arg_path := 0, reverse := 0
                         cond_l := push_l s.cond_l (new_condition d s.reverse COND_TYPE) }
                false hr2 rfl hc
              rw [i1, i2, spec_conditions_type, hrev]
              simp [push_l, new_condition]
          · split
            · rename_i h1 h2 h3 h
              subst h
              rw [spec_conditions_print]
              simp
            · split
              · rename_i h1 h2 h3 h4 h
                subst h
                rw [spec_conditions_ls]
                simp
              · rename_i h1 h2 h3 h4 h5
                rw [args_complete_other a rest h2 h3 h4 h5] at hc
                rw [spec_conditions_other a rest neg h1 h2 h3 h4 h5]
                split
                · exact ih rest _ neg hr hrev hc
                · exact ih rest s neg hr hrev hc

/-- C16: for every argument vector in which each `-name` and `-type` read as an option
is followed by an argument, the condition list that `main` builds is the list that the
arguments ask for: one condition per such option, in order, with the following
argument as its data, its `reverse` flag 1 when at least one `!` was read since the
previous condition (or the start) and 0 otherwise; no condition is built from the end
of `argv`.  Two `!` in a row do not cancel, and a `!` reverses the next condition
only. -/
theorem C16_condition_list (argv : List CStr) (hc : args_complete argv.tail = true) :
    (parse_loop argv.tail Parsed.start).cond_l = spec_conditions argv.tail false ∧
    (parse_loop argv.tail Parsed.start).null_data = false ∧
    (parse_loop ["!".toList, "!".toList, "-name".toList, "a".toList, "-type".toList,
        "d".toList] Parsed.start).cond_l
      = [new_condition "a".toList 1 COND_NAME, new_condition "d".toList 0 COND_TYPE] := by
  obtain ⟨h1, h2⟩ := parse_loop_conds argv.tail.length argv.tail Parsed.start false
    (Nat.le_refl _) rfl hc
  refine ⟨?_, h2, by decide⟩
  rw [h1]
  rfl

/-- C16, on `find /r ! ! -name ! x -type d -print -name y`: the pattern of `-name` is
the argument `!`, taken as it is; `x` is neither a path nor a condition; what follows
`-print` is not read. -/
theorem C16_condition_list_witness :
    args_complete (["find".toList, "/r".toList, "!".toList, "!".toList, "-name".toList,
      "!".toList, "x".toList, "-type".toList, "d".toList, "-print".toList, "-name".toList,
      "y".toList]).tail = true ∧
    (parse_loop (["find".toList, "/r".toList, "!".toList, "!".toList, "-name".toList,
      "!".toList, "x".toList, "-type".toList, "d".toList, "-print".toList, "-name".toList,
      "y".toList]).tail Parsed.start).cond_l
      = spec_conditions (["find".toList, "/r".toList, "!".toList, "!".toList,
          "-name".toList, "!".toList, "x".toList, "-type".toList, "d".toList,
          "-print".toList, "-name".toList, "y".toList]).tail false ∧
    spec_conditions (["find".toList, "/r".toList, "!".toList, "!".toList,
        "-name".toList, "!".toList, "x".toList, "-type".toList, "d".toList,
        "-print".toList, "-name".toList, "y".toList]).tail false
      = [new_condition "!".toList 1 COND_NAME, new_condition "d".toList 0 COND_TYPE] :=
  ⟨by decide,
    (C16_condition_list ["find".toList, "/r".toList, "!".toList, "!".toList, "-name".toList,
      "!".toList, "x".toList, "-type".toList, "d".toList, "-print".toList, "-name".toList,
      "y".toList] (by decide)).1,
    by decide⟩

theorem perror_set_tmp (t : List Char) (x : CStr) (w : World) :
    perror x (w.set_tmp t) = (perror x w).set_tmp t := rfl

theorem printf_set_tmp (t : List Char) (x : List Char) (w : World) :
    printf x (w.set_tmp t) = (printf x w).set_tmp t := rfl

theorem calc_date_str_set_tmp (e : Env) (time : Int) (t : List Char) (w : World) :
    calc_date_str e time (w.set_tmp t) = (calc_date_str e time w).set_tmp t := by
  unfold calc_date_str
  cases e.localtime time <;> rfl

theorem calc_link_dest_set_tmp (e : Env) (link : Option CStr) (t : List Char) (w : World) :
    calc_link_dest e link (w.set_tmp t) = (calc_link_dest e link w).set_tmp t := by
  unfold calc_link_dest
  cases link <;> rfl

theorem cmd_ls_set_tmp (e : Env) (path : CStr) (f_stat : stat) (link : Option CStr)
    (t : List Char) (w : World) :
    cmd_ls e path f_stat link (w.set_tmp t) = (cmd_ls e path f_stat link w).set_tmp t := by
  unfold cmd_ls
  cases e.getpwuid f_stat.st_uid with
  | none => rfl
  | some o =>
    cases e.getgrgid f_stat.st_gid with
    | none => rfl
    | some g =>
      dsimp only
      have hw1 : ∀ (a b : List Char) (c : Bool),
          (if c = true then printf a (printf b (w.set_tmp t)) else printf b (w.set_tmp t))
            = (if c = true then printf a (printf b w) else printf b w).set_tmp t := by
        intro a b c; cases c <;> rfl
      rw [hw1, calc_date_str_set_tmp]
      cases calc_date_str e f_stat.st_mtime _ with
      | exit w2 => rfl
      | ok d w2 =>
        simp only [Res.set_tmp]
        split
        · rw [printf_set_tmp, calc_link_dest_set_tmp]
          cases calc_link_dest e link _ <;> rfl
        · rfl

theorem perform_cmd_set_tmp (e : Env) (cmd : Nat) (path : CStr) (f_stat : stat)
    (link : Option CStr) (t : List Char) (w : World) :
    perform_cmd e cmd path f_stat link (w.set_tmp t)
      = (perform_cmd e cmd path f_stat link w).set_tmp t := by
  unfold perform_cmd
  split
  · rfl
  · split
    · exact cmd_ls_set_tmp e path f_stat link t w
    · rfl

theorem world_shown_eq (w : World) : w.shown = (w.set_tmp []).quiet := rfl

theorem res_shown_eq {α : Type} (r : Res α) : r.shown = (r.set_tmp []).quiet := by
  cases r <;> rfl

/-- The outcome of the command, as shown, depends on the state only as shown. -/
theorem perform_cmd_shown (e : Env) (cmd : Nat) (path : CStr) (f_stat : stat)
    (link : Option CStr) (w w1 : World) (h : w.shown = w1.shown) :
    (perform_cmd e cmd path f_stat link w).shown
      = (perform_cmd e cmd path f_stat link w1).shown := by
  rw [res_shown_eq, res_shown_eq, ← perform_cmd_set_tmp, ← perform_cmd_set_tmp]
  exact perform_cmd_quiet e cmd path f_stat link _ _ h

theorem res_shown_ok_inj {α : Type} {a b : α} {w w1 : World}
    (h : (Res.ok a w).shown = (Res.ok b w1).shown) : a = b ∧ w.shown = w1.shown := by
  simp only [Res.shown, Res.ok.injEq] at h
  exact h

theorem res_shown_exit_inj {α : Type} {w w1 : World}
    (h : (Res.exit w : Res α).shown = (Res.exit w1).shown) : w.shown = w1.shown := by
  simp only [Res.shown, Res.exit.injEq] at h
  exact h

theorem world_shown_of (w w1 : World) (h1 : w.stdout = w1.stdout)
    (h2 : w.link_dest = w1.link_dest) : w.shown = w1.shown := by
  simp only [World.shown, h1, h2]

/-- On a non-empty path, recognized conditions give the decision `holds` from any
state, and leave the state, as shown, as it was. -/
theorem eval_conds_holds (e : Env) (P : List condition) (hP : ∀ c ∈ P, c.recognized = true)
    (path : CStr) (f_stat : stat) (w : World) (hne : path ≠ []) (hnul : NUL ∉ path) :
    ∃ w2, eval_conds e path f_stat P w = .ok (holds e P path f_stat) w2
      ∧ w2.shown = w.shown ∧ w2.stderr = w.stderr := by
  obtain ⟨w2, h, hs, he, hl⟩ := eval_conds_all e path f_stat w hnul P hP
  obtain ⟨w3, h3, _⟩ := eval_conds_all e path f_stat (World.init e) hnul P hP
  have hv : holds e P path f_stat
      = P.all fun c => cond_result e path f_stat w c == some true := by
    unfold holds
    rw [h3]
    have hc : ∀ c, cond_result e path f_stat (World.init e) c = cond_result e path f_stat w c :=
      fun c => cond_result_congr e path f_stat w (World.init e) c
        (calc_basename_indep _ _ path hne hnul)
    simp only [Res.value, hc]
    cases (P.all fun c => cond_result e path f_stat w c == some true) <;> rfl
  exact ⟨w2, by rw [h, hv], world_shown_of w2 w hs hl, he⟩

theorem andThen_ok (u : Unit) (w : World) (k : World → Res Unit) :
    (Res.ok u w).andThen k = k w := rfl

theorem andThen_exit (w : World) (k : World → Res Unit) :
    (Res.exit w : Res Unit).andThen k = .exit w := rfl

theorem andThen_assoc (r : Res Unit) (k k2 : World → Res Unit) :
    (r.andThen k).andThen k2 = r.andThen fun w => (k w).andThen k2 := by
  cases r <;> rfl

theorem andThen_return (r : Res Unit) : (r.andThen fun w => .ok () w) = r := by
  cases r <;> rfl

theorem perror_shown (x : CStr) (w : World) : (perror x w).shown = w.shown := rfl

theorem nul_not_mem_next_path (path d_name : CStr) (h1 : NUL ∉ path)
    (h2 : d_name.contains NUL = false) : NUL ∉ next_path path d_name := by
  have h3 : NUL ∉ d_name := by
    intro hc
    have : d_name.contains NUL = true := by simpa using hc
    rw [h2] at this
    exact Bool.noConfusion this
  simp only [next_path, List.mem_append, List.mem_cons, not_or]
  exact ⟨h1, nul_ne_slash, h3⟩

theorem next_path_ne_nil (path d_name : CStr) : next_path path d_name ≠ [] := by
  simp [next_path]

/-- The part of `find_r` on one stat'ed entry, followed by `k`, against the report of
the entry, when the conditions hold on it, followed by the report of `tail`. -/
theorem find_r_entry_report (e : Env) (P : List condition) (cmd : Nat)
    (hP : ∀ c ∈ P, c.recognized = true) (path : CStr) (f_stat : stat) (link : Option CStr)
    (hne : path ≠ []) (hnul : NUL ∉ path)
    (body : World → Res Unit) (tail : List (CStr × stat × Option CStr))
    (hbody : ∀ w w1 : World, w.shown = w1.shown →
      (body w).shown = (report e cmd tail w1).shown)
    (w w1 : World) (h : w.shown = w1.shown) :
    (match eval_conds e path f_stat P w with
      | .exit w => Res.exit w
      | .ok cond_true w =>
        match (if cond_true then perform_cmd e cmd path f_stat link w else .ok () w) with
        | .exit w => Res.exit w
        | .ok _ w => body w).shown
    = (report e cmd
        ((if holds e P path f_stat then [(path, f_stat, link)] else []) ++ tail) w1).shown := by
  obtain ⟨w2, he, hw2, _⟩ := eval_conds_holds e P hP path f_stat w hne hnul
  rw [he]
  dsimp only
  cases hh : holds e P path f_stat with
  | false =>
    simp only [Bool.false_eq_true, if_false, List.nil_append]
    exact hbody w2 w1 (hw2.trans h)
  | true =>
    simp only [if_true, List.singleton_append, report]
    have hp := perform_cmd_shown e cmd path f_stat link w2 w1 (hw2.trans h)
    cases hq : perform_cmd e cmd path f_stat link w2 with
    | exit w4 =>
      cases hq1 : perform_cmd e cmd path f_stat link w1 with
      | exit w5 => rw [hq, hq1] at hp; exact hp
      | ok u w5 => rw [hq, hq1] at hp; exact Res.noConfusion hp
    | ok u w4 =>
      cases hq1 : perform_cmd e cmd path f_stat link w1 with
      | exit w5 => rw [hq, hq1] at hp; exact Res.noConfusion hp
      | ok u1 w5 =>
        rw [hq, hq1] at hp
        exact hbody w4 w5 (res_shown_ok_inj hp).2

theorem find_r_some (e : Env) (P : List condition) (cmd : Nat) (path : CStr) (f_stat : stat)
    (link : Option CStr) (od : Bool) (ents : DirList) (w : World) (k : World → Res Unit) :
    (find_r e P cmd path (.mk (some f_stat) link od ents) w).andThen k
      = match eval_conds e path f_stat P w with
        | .exit w => Res.exit w
        | .ok cond_true w =>
          match (if cond_true then perform_cmd e cmd path f_stat link w else .ok () w) with
          | .exit w => Res.exit w
          | .ok _ w =>
            (if S_ISDIR f_stat.st_mode then
              if od then readdir_loop e P cmd path ents w else .ok () (perror path w)
            else .ok () w).andThen k := by
  simp only [find_r]
  cases eval_conds e path f_stat P w with
  | exit w2 => rfl
  | ok ct w2 =>
    dsimp only
    cases (if ct = true then perform_cmd e cmd path f_stat link w2 else Res.ok () w2) <;> rfl

theorem readdir_loop_cons_andThen (e : Env) (P : List condition) (cmd : Nat) (path : CStr)
    (d_name : CStr) (child : Node) (rest : DirList) (w : World) (k : World → Res Unit)
    (hdot : is_dot d_name = false) :
    (readdir_loop e P cmd path (.cons d_name child rest) w).andThen k
      = (find_r e P cmd (next_path path d_name) child w).andThen
          fun w => (readdir_loop e P cmd path rest w).andThen k := by
  simp only [readdir_loop, hdot, Bool.false_eq_true, if_false]
  cases find_r e P cmd (next_path path d_name) child w <;> rfl

mutual
/-- With recognized conditions, `find_r` followed by `k` shows what the command shows
when performed on the entries of the tree on which the conditions hold, in the order of
the walk, followed by what `k` shows. -/
theorem find_r_report (e : Env) (P : List condition) (cmd : Nat)
    (hP : ∀ c ∈ P, c.recognized = true) :
    ∀ (n : Node) (path : CStr) (k : World → Res Unit)
      (tail : List (CStr × stat × Option CStr)),
      path ≠ [] → NUL ∉ path → Node.names_cstr n = true →
      (∀ w w1 : World, w.shown = w1.shown → (k w).shown = (report e cmd tail w1).shown) →
      ∀ w w1 : World, w.shown = w1.shown →
        ((find_r e P cmd path n w).andThen k).shown
          = (report e cmd (Node.reported e P path n ++ tail) w1).shown
  | .mk lstat link od ents, path, k, tail, hne, hnul, hnames, hk, w, w1, h => by
    cases lstat with
    | none =>
      simp only [find_r, andThen_ok, Node.reported, Node.visits, List.filter_nil,
        List.nil_append]
      exact hk _ _ ((perror_shown path w).trans h)
    | some f_stat =>
      rw [find_r_some]
      simp only [Node.reported, Node.visits, List.filter_cons, Node.names_cstr] at hnames ⊢
      have hsplit : ∀ X : List (CStr × stat × Option CStr),
          (if holds e P path f_stat = true then (path, f_stat, link) :: X else X)
            = (if holds e P path f_stat = true then [(path, f_stat, link)] else []) ++ X := by
        intro X; split <;> rfl
      rw [hsplit, List.append_assoc]
      apply find_r_entry_report e P cmd hP path f_stat link hne hnul _ _ _ w w1 h
      intro w3 w4 h34
      cases hdir : S_ISDIR f_stat.st_mode
      · simp only [Bool.false_eq_true, if_false, Bool.false_and, List.filter_nil,
          List.nil_append, andThen_ok]
        exact hk w3 w4 h34
      · cases od
        · simp only [if_true, Bool.false_eq_true, if_false, Bool.and_false, List.filter_nil,
            List.nil_append, andThen_ok]
          exact hk _ _ ((perror_shown path w3).trans h34)
        · simp only [if_true, Bool.and_self]
          exact readdir_loop_report e P cmd hP ents path k tail hne hnul hnames hk w3 w4 h34
/-- The same for the loop over the stream of a directory. -/
theorem readdir_loop_report (e : Env) (P : List condition) (cmd : Nat)
    (hP : ∀ c ∈ P, c.recognized = true) :
    ∀ (ds : DirList) (path : CStr) (k : World → Res Unit)
      (tail : List (CStr × stat × Option CStr)),
      path ≠ [] → NUL ∉ path → DirList.names_cstr ds = true →
      (∀ w w1 : World, w.shown = w1.shown → (k w).shown = (report e cmd tail w1).shown) →
      ∀ w w1 : World, w.shown = w1.shown →
        ((readdir_loop e P cmd path ds w).andThen k).shown
          = (report e cmd
              ((DirList.visits path ds).filter (fun v => holds e P v.1 v.2.1) ++ tail) w1).shown
  | .nil, path, k, tail, _, _, _, hk, w, w1, h => by
    simp only [readdir_loop, andThen_ok, DirList.visits, List.filter_nil, List.nil_append]
    exact hk w w1 h
  | .cons d_name child rest, path, k, tail, hne, hnul, hnames, hk, w, w1, h => by
    simp only [DirList.names_cstr, Bool.and_eq_true, Bool.not_eq_true'] at hnames
    have ihr := readdir_loop_report e P cmd hP rest path k tail hne hnul hnames.2 hk
    cases hdot : is_dot d_name
    · rw [readdir_loop_cons_andThen e P cmd path d_name child rest w k hdot]
      simp only [DirList.visits, hdot, Bool.false_eq_true, if_false, List.filter_append,
        List.append_assoc]
      exact find_r_report e P cmd hP child (next_path path d_name) _ _
        (next_path_ne_nil path d_name) (nul_not_mem_next_path path d_name hnul hnames.1.1)
        hnames.1.2 ihr w w1 h
    · simp only [readdir_loop, DirList.visits, hdot, if_true, List.filter_append,
        List.filter_nil, List.nil_append]
      exact ihr w w1 h
end

theorem printf_printf (a b : List Char) (w : World) :
    printf b (printf a w) = printf (a ++ b) w := by
  simp [printf, List.append_assoc]

theorem printf_nil (w : World) : printf [] w = w := by
  simp [printf]

/-- The report with `-print`: the lines of the paths, and a normal return. -/
theorem report_print (e : Env) (l : List (CStr × stat × Option CStr)) :
    ∀ w : World, report e CMD_PRINT l w = .ok () (printf (lines (l.map fun v => v.1)) w) := by
  induction l with
  | nil => intro w; simp [report, lines, printf_nil]
  | cons v rest ih =>
    intro w
    simp only [report, perform_cmd_print, ih, printf_printf, List.map_cons, lines]
    simp

theorem find_r_shown_report (e : Env) (P : List condition) (cmd : Nat)
    (hP : ∀ c ∈ P, c.recognized = true) (n : Node) (path : CStr) (w : World)
    (hne : path ≠ []) (hnul : NUL ∉ path) (hnames : Node.names_cstr n = true) :
    (find_r e P cmd path n w).shown = (report e cmd (Node.reported e P path n) w).shown := by
  have h := find_r_report e P cmd hP n path (fun w => .ok () w) [] hne hnul hnames
    (fun w w1 h => by simp only [report, Res.shown, h]) w w rfl
  rw [andThen_return, List.append_nil] at h
  exact h

theorem res_shown_stdout {α : Type} (r r1 : Res α) (h : r.shown = r1.shown) :
    r.world.stdout = r1.world.stdout ∧ r.value = r1.value := by
  cases r with
  | ok a w =>
    cases r1 with
    | ok b w1 =>
      obtain ⟨hab, hw⟩ := res_shown_ok_inj h
      have hs : w.shown.stdout = w1.shown.stdout := by rw [hw]
      exact ⟨hs, by rw [hab]; rfl⟩
    | exit w1 => exact Res.noConfusion h
  | exit w =>
    cases r1 with
    | ok b w1 => exact Res.noConfusion h
    | exit w1 =>
      have hw := res_shown_exit_inj h
      have hs : w.shown.stdout = w1.shown.stdout := by rw [hw]
      exact ⟨hs, rfl⟩

theorem holds_nil (e : Env) (path : CStr) (f_stat : stat) : holds e [] path f_stat = true := rfl

theorem reported_nil (e : Env) (path : CStr) (n : Node) :
    Node.reported e [] path n = Node.visits path n := by
  simp [Node.reported, holds_nil]

/-- C17: conditions select what is reported and never prune the walk.  For every tree
(root path non-empty, names without NUL), every order of the directory streams, either
command and every list of recognized conditions, the walk shows on standard output what
the command shows when performed, in order, on the entries that the walk with no
condition reports, filtered to those on which the conditions hold; the entries visited
below a directory do not depend on the decision for the directory. -/
theorem C17_conditions_select (e : Env) (P : List condition) (cmd : Nat) (n : Node)
    (path : CStr) (w : World) (hP : ∀ c ∈ P, c.recognized = true)
    (hne : path ≠ []) (hnul : NUL ∉ path) (hnames : Node.names_cstr n = true) :
    (find_r e [] cmd path n w).shown = (report e cmd (Node.visits path n) w).shown ∧
    (find_r e P cmd path n w).shown
      = (report e cmd ((Node.visits path n).filter fun v => holds e P v.1 v.2.1) w).shown ∧
    (find_r e P CMD_PRINT path n w).world.stdout
      = w.stdout ++ lines
          (((Node.visits path n).filter fun v => holds e P v.1 v.2.1).map fun v => v.1) ∧
    (find_r e P CMD_PRINT path n w).value = some () := by
  have h0 := find_r_shown_report e [] cmd (fun _ h => absurd h (List.not_mem_nil _)) n path w
    hne hnul hnames
  rw [reported_nil] at h0
  have h1 := find_r_shown_report e P cmd hP n path w hne hnul hnames
  have h2 := find_r_shown_report e P CMD_PRINT hP n path w hne hnul hnames
  rw [report_print] at h2
  obtain ⟨hs, hv⟩ := res_shown_stdout _ _ h2
  exact ⟨h0, h1, hs, hv⟩

/-- C17, on `tree0` with `-type f -print`: the directories `x`, `y` and `y/z` fail the
condition and the files below them are reported. -/
theorem C17_conditions_select_witness :
    (∀ c ∈ [new_condition "f".toList 0 COND_TYPE], c.recognized = true) ∧
    "/r".toList ≠ [] ∧ NUL ∉ "/r".toList ∧ Node.names_cstr tree0 = true ∧
    (find_r env0 [new_condition "f".toList 0 COND_TYPE] CMD_PRINT "/r".toList tree0
        (World.init env0)).world.stdout
      = (World.init env0).stdout ++ lines
          (((Node.visits "/r".toList tree0).filter fun v =>
            holds env0 [new_condition "f".toList 0 COND_TYPE] v.1 v.2.1).map fun v => v.1) ∧
    lines (((Node.visits "/r".toList tree0).filter fun v =>
        holds env0 [new_condition "f".toList 0 COND_TYPE] v.1 v.2.1).map fun v => v.1)
      = "/r/x/f1\n/r/x/f2\n/r/y/z/f3\n/r/y/f4\n/r/f5\n".toList :=
  ⟨by decide, by decide, by decide, by decide,
    (C17_conditions_select env0 [new_condition "f".toList 0 COND_TYPE] CMD_PRINT tree0
      "/r".toList (World.init env0) (by decide) (by decide) (by decide) (by decide)).2.2.1,
    by decide⟩

/-- The decision of the single reversed condition `-name pattern` on a non-empty path:
the pattern does not match what `calc_basename` returns. -/
theorem holds_not_name (e : Env) (pattern path : CStr) (f_stat : stat) (t : List Char)
    (hne : path ≠ []) (hnul : NUL ∉ path) :
    holds e [new_condition pattern 1 COND_NAME] path f_stat
      = !e.fnmatch pattern (calc_basename t path).2 := by
  unfold holds
  simp only [eval_conds, cond_loop, new_condition]
  rw [cond_switch_name _ _ _ _ _ _ rfl, calc_basename_indep _ t path hne hnul]
  simp only [apply_reverse]
  cases e.fnmatch pattern (calc_basename t path).2 <;> rfl

theorem basename_next_path (t : List Char) (path d_name : CStr) (hnul : NUL ∉ path)
    (h1 : NUL ∉ d_name) (h2 : '/' ∉ d_name) :
    (calc_basename t (next_path path d_name)).2 = d_name := by
  have hn : NUL ∉ next_path path d_name := by
    simp only [next_path, List.mem_append, List.mem_cons, not_or]
    exact ⟨hnul, nul_ne_slash, h1⟩
  have hne : next_path path d_name ≠ [] := next_path_ne_nil path d_name
  cases hp : next_path path d_name with
  | nil => exact absurd hp hne
  | cons a q =>
    rw [hp] at hn
    rw [calc_basename_tail t a q hn, ← after_last_slash_cons a q (by rw [← hp]; simp [next_path]),
      ← hp]
    exact after_last_slash_append path d_name h2

/-- C13 (amended): on a directory whose stream gives `.`, `..`, `a.txt` and `b.log`
(two files), with the single condition `! -name *.txt` and `-print`, the walk returns;
it prints the line of `b.log` and no line for `a.txt`; before it, it prints the line of
the starting directory itself unless `*.txt` matches what `calc_basename` returns for
the starting path. -/
theorem C13_negated_name (e : Env) (path : CStr) (d_stat a_stat b_stat : stat)
    (la lb : Option CStr) (w : World) (hne : path ≠ []) (hnul : NUL ∉ path)
    (hd : S_ISDIR d_stat.st_mode = true) (ha : S_ISDIR a_stat.st_mode = false)
    (hb : S_ISDIR b_stat.st_mode = false)
    (hma : e.fnmatch "*.txt".toList "a.txt".toList = true)
    (hmb : e.fnmatch "*.txt".toList "b.log".toList = false) :
    (find_r e [new_condition "*.txt".toList 1 COND_NAME] CMD_PRINT path
        (dir_ab d_stat (.mk (some a_stat) la false .nil) (.mk (some b_stat) lb false .nil))
        w).value = some () ∧
    (find_r e [new_condition "*.txt".toList 1 COND_NAME] CMD_PRINT path
        (dir_ab d_stat (.mk (some a_stat) la false .nil) (.mk (some b_stat) lb false .nil))
        w).world.stdout
      = w.stdout
        ++ (if e.fnmatch "*.txt".toList (calc_basename w.tmp path).2 then []
            else path ++ ['\n'])
        ++ (next_path path "b.log".toList ++ ['\n']) := by
  have h := find_r_shown_report e [new_condition "*.txt".toList 1 COND_NAME] CMD_PRINT
    (by decide) (dir_ab d_stat (.mk (some a_stat) la false .nil)
      (.mk (some b_stat) lb false .nil)) path w hne hnul rfl
  rw [report_print] at h
  obtain ⟨hs, hv⟩ := res_shown_stdout _ _ h
  refine ⟨hv, ?_⟩
  rw [hs]
  have hdot1 : is_dot ".".toList = true := by decide
  have hdot2 : is_dot "..".toList = true := by decide
  have hdot3 : is_dot "a.txt".toList = false := by decide
  have hdot4 : is_dot "b.log".toList = false := by decide
  have hva : holds e [new_condition "*.txt".toList 1 COND_NAME]
      (next_path path "a.txt".toList) a_stat = false := by
    rw [holds_not_name e _ _ a_stat w.tmp (next_path_ne_nil _ _)
      (nul_not_mem_next_path path _ hnul (by decide)),
      basename_next_path w.tmp path _ hnul (by decide) (by decide), hma]
    rfl
  have hvb : holds e [new_condition "*.txt".toList 1 COND_NAME]
      (next_path path "b.log".toList) b_stat = true := by
    rw [holds_not_name e _ _ b_stat w.tmp (next_path_ne_nil _ _)
      (nul_not_mem_next_path path _ hnul (by decide)),
      basename_next_path w.tmp path _ hnul (by decide) (by decide), hmb]
    rfl
  have hvd := holds_not_name e "*.txt".toList path d_stat w.tmp hne hnul
  simp only [Node.reported, dir_ab, Node.visits, DirList.visits, hd, ha, hb, hdot1, hdot2,
    hdot3, hdot4, Bool.and_true, Bool.and_false, if_true, Bool.false_eq_true, if_false,
    List.nil_append, List.append_nil, List.cons_append, List.filter_cons, List.filter_nil,
    hva, hvb, hvd, printf]
  cases e.fnmatch "*.txt".toList (calc_basename w.tmp path).2 <;>
    simp [lines, Res.world]

/-- C13, on the directory `/d`: the lines of `/d` and of `/d/b.log`. -/
theorem C13_negated_name_witness :
    "/d".toList ≠ [] ∧ NUL ∉ "/d".toList ∧ S_ISDIR 0o040755 = true ∧
    S_ISDIR 0o100644 = false ∧
    env0.fnmatch "*.txt".toList "a.txt".toList = true ∧
    env0.fnmatch "*.txt".toList "b.log".toList = false ∧
    (find_r env0 [new_condition "*.txt".toList 1 COND_NAME] CMD_PRINT "/d".toList
        (dir_ab { st_mode := 0o040755, st_ino := 1, st_size := 4096, st_nlink := 2,
                  st_uid := 1000, st_gid := 50, st_mtime := 1710498600 }
          (.mk (some { st_mode := 0o100644, st_ino := 2, st_size := 1, st_nlink := 1,
                       st_uid := 1000, st_gid := 50, st_mtime := 1710498600 }) none false .nil)
          (.mk (some { st_mode := 0o100644, st_ino := 3, st_size := 1, st_nlink := 1,
                       st_uid := 1000, st_gid := 50, st_mtime := 1710498600 }) none false .nil))
        (World.init env0)).world.stdout
      = (World.init env0).stdout
        ++ (if env0.fnmatch "*.txt".toList (calc_basename (World.init env0).tmp "/d".toList).2
            then [] else "/d".toList ++ ['\n'])
        ++ (next_path "/d".toList "b.log".toList ++ ['\n']) ∧
    env0.fnmatch "*.txt".toList (calc_basename (World.init env0).tmp "/d".toList).2 = false :=
  ⟨by decide, by decide, by decide, by decide, by decide, by decide,
    (C13_negated_name env0 "/d".toList
      { st_mode := 0o040755, st_ino := 1, st_size := 4096, st_nlink := 2,
        st_uid := 1000, st_gid := 50, st_mtime := 1710498600 }
      { st_mode := 0o100644, st_ino := 2, st_size := 1, st_nlink := 1,
        st_uid := 1000, st_gid := 50, st_mtime := 1710498600 }
      { st_mode := 0o100644, st_ino := 3, st_size := 1, st_nlink := 1,
        st_uid := 1000, st_gid := 50, st_mtime := 1710498600 }
      none none (World.init env0) (by decide) (by decide) (by decide) (by decide) (by decide)
      (by decide) (by decide)).2,
    by decide⟩

/-- C13 as stated fails: on the directory `/d` that holds `a.txt` and `b.log`, the walk
with `! -name *.txt` and `-print` prints two lines, the line of `/d` itself and the
line of `/d/b.log`. -/
theorem C13_starting_directory_printed :
    (find_r env0 [new_condition "*.txt".toList 1 COND_NAME] CMD_PRINT "/d".toList
        (dir_ab { st_mode := 0o040755, st_ino := 1, st_size := 4096, st_nlink := 2,
                  st_uid := 1000, st_gid := 50, st_mtime := 1710498600 }
          (reg_file 2 1) (reg_file 3 1))
        (World.init env0)).world.stdout = "/d\n/d/b.log\n".toList := by
  decide

theorem under_iff (p q : CStr) :
    under p q = true ↔ ∃ s, q = p ++ s ∧ (s = [] ∨ s.head? = some '/') := by
  unfold under
  rw [Bool.and_eq_true, List.isPrefixOf_iff_prefix]
  constructor
  · rintro ⟨⟨t, rfl⟩, h⟩
    rw [List.drop_left] at h
    refine ⟨t, rfl, ?_⟩
    cases t with
    | nil => exact Or.inl rfl
    | cons c r =>
      right
      simp only [beq_iff_eq] at h
      simp [h]
  · rintro ⟨s, rfl, hs⟩
    refine ⟨⟨s, rfl⟩, ?_⟩
    rw [List.drop_left]
    cases s with
    | nil => rfl
    | cons c r =>
      rcases hs with h | h
      · exact absurd h (by simp)
      · simp only [List.head?_cons, Option.some.injEq] at h
        simp [h]

theorem under_refl (p : CStr) : under p p = true :=
  (under_iff p p).2 ⟨[], by simp, Or.inl rfl⟩

theorem under_trans {a b c : CStr} (h1 : under a b = true) (h2 : under b c = true) :
    under a c = true := by
  rw [under_iff] at h1 h2 ⊢
  obtain ⟨s1, rfl, hs1⟩ := h1
  obtain ⟨s2, rfl, hs2⟩ := h2
  refine ⟨s1 ++ s2, by simp, ?_⟩
  rcases hs1 with r | r
  · subst r
    simpa using hs2
  · right
    cases s1 with
    | nil => simp at r
    | cons x t => simpa using r

theorem under_next_path (p d_name : CStr) : under p (next_path p d_name) = true :=
  (under_iff _ _).2 ⟨'/' :: d_name, rfl, Or.inr rfl⟩

/-- No path is below a path that is longer. -/
theorem under_length {p q : CStr} (h : under p q = true) : p.length ≤ q.length := by
  rw [under_iff] at h
  obtain ⟨s, rfl, _⟩ := h
  simp

theorem not_under_next_path (p d_name q : CStr) (h : under (next_path p d_name) q = true) :
    under q p = false := by
  cases hc : under q p with
  | false => rfl
  | true =>
    have h1 := under_length (under_trans h hc)
    simp [next_path] at h1

/-- A path is not at or below two entries of one directory. -/
theorem under_next_path_inj (p a b q : CStr) (ha : '/' ∉ a) (hb : '/' ∉ b)
    (h1 : under (next_path p a) q = true) (h2 : under (next_path p b) q = true) : a = b := by
  rw [under_iff] at h1 h2
  obtain ⟨s1, hq1, hs1⟩ := h1
  obtain ⟨s2, hq2, hs2⟩ := h2
  have heq : a ++ s1 = b ++ s2 := by
    have h := hq1.symm.trans hq2
    simpa [next_path] using h
  exact no_slash_split a b s1 s2 ha hb hs1 hs2 heq
mutual
theorem node_visits_paths : ∀ (n : Node) (p : CStr),
    (Node.visits p n).map (fun v => v.1) = Node.paths p n
  | .mk lstat link od ents, p => by
    cases lstat with
    | none => rfl
    | some f_stat =>
      simp only [Node.visits, Node.paths, Node.entries, List.map_cons]
      split
      · rw [dirlist_visits_paths ents p]
      · rfl
theorem dirlist_visits_paths : ∀ (ds : DirList) (p : CStr),
    (DirList.visits p ds).map (fun v => v.1) = (DirList.entries p ds).map Prod.fst
  | .nil, p => rfl
  | .cons d_name child rest, p => by
    simp only [DirList.visits, DirList.entries, List.map_append, dirlist_visits_paths rest p]
    split
    · rfl
    · have h := node_visits_paths child (next_path p d_name)
      simp only [Node.paths] at h
      rw [h]
end

mutual
theorem node_subtrees_paths : ∀ (n : Node) (p : CStr),
    (Node.subtrees p n).map (fun x => x.1) = Node.paths p n
  | .mk lstat link od ents, p => by
    cases lstat with
    | none => rfl
    | some f_stat =>
      simp only [Node.subtrees, Node.paths, Node.entries, List.map_cons]
      split
      · rw [dirlist_subtrees_paths ents p]
      · rfl
theorem dirlist_subtrees_paths : ∀ (ds : DirList) (p : CStr),
    (DirList.subtrees p ds).map (fun x => x.1) = (DirList.entries p ds).map Prod.fst
  | .nil, p => rfl
  | .cons d_name child rest, p => by
    simp only [DirList.subtrees, DirList.entries, List.map_append,
      dirlist_subtrees_paths rest p]
    split
    · rfl
    · have h := node_subtrees_paths child (next_path p d_name)
      simp only [Node.paths] at h
      rw [h]
end

/-- Every entry visited in a tree is at or below the root of the tree. -/
theorem node_visits_under (n : Node) (p : CStr) (v : CStr × stat × Option CStr)
    (h : v ∈ Node.visits p n) : under p v.1 = true := by
  rw [under_iff]
  apply node_paths_shape n p v.1
  rw [← node_visits_paths]
  exact List.mem_map_of_mem _ h

/-- Every entry visited below a directory is at or below an entry of its stream. -/
theorem dirlist_visits_under (ds : DirList) (p : CStr) (v : CStr × stat × Option CStr)
    (h : v ∈ DirList.visits p ds) :
    ∃ nm ∈ DirList.names ds, under (next_path p nm) v.1 = true := by
  have h1 : v.1 ∈ (DirList.entries p ds).map Prod.fst := by
    rw [← dirlist_visits_paths]
    exact List.mem_map_of_mem _ h
  obtain ⟨nm, hnm, hs⟩ := dirlist_paths_shape ds p v.1 h1
  exact ⟨nm, hnm, (under_iff _ _).2 hs⟩

theorem node_subtrees_under (n : Node) (p : CStr) (x : CStr × Node)
    (h : x ∈ Node.subtrees p n) : under p x.1 = true := by
  rw [under_iff]
  apply node_paths_shape n p x.1
  rw [← node_subtrees_paths]
  exact List.mem_map_of_mem _ h

theorem dirlist_subtrees_under (ds : DirList) (p : CStr) (x : CStr × Node)
    (h : x ∈ DirList.subtrees p ds) :
    ∃ nm ∈ DirList.names ds, under (next_path p nm) x.1 = true := by
  have h1 : x.1 ∈ (DirList.entries p ds).map Prod.fst := by
    rw [← dirlist_subtrees_paths]
    exact List.mem_map_of_mem _ h
  obtain ⟨nm, hnm, hs⟩ := dirlist_paths_shape ds p x.1 h1
  exact ⟨nm, hnm, (under_iff _ _).2 hs⟩

/-- What is at or below one entry of a directory is not at or below what is at or
below another entry of it. -/
theorem under_other_entry (p a b q r : CStr) (ha : '/' ∉ a) (hb : '/' ∉ b) (hab : a ≠ b)
    (hq : under (next_path p a) q = true) (hr : under (next_path p b) r = true) :
    under q r = false := by
  cases hc : under q r with
  | false => rfl
  | true => exact absurd (under_next_path_inj p a b r ha hb (under_trans hq hc) hr) hab

theorem names_ok_cons (d_name : CStr) (child : Node) (rest : DirList)
    (h : DirList.names_ok (.cons d_name child rest) = true) :
    '/' ∉ d_name ∧ d_name ∉ DirList.names rest ∧ Node.names_ok child = true
      ∧ DirList.names_ok rest = true := by
  simp only [DirList.names_ok, Bool.and_eq_true, Bool.not_eq_true', List.contains_eq_any_beq,
    List.any_eq_false, beq_iff_eq] at h
  refine ⟨fun hc => h.1.1.1 '/' hc rfl, fun hc => h.1.1.2 d_name hc rfl, h.1.2, h.2⟩

theorem pairwise_of_left {α : Type} {R : α → α → Prop} :
    ∀ l : List α, (∀ a ∈ l, ∀ b, R a b) → l.Pairwise R
  | [], _ => List.Pairwise.nil
  | a :: t, h =>
    List.Pairwise.cons (fun b _ => h a (List.mem_cons_self _ _) b)
      (pairwise_of_left t fun c hc b => h c (List.mem_cons_of_mem _ hc) b)

theorem pairwise_of_right {α : Type} {R : α → α → Prop} :
    ∀ l : List α, (∀ b ∈ l, ∀ a, R a b) → l.Pairwise R
  | [], _ => List.Pairwise.nil
  | a :: t, h =>
    List.Pairwise.cons (fun b hb => h b (List.mem_cons_of_mem _ hb) a)
      (pairwise_of_right t fun c hc b => h c (List.mem_cons_of_mem _ hc) b)

mutual
/-- In the order of the walk no entry stands before an entry that it is at or below. -/
theorem node_visits_parent_first : ∀ (n : Node) (p : CStr), Node.names_ok n = true →
    (Node.visits p n).Pairwise fun u t => under t.1 u.1 = false
  | .mk lstat link od ents, p, hok => by
    cases lstat with
    | none => exact List.Pairwise.nil
    | some f_stat =>
      simp only [Node.visits]
      simp only [Node.names_ok] at hok
      rw [List.pairwise_cons]
      split
      · refine ⟨?_, dirlist_visits_parent_first ents p hok⟩
        intro t ht
        obtain ⟨nm, _, hu⟩ := dirlist_visits_under ents p t ht
        exact not_under_next_path p nm t.1 hu
      · exact ⟨fun t ht => absurd ht (List.not_mem_nil _), List.Pairwise.nil⟩
/-- The same below a directory. -/
theorem dirlist_visits_parent_first : ∀ (ds : DirList) (p : CStr),
    DirList.names_ok ds = true →
    (DirList.visits p ds).Pairwise fun u t => under t.1 u.1 = false
  | .nil, p, _ => List.Pairwise.nil
  | .cons d_name child rest, p, hok => by
    have hns := dirlist_names_no_slash (.cons d_name child rest) hok
    obtain ⟨hd, hnot, hc, hr⟩ := names_ok_cons d_name child rest hok
    simp only [DirList.visits]
    rw [List.pairwise_append]
    refine ⟨?_, dirlist_visits_parent_first rest p hr, ?_⟩
    · split
      · exact List.Pairwise.nil
      · exact node_visits_parent_first child (next_path p d_name) hc
    · intro u hu t ht
      split at hu
      · exact absurd hu (List.not_mem_nil _)
      · obtain ⟨nm, hnm, htu⟩ := dirlist_visits_under rest p t ht
        have hne : nm ≠ d_name := fun h => hnot (h ▸ hnm)
        exact under_other_entry p nm d_name t.1 u.1
          (hns nm (List.mem_cons_of_mem _ hnm)) hd hne htu
          (node_visits_under child _ u hu)
end

mutual
/-- The entries visited at and below a visited node stand in one piece in the order of
the walk, and no other visited entry is at or below the node. -/
theorem node_subtree_block : ∀ (n : Node) (p : CStr), Node.names_ok n = true →
    ∀ x ∈ Node.subtrees p n, ∃ A C, Node.visits p n = A ++ Node.visits x.1 x.2 ++ C ∧
      ∀ u ∈ A ++ C, under x.1 u.1 = false
  | .mk lstat link od ents, p, hok, x, hx => by
    cases lstat with
    | none => exact absurd hx (List.not_mem_nil _)
    | some f_stat =>
      simp only [Node.subtrees, List.mem_cons] at hx
      simp only [Node.names_ok] at hok
      rcases hx with r | r
      · subst r
        exact ⟨[], [], by simp, fun u hu => absurd hu (List.not_mem_nil _)⟩
      · cases hc : (S_ISDIR f_stat.st_mode && od) with
        | false =>
          rw [hc] at r
          exact absurd r (List.not_mem_nil _)
        | true =>
          rw [hc] at r
          simp only [if_true] at r
          obtain ⟨A, C, hV, hAC⟩ := dirlist_subtree_block ents p hok x r
          refine ⟨(p, f_stat, link) :: A, C, ?_, ?_⟩
          · simp only [Node.visits, hc, if_true, hV, List.cons_append]
          · intro u hu
            simp only [List.cons_append, List.mem_cons] at hu
            rcases hu with r2 | r2
            · subst r2
              obtain ⟨nm, _, hxu⟩ := dirlist_subtrees_under ents p x r
              exact not_under_next_path p nm x.1 hxu
            · exact hAC u r2
/-- The same below a directory. -/
theorem dirlist_subtree_block : ∀ (ds : DirList) (p : CStr), DirList.names_ok ds = true →
    ∀ x ∈ DirList.subtrees p ds, ∃ A C, DirList.visits p ds = A ++ Node.visits x.1 x.2 ++ C ∧
      ∀ u ∈ A ++ C, under x.1 u.1 = false
  | .nil, p, _, x, hx => absurd hx (List.not_mem_nil _)
  | .cons d_name child rest, p, hok, x, hx => by
    have hns := dirlist_names_no_slash (.cons d_name child rest) hok
    obtain ⟨hd, hnot, hc, hr⟩ := names_ok_cons d_name child rest hok
    simp only [DirList.subtrees, List.mem_append] at hx
    rcases hx with r | r
    · cases hdot : is_dot d_name with
      | true =>
        rw [hdot] at r
        exact absurd r (List.not_mem_nil _)
      | false =>
        rw [hdot] at r
        simp only [Bool.false_eq_true, if_false] at r
        obtain ⟨A, C, hV, hAC⟩ := node_subtree_block child (next_path p d_name) hc x r
        refine ⟨A, C ++ DirList.visits p rest, ?_, ?_⟩
        · simp only [DirList.visits, hdot, Bool.false_eq_true, if_false, hV,
            List.append_assoc]
        · intro u hu
          rw [← List.append_assoc, List.mem_append] at hu
          rcases hu with r2 | r2
          · exact hAC u r2
          · obtain ⟨nm, hnm, hun⟩ := dirlist_visits_under rest p u r2
            have hne : d_name ≠ nm := fun h => hnot (h ▸ hnm)
            exact under_other_entry p d_name nm x.1 u.1 hd
              (hns nm (List.mem_cons_of_mem _ hnm)) hne
              (node_subtrees_under child _ x r) hun
    · obtain ⟨A, C, hV, hAC⟩ := dirlist_subtree_block rest p hr x r
      refine ⟨(if is_dot d_name then [] else Node.visits (next_path p d_name) child) ++ A, C,
        ?_, ?_⟩
      · simp only [DirList.visits, hV, List.append_assoc]
      · intro u hu
        rw [List.append_assoc, List.mem_append] at hu
        rcases hu with r2 | r2
        · split at r2
          · exact absurd r2 (List.not_mem_nil _)
          · obtain ⟨nm, hnm, hxn⟩ := dirlist_subtrees_under rest p x r
            have hne : nm ≠ d_name := fun h => hnot (h ▸ hnm)
            exact under_other_entry p nm d_name x.1 u.1
              (hns nm (List.mem_cons_of_mem _ hnm)) hd hne hxn
              (node_visits_under child _ u r2)
        · exact hAC u r2
end

mutual
theorem node_subtrees_names_ok : ∀ (n : Node) (p : CStr), Node.names_ok n = true →
    ∀ x ∈ Node.subtrees p n, Node.names_ok x.2 = true
  | .mk lstat link od ents, p, hok, x, hx => by
    cases lstat with
    | none => exact absurd hx (List.not_mem_nil _)
    | some f_stat =>
      simp only [Node.subtrees, List.mem_cons] at hx
      rcases hx with r | r
      · subst r
        exact hok
      · simp only [Node.names_ok] at hok
        split at r
        · exact dirlist_subtrees_names_ok ents p hok x r
        · exact absurd r (List.not_mem_nil _)
theorem dirlist_subtrees_names_ok : ∀ (ds : DirList) (p : CStr), DirList.names_ok ds = true →
    ∀ x ∈ DirList.subtrees p ds, Node.names_ok x.2 = true
  | .nil, p, _, x, hx => absurd hx (List.not_mem_nil _)
  | .cons d_name child rest, p, hok, x, hx => by
    obtain ⟨_, _, hc, hr⟩ := names_ok_cons d_name child rest hok
    simp only [DirList.subtrees, List.mem_append] at hx
    rcases hx with r | r
    · split at r
      · exact absurd r (List.not_mem_nil _)
      · exact node_subtrees_names_ok child _ hc x r
    · exact dirlist_subtrees_names_ok rest p hr x r
end

theorem under_entry_under (d b q : CStr) (h : under d q = false) :
    under (next_path d b) q = false := by
  cases hc : under (next_path d b) q with
  | false => rfl
  | true =>
    rw [under_trans (under_next_path d b) hc] at h
    exact Bool.noConfusion h

theorem under_entry_self (d b : CStr) : under (next_path d b) d = false :=
  not_under_next_path d b (next_path d b) (under_refl _)

/-- Below a directory, with the name `a` before the name `b` in its stream, no entry at
or below `b` stands before an entry at or below `a` in the order of the walk. -/
theorem dirlist_visits_stream_order : ∀ (ds : DirList) (p : CStr),
    DirList.names_ok ds = true →
    ∀ (N1 : List CStr) (a : CStr) (N2 : List CStr) (b : CStr),
      DirList.names ds = N1 ++ a :: N2 → b ∈ N2 →
      (DirList.visits p ds).Pairwise fun u t =>
        ¬ (under (next_path p b) u.1 = true ∧ under (next_path p a) t.1 = true)
  | .nil, p, _, _, _, _, _, _, _ => List.Pairwise.nil
  | .cons d_name child rest, p, hok, N1, a, N2, b, hn, hb => by
    have hns := dirlist_names_no_slash (.cons d_name child rest) hok
    obtain ⟨hd, hnot, hc, hr⟩ := names_ok_cons d_name child rest hok
    simp only [DirList.names] at hn
    have hbr : b ∈ DirList.names rest := by
      cases N1 with
      | nil =>
        simp only [List.nil_append, List.cons.injEq] at hn
        rw [hn.2]; exact hb
      | cons c N1t =>
        simp only [List.cons_append, List.cons.injEq] at hn
        rw [hn.2]
        simp [hb]
    have hbs : '/' ∉ b := hns b (List.mem_cons_of_mem _ hbr)
    have hleft : ∀ u ∈ (if is_dot d_name then []
        else Node.visits (next_path p d_name) child),
        ∀ t : CStr × stat × Option CStr,
          ¬ (under (next_path p b) u.1 = true ∧ under (next_path p a) t.1 = true) := by
      intro u hu t hut
      split at hu
      · exact absurd hu (List.not_mem_nil _)
      · have h1 := node_visits_under child _ u hu
        have := under_next_path_inj p b d_name u.1 hbs hd hut.1 h1
        exact hnot (this ▸ hbr)
    simp only [DirList.visits]
    rw [List.pairwise_append]
    refine ⟨pairwise_of_left _ hleft, ?_, fun u hu t _ => hleft u hu t⟩
    cases N1 with
    | nil =>
      simp only [List.nil_append, List.cons.injEq] at hn
      apply pairwise_of_right
      intro t ht u hut
      obtain ⟨nm, hnm, htn⟩ := dirlist_visits_under rest p t ht
      have := under_next_path_inj p a nm t.1 (hn.1 ▸ hd)
        (hns nm (List.mem_cons_of_mem _ hnm)) hut.2 htn
      exact hnot (hn.1 ▸ this ▸ hnm)
    | cons c N1t =>
      simp only [List.cons_append, List.cons.injEq] at hn
      exact dirlist_visits_stream_order rest p hr N1t a N2 b hn.2 hb

/-- In the walk of a tree, for every visited node and names `a` before `b` in the
stream of the node, no entry at or below `b` stands before an entry at or below `a`. -/
theorem node_visits_stream_order (n : Node) (p : CStr) (hok : Node.names_ok n = true)
    (x : CStr × Node) (hx : x ∈ Node.subtrees p n)
    (lstat : Option stat) (link : Option CStr) (od : Bool) (ds : DirList)
    (hx2 : x.2 = .mk lstat link od ds)
    (N1 : List CStr) (a : CStr) (N2 : List CStr) (b : CStr)
    (hn : DirList.names ds = N1 ++ a :: N2) (hb : b ∈ N2) :
    (Node.visits p n).Pairwise fun u t =>
      ¬ (under (next_path x.1 b) u.1 = true ∧ under (next_path x.1 a) t.1 = true) := by
  obtain ⟨A, C, hV, hAC⟩ := node_subtree_block n p hok x hx
  have hxok := node_subtrees_names_ok n p hok x hx
  rw [hx2] at hxok hV
  simp only [Node.names_ok] at hxok
  have hL : ∀ u ∈ A ++ C, ∀ t : CStr × stat × Option CStr,
      ¬ (under (next_path x.1 b) u.1 = true ∧ under (next_path x.1 a) t.1 = true) := by
    intro u hu t hut
    rw [under_entry_under x.1 b u.1 (hAC u hu)] at hut
    exact Bool.noConfusion hut.1
  have hR : ∀ t ∈ A ++ C, ∀ u : CStr × stat × Option CStr,
      ¬ (under (next_path x.1 b) u.1 = true ∧ under (next_path x.1 a) t.1 = true) := by
    intro t ht u hut
    rw [under_entry_under x.1 a t.1 (hAC t ht)] at hut
    exact Bool.noConfusion hut.2
  rw [hV, List.pairwise_append, List.pairwise_append]
  refine ⟨⟨pairwise_of_left _ fun u hu => hL u (List.mem_append_left _ hu), ?_,
      fun u hu t _ => hL u (List.mem_append_left _ hu) t⟩,
    pairwise_of_left _ fun u hu => hL u (List.mem_append_right _ hu),
    fun u _ t ht => hR t (List.mem_append_right _ ht) u⟩
  cases lstat with
  | none => exact List.Pairwise.nil
  | some f_stat =>
    simp only [Node.visits]
    rw [List.pairwise_cons]
    constructor
    · intro t _ hut
      rw [under_entry_self] at hut
      exact Bool.noConfusion hut.1
    · split
      · exact dirlist_visits_stream_order ds x.1 hxok N1 a N2 b hn hb
      · exact List.Pairwise.nil

theorem cond_switch_world_shown (e : Env) (path : CStr) (f_stat : stat) (c : condition)
    (ct : Bool) (w : World) : (cond_switch e path f_stat c ct w).world.shown = w.shown := by
  by_cases h1 : c.type = COND_NAME
  · rw [cond_switch_name _ _ _ _ _ _ h1]; rfl
  · by_cases h2 : c.type = COND_TYPE
    · rw [cond_switch_type _ _ _ _ _ _ h2]
      cases type_test (c.data.headD NUL) f_stat.st_mode <;> rfl
    · rw [cond_switch_other _ _ _ _ _ _ h1 h2]; rfl

/-- Whatever the conditions, the condition loop leaves the state, as shown, as it
was, also when it ends the process. -/
theorem cond_loop_world_shown (e : Env) (path : CStr) (f_stat : stat) (P : List condition) :
    ∀ (ct : Bool) (w : World), (cond_loop e path f_stat P ct w).world.shown = w.shown := by
  induction P with
  | nil => intro ct w; rfl
  | cons c rest ih =>
    intro ct w
    have hs := cond_switch_world_shown e path f_stat c ct w
    rw [cond_loop]
    cases hc : cond_switch e path f_stat c ct w with
    | exit w1 => rw [hc] at hs; exact hs
    | ok b w1 =>
      rw [hc] at hs
      dsimp only
      split
      · exact hs
      · rw [ih]; exact hs

theorem report_append (e : Env) (cmd : Nat) (R1 R2 : List (CStr × stat × Option CStr)) :
    ∀ w : World, report e cmd (R1 ++ R2) w = (report e cmd R1 w).andThen (report e cmd R2) := by
  induction R1 with
  | nil => intro w; rfl
  | cons v t ih =>
    intro w
    simp only [List.cons_append, report]
    cases perform_cmd e cmd v.1 v.2.1 v.2.2 w with
    | exit w1 => rfl
    | ok u w1 => exact ih w1

mutual
/-- Whatever the conditions and the command, what `find_r` shows on standard output is
what the command shows when performed, in order, on some of the visited entries, taken
in the order of the walk. -/
theorem find_r_sublist (e : Env) (P : List condition) (cmd : Nat) :
    ∀ (n : Node) (path : CStr) (w w1 : World), w.shown = w1.shown →
      ∃ R : List (CStr × stat × Option CStr), R.Sublist (Node.visits path n) ∧
        (find_r e P cmd path n w).world.shown = (report e cmd R w1).world.shown ∧
        ∀ u w2, find_r e P cmd path n w = .ok u w2 → ∃ w3, report e cmd R w1 = .ok () w3
  | .mk lstat link od ents, path, w, w1, h => by
    cases lstat with
    | none =>
      exact ⟨[], List.Sublist.refl _, h, fun _ _ _ => ⟨w1, rfl⟩⟩
    | some f_stat =>
      have hrest : ∀ wa wb : World, wa.shown = wb.shown →
          ∃ R : List (CStr × stat × Option CStr),
            R.Sublist (if S_ISDIR f_stat.st_mode && od then DirList.visits path ents else []) ∧
            (if S_ISDIR f_stat.st_mode then
                if od then readdir_loop e P cmd path ents wa else .ok () (perror path wa)
              else Res.ok () wa).world.shown = (report e cmd R wb).world.shown ∧
            ∀ u w2, (if S_ISDIR f_stat.st_mode then
                if od then readdir_loop e P cmd path ents wa else .ok () (perror path wa)
              else Res.ok () wa) = .ok u w2 → ∃ w3, report e cmd R wb = .ok () w3 := by
        intro wa wb hab
        cases hdir : S_ISDIR f_stat.st_mode
        · exact ⟨[], List.Sublist.refl _, hab, fun _ _ _ => ⟨wb, rfl⟩⟩
        · cases od
          · exact ⟨[], List.Sublist.refl _, hab, fun _ _ _ => ⟨wb, rfl⟩⟩
          · exact readdir_loop_sublist e P cmd ents path wa wb hab
      have hev : (eval_conds e path f_stat P w).world.shown = w.shown :=
        cond_loop_world_shown e path f_stat P _ w
      simp only [find_r, Node.visits]
      cases hr : eval_conds e path f_stat P w with
      | exit w2 =>
        rw [hr] at hev
        exact ⟨[], List.nil_sublist _, hev.trans h, fun _ _ hc => Res.noConfusion hc⟩
      | ok ct w2 =>
        rw [hr] at hev
        have h2 : w2.shown = w1.shown := hev.trans h
        cases ct with
        | false =>
          obtain ⟨R, hs, hw, hk⟩ := hrest w2 w1 h2
          exact ⟨R, List.Sublist.cons _ hs, hw, hk⟩
        | true =>
          simp only [if_true]
          have hp := perform_cmd_shown e cmd path f_stat link w2 w1 h2
          cases hq : perform_cmd e cmd path f_stat link w2 with
          | exit w4 =>
            cases hq1 : perform_cmd e cmd path f_stat link w1 with
            | exit w5 =>
              rw [hq, hq1] at hp
              refine ⟨[(path, f_stat, link)], List.Sublist.cons₂ _ (List.nil_sublist _), ?_,
                fun _ _ hc => Res.noConfusion hc⟩
              simp only [report, hq1]
              exact res_shown_exit_inj hp
            | ok u w5 => rw [hq, hq1] at hp; exact Res.noConfusion hp
          | ok u w4 =>
            cases hq1 : perform_cmd e cmd path f_stat link w1 with
            | exit w5 => rw [hq, hq1] at hp; exact Res.noConfusion hp
            | ok u1 w5 =>
              rw [hq, hq1] at hp
              obtain ⟨R, hs, hw, hk⟩ := hrest w4 w5 (res_shown_ok_inj hp).2
              refine ⟨(path, f_stat, link) :: R, List.Sublist.cons₂ _ hs, ?_, ?_⟩
              · simp only [report, hq1]
                exact hw
              · simp only [report, hq1]
                exact hk
/-- The same for the loop over the stream of a directory. -/
theorem readdir_loop_sublist (e : Env) (P : List condition) (cmd : Nat) :
    ∀ (ds : DirList) (path : CStr) (w w1 : World), w.shown = w1.shown →
      ∃ R : List (CStr × stat × Option CStr), R.Sublist (DirList.visits path ds) ∧
        (readdir_loop e P cmd path ds w).world.shown = (report e cmd R w1).world.shown ∧
        ∀ u w2, readdir_loop e P cmd path ds w = .ok u w2 →
          ∃ w3, report e cmd R w1 = .ok () w3
  | .nil, path, w, w1, h => ⟨[], List.Sublist.refl _, h, fun _ _ _ => ⟨w1, rfl⟩⟩
  | .cons d_name child rest, path, w, w1, h => by
    cases hdot : is_dot d_name with
    | true =>
      obtain ⟨R, hs, hw, hk⟩ := readdir_loop_sublist e P cmd rest path w w1 h
      refine ⟨R, ?_, ?_, ?_⟩
      · simpa only [DirList.visits, hdot, if_true, List.nil_append] using hs
      · simpa only [readdir_loop, hdot, if_true] using hw
      · simpa only [readdir_loop, hdot, if_true] using hk
    | false =>
      obtain ⟨R1, hs1, hw1, hk1⟩ := find_r_sublist e P cmd child (next_path path d_name) w w1 h
      simp only [readdir_loop, DirList.visits, hdot, Bool.false_eq_true, if_false]
      cases hr : find_r e P cmd (next_path path d_name) child w with
      | exit w2 =>
        rw [hr] at hw1
        exact ⟨R1, hs1.trans (List.sublist_append_left _ _), hw1,
          fun _ _ hc => Res.noConfusion hc⟩
      | ok u w2 =>
        rw [hr] at hw1
        obtain ⟨w3, hq⟩ := hk1 u w2 hr
        rw [hq] at hw1
        obtain ⟨R2, hs2, hw2, hk2⟩ := readdir_loop_sublist e P cmd rest path w2 w3 hw1
        refine ⟨R1 ++ R2, List.Sublist.append hs1 hs2, ?_, ?_⟩
        · rw [report_append, hq]
          exact hw2
        · rw [report_append, hq]
          exact hk2
end

theorem res_world_shown {α : Type} (r q : Res α) (h : r.shown = q.shown) :
    r.world.shown = q.world.shown := by
  cases r with
  | ok a w =>
    cases q with
    | ok b w1 => exact (res_shown_ok_inj h).2
    | exit w1 => exact Res.noConfusion h
  | exit w =>
    cases q with
    | ok b w1 => exact Res.noConfusion h
    | exit w1 => exact res_shown_exit_inj h

theorem world_shown_stdout (w w1 : World) (h : w.shown = w1.shown) : w.stdout = w1.stdout := by
  have h1 : w.shown.stdout = w1.shown.stdout := by rw [h]
  exact h1

/-- What a sublist of the visited entries holds at and below a visited node stands in
one piece in it. -/
theorem sublist_block (R V A M C : List (CStr × stat × Option CStr)) (x : CStr)
    (hs : R.Sublist V) (hV : V = A ++ M ++ C) (hM : ∀ u ∈ M, under x u.1 = true)
    (hAC : ∀ u ∈ A ++ C, under x u.1 = false) :
    ∃ A1 D C1, R = A1 ++ D ++ C1 ∧ (∀ u ∈ D, under x u.1 = true) ∧
      ∀ u ∈ A1 ++ C1, under x u.1 = false := by
  rw [hV, List.sublist_append_iff] at hs
  obtain ⟨r1, C1, hR, h1, hC1⟩ := hs
  rw [List.sublist_append_iff] at h1
  obtain ⟨A1, D, hr1, hA1, hD⟩ := h1
  refine ⟨A1, D, C1, by rw [hR, hr1], fun u hu => hM u (hD.subset hu), ?_⟩
  intro u hu
  rw [List.mem_append] at hu
  rcases hu with r | r
  · exact hAC u (List.mem_append_left _ (hA1.subset r))
  · exact hAC u (List.mem_append_right _ (hC1.subset r))

theorem cond_switch_stdout (e : Env) (path : CStr) (f_stat : stat) (c : condition) (ct : Bool)
    (w : World) : (cond_switch e path f_stat c ct w).world.stdout = w.stdout := by
  by_cases h1 : c.type = COND_NAME
  · rw [cond_switch_name _ _ _ _ _ _ h1]; rfl
  · by_cases h2 : c.type = COND_TYPE
    · rw [cond_switch_type _ _ _ _ _ _ h2]
      cases type_test (c.data.headD NUL) f_stat.st_mode <;> rfl
    · rw [cond_switch_other _ _ _ _ _ _ h1 h2]; rfl

/-- The condition loop writes nothing on standard output, also when it ends the
process. -/
theorem cond_loop_stdout (e : Env) (path : CStr) (f_stat : stat) (P : List condition) :
    ∀ (ct : Bool) (w : World), (cond_loop e path f_stat P ct w).world.stdout = w.stdout := by
  induction P with
  | nil => intro ct w; rfl
  | cons c rest ih =>
    intro ct w
    have hs := cond_switch_stdout e path f_stat c ct w
    rw [cond_loop]
    cases hc : cond_switch e path f_stat c ct w with
    | exit w1 => rw [hc] at hs; exact hs
    | ok b w1 =>
      rw [hc] at hs
      dsimp only
      split
      · exact hs
      · rw [ih]; exact hs

/-- The standard output `b` continues the standard output `a`. -/
theorem grows_trans {a b c : List Char} (h1 : ∃ s, b = a ++ s) (h2 : ∃ s, c = b ++ s) :
    ∃ s, c = a ++ s := by
  obtain ⟨s1, h1⟩ := h1
  obtain ⟨s2, h2⟩ := h2
  exact ⟨s1 ++ s2, by rw [h2, h1, List.append_assoc]⟩

theorem cmd_ls_grows (e : Env) (path : CStr) (f_stat : stat) (link : Option CStr) (w : World) :
    ∃ s, (cmd_ls e path f_stat link w).world.stdout = w.stdout ++ s := by
  unfold cmd_ls
  cases e.getpwuid f_stat.st_uid with
  | none => exact ⟨[], by simp [Res.world, perror]⟩
  | some o =>
    cases e.getgrgid f_stat.st_gid with
    | none => exact ⟨[], by simp [Res.world, perror]⟩
    | some g =>
      dsimp only
      have hw1 : ∀ (a b : List Char) (c : Bool),
          ∃ s, (if c = true then printf a (printf b w) else printf b w).stdout
            = w.stdout ++ s := by
        intro a b c
        cases c
        · exact ⟨b, rfl⟩
        · exact ⟨b ++ a, by simp [printf, List.append_assoc]⟩
      obtain ⟨s1, hs1⟩ := hw1 (' ' :: fmt_ld f_stat.st_size)
        (fmt_d f_stat.st_ino ++ ' ' :: fmt_d (f_stat.st_size / 1024)
          ++ ' ' :: calc_perm_str f_stat.st_mode ++ ' ' :: fmt_d f_stat.st_nlink
          ++ ' ' :: o ++ ' ' :: g) (!S_ISBLK f_stat.st_mode && !S_ISCHR f_stat.st_mode)
      revert hs1
      generalize (if (!S_ISBLK f_stat.st_mode && !S_ISCHR f_stat.st_mode) = true then _
        else _) = W
      intro hs1
      unfold calc_date_str
      cases e.localtime f_stat.st_mtime with
      | none => exact ⟨s1, by simp only [Res.world, perror, hs1]⟩
      | some t =>
        dsimp only
        cases S_ISLNK f_stat.st_mode with
        | false =>
          refine ⟨s1 ++ (' ' :: strftime t ++ ' ' :: path) ++ ['\n'], ?_⟩
          simp [Res.world, printf, hs1, List.append_assoc]
        | true =>
          simp only [if_true]
          unfold calc_link_dest
          cases link with
          | none =>
            refine ⟨s1 ++ (' ' :: strftime t ++ ' ' :: path), ?_⟩
            simp [Res.world, printf, perror, hs1, List.append_assoc]
          | some target =>
            refine ⟨s1 ++ (' ' :: strftime t ++ ' ' :: path)
              ++ (" -> ".toList ++ cstr_at (readlink target W.link_dest e.MAX_PATH) 0
                ++ ['\n']), ?_⟩
            simp [Res.world, printf, hs1, List.append_assoc]

theorem perform_cmd_grows (e : Env) (cmd : Nat) (path : CStr) (f_stat : stat)
    (link : Option CStr) (w : World) :
    ∃ s, (perform_cmd e cmd path f_stat link w).world.stdout = w.stdout ++ s := by
  unfold perform_cmd
  split
  · exact ⟨path ++ ['\n'], rfl⟩
  · split
    · exact cmd_ls_grows e path f_stat link w
    · exact ⟨[], by simp [Res.world]⟩

mutual
/-- Whatever the conditions and the command, `find_r` only adds to the standard
output. -/
theorem find_r_grows (e : Env) (P : List condition) (cmd : Nat) :
    ∀ (n : Node) (path : CStr) (w : World),
      ∃ s, (find_r e P cmd path n w).world.stdout = w.stdout ++ s
  | .mk lstat link od ents, path, w => by
    cases lstat with
    | none => exact ⟨[], by simp [find_r, Res.world, perror]⟩
    | some f_stat =>
      simp only [find_r]
      have he : (eval_conds e path f_stat P w).world.stdout = w.stdout :=
        cond_loop_stdout e path f_stat P _ w
      cases hr : eval_conds e path f_stat P w with
      | exit w2 => rw [hr] at he; exact ⟨[], by simp [Res.world] at he ⊢; exact he⟩
      | ok ct w2 =>
        rw [hr] at he
        have he2 : w2.stdout = w.stdout := he
        dsimp only
        have hcmd : ∃ s, (if ct = true then perform_cmd e cmd path f_stat link w2
            else Res.ok () w2).world.stdout = w.stdout ++ s := by
          cases ct
          · exact ⟨[], by simp [Res.world, he2]⟩
          · rw [← he2]; exact perform_cmd_grows e cmd path f_stat link w2
        cases hq : (if ct = true then perform_cmd e cmd path f_stat link w2
            else Res.ok () w2) with
        | exit w3 => rw [hq] at hcmd; exact hcmd
        | ok u w3 =>
          rw [hq] at hcmd
          dsimp only
          split
          · split
            · exact grows_trans hcmd (readdir_loop_grows e P cmd ents path w3)
            · exact hcmd
          · exact hcmd
/-- The same for the loop over the stream of a directory. -/
theorem readdir_loop_grows (e : Env) (P : List condition) (cmd : Nat) :
    ∀ (ds : DirList) (path : CStr) (w : World),
      ∃ s, (readdir_loop e P cmd path ds w).world.stdout = w.stdout ++ s
  | .nil, path, w => ⟨[], by simp [readdir_loop, Res.world]⟩
  | .cons d_name child rest, path, w => by
    simp only [readdir_loop]
    split
    · exact readdir_loop_grows e P cmd rest path w
    · have h1 := find_r_grows e P cmd child (next_path path d_name) w
      cases hr : find_r e P cmd (next_path path d_name) child w with
      | exit w2 => rw [hr] at h1; exact h1
      | ok u w2 =>
        rw [hr] at h1
        exact grows_trans h1 (readdir_loop_grows e P cmd rest path w2)
end

/-- C19: the walk reports in pre-order, for every tree (in each directory the names
are distinct and hold no `/`), every condition list and either command.  What the walk
shows on standard output is what the command shows when performed, in order, on a list
`R` of entries, the reported entries: with `-print` the output is the lines of their
paths.  `R` is a sublist of the visited entries in the order of the walk, and with
recognized conditions on a C-string tree it is the list of the visited entries on which
the conditions hold.  In `R`: nothing reported before an entry `v` is at or below `v`,
so a directory stands before all that is reported below it; for every visited node,
what is reported at or below the node stands in one piece; and when the stream of a
visited node gives the name `a` before the name `b`, nothing at or below `a` is
reported after an entry at or below `b`. -/
theorem C19_preorder (e : Env) (P : List condition) (cmd : Nat) (path : CStr) (n : Node)
    (w : World) (hok : Node.names_ok n = true) :
    ∃ R : List (CStr × stat × Option CStr),
      R.Sublist (Node.visits path n) ∧
      (find_r e P cmd path n w).world.shown = (report e cmd R w).world.shown ∧
      (cmd = CMD_PRINT →
        (find_r e P cmd path n w).world.stdout = w.stdout ++ lines (R.map fun v => v.1)) ∧
      ((∀ c ∈ P, c.recognized = true) → path ≠ [] → NUL ∉ path →
        Node.names_cstr n = true → R = Node.reported e P path n) ∧
      (∀ A v B, R = A ++ v :: B → ∀ u ∈ A, under v.1 u.1 = false) ∧
      (∀ x ∈ Node.subtrees path n, ∃ A D C, R = A ++ D ++ C ∧
        (∀ u ∈ D, under x.1 u.1 = true) ∧ ∀ u ∈ A ++ C, under x.1 u.1 = false) ∧
      (∀ x ∈ Node.subtrees path n, ∀ lstat link od ds, x.2 = Node.mk lstat link od ds →
        ∀ (N1 : List CStr) (a : CStr) (N2 : List CStr) (b : CStr),
          DirList.names ds = N1 ++ a :: N2 → b ∈ N2 →
          ∀ A u B, R = A ++ u :: B → under (next_path x.1 b) u.1 = true →
            ∀ t ∈ B, under (next_path x.1 a) t.1 = false) := by
  have hmain : ∃ R : List (CStr × stat × Option CStr),
      R.Sublist (Node.visits path n) ∧
      (find_r e P cmd path n w).world.shown = (report e cmd R w).world.shown ∧
      ((∀ c ∈ P, c.recognized = true) → path ≠ [] → NUL ∉ path →
        Node.names_cstr n = true → R = Node.reported e P path n) := by
    by_cases H : (∀ c ∈ P, c.recognized = true) ∧ path ≠ [] ∧ NUL ∉ path
        ∧ Node.names_cstr n = true
    · exact ⟨Node.reported e P path n, List.filter_sublist _,
        res_world_shown _ _ (find_r_shown_report e P cmd H.1 n path w H.2.1 H.2.2.1 H.2.2.2),
        fun _ _ _ _ => rfl⟩
    · obtain ⟨R, hs, hw, _⟩ := find_r_sublist e P cmd n path w w rfl
      exact ⟨R, hs, hw, fun h1 h2 h3 h4 => absurd ⟨h1, h2, h3, h4⟩ H⟩
  obtain ⟨R, hs, hw, hex⟩ := hmain
  refine ⟨R, hs, hw, ?_, hex, ?_, ?_, ?_⟩
  · intro hc
    subst hc
    rw [report_print] at hw
    exact world_shown_stdout _ _ hw
  · intro A v B hR u hu
    have hp := (node_visits_parent_first n path hok).sublist hs
    rw [hR, List.pairwise_append] at hp
    exact hp.2.2 u hu v (List.mem_cons_self _ _)
  · intro x hx
    obtain ⟨A, C, hV, hAC⟩ := node_subtree_block n path hok x hx
    exact sublist_block R _ A _ C x.1 hs hV (fun u hu => node_visits_under x.2 x.1 u hu) hAC
  · intro x hx lstat link od ds hx2 N1 a N2 b hn hb A u B hR hu t ht
    have hp := (node_visits_stream_order n path hok x hx lstat link od ds hx2 N1 a N2 b
      hn hb).sublist hs
    rw [hR, List.pairwise_append, List.pairwise_cons] at hp
    cases hc : under (next_path x.1 a) t.1 with
    | false => rfl
    | true => exact absurd ⟨hu, hc⟩ (hp.2.1.1 t ht)

/-- C19, on `tree0` at `/r` with no condition and `-print`: the reported entries are
all visited entries, the output is their lines, `/r/x` before `/r/x/f1` and `/r/x/f2`,
these before `/r/y`, and nothing reported before an entry is at or below it. -/
theorem C19_preorder_witness :
    Node.names_ok tree0 = true ∧
    ∃ R : List (CStr × stat × Option CStr),
      R = Node.visits "/r".toList tree0 ∧
      (find_r env0 [] CMD_PRINT "/r".toList tree0 (World.init env0)).world.stdout
        = lines (R.map fun v => v.1) ∧
      lines (R.map fun v => v.1)
        = "/r\n/r/x\n/r/x/f1\n/r/x/f2\n/r/y\n/r/y/z\n/r/y/z/f3\n/r/y/f4\n/r/f5\n".toList ∧
      (∀ A v B, R = A ++ v :: B → ∀ u ∈ A, under v.1 u.1 = false) := by
  refine ⟨by decide, ?_⟩
  obtain ⟨R, _, _, h3, h4, h5, _, _⟩ :=
    C19_preorder env0 [] CMD_PRINT "/r".toList tree0 (World.init env0) (by decide)
  have hR : R = Node.visits "/r".toList tree0 :=
    (h4 (fun c hc => absurd hc (List.not_mem_nil _)) (by decide) (by decide)
      (by decide)).trans (reported_nil env0 _ _)
  refine ⟨R, hR, h3 rfl, ?_, h5⟩
  rw [hR]
  decide

end Find
